import Mathlib

/-!
# Distance policies and the pairwise evaluation engine of `pele`

A shallow embedding of `pele/distance.h` and `pele/simple_pairwise_potential.h`.

* `double` values are modelled by exact rationals `ℚ`.
* A raw `double *` is a total function `Nat → ℚ` (`Buf`); pointer arithmetic `p + off`
  is `Buf.ptr p off`.
* A `pele::Array<double>` is a size together with its storage (`pele.Array`).
* Template recursion over the dimension index `IDX` is recursion over `Nat`.
* The 32-bit `int` read by `round_fast` is an `ℤ` reduced modulo `2 ^ 32`.
-/

namespace pele

/-! ## Rounding -/

/-- The fallback `round` of the source (`_MSC_VER` branch), which is the rounding of
`std::round`: nearest integer, halves away from zero. -/
def round (r : ℚ) : ℚ :=
  if r > 0 then ((⌊r + 1 / 2⌋ : ℤ) : ℚ) else ((⌈r - 1 / 2⌉ : ℤ) : ℚ)

/-- Nearest integer, exact halves to the even neighbour: the rounding that an IEEE
double addition performs when the exact sum has to be represented with unit spacing. -/
def roundHalfEven (r : ℚ) : ℤ :=
  if r - (⌊r⌋ : ℤ) < 1 / 2 then ⌊r⌋
  else if 1 / 2 < r - (⌊r⌋ : ℤ) then ⌊r⌋ + 1
  else if ⌊r⌋ % 2 = 0 then ⌊r⌋ else ⌊r⌋ + 1

/-- The value of `reinterpret_cast<int&>(r_round)`: the low 32 bits of the mantissa of a
double of unit spacing holding the integer `z`, read as a two's complement `int`. -/
def reinterpret_int (z : ℤ) : ℤ :=
  if z % 2 ^ 32 < 2 ^ 31 then z % 2 ^ 32 else z % 2 ^ 32 - 2 ^ 32

/-- Source `round_fast`: `r_round = r + 6755399441055744.0` (the sum is a double of unit
spacing, so it is the exact sum rounded half-to-even), then the low 32 bits as `int`,
converted back to `double`. -/
def round_fast (r : ℚ) : ℚ :=
  let r_round : ℤ := roundHalfEven (r + 6755399441055744)
  ((reinterpret_int r_round : ℤ) : ℚ)

/-! ## Memory -/

/-- A raw `double *`. -/
abbrev Buf := Nat → ℚ

/-- Pointer arithmetic: `p + off`. -/
def Buf.ptr (p : Buf) (off : Nat) : Buf := fun k => p (off + k)

/-- The memory `p` after a callee has modified the region addressed by `p + off`. -/
def Buf.store (p : Buf) (off : Nat) (q : Buf) : Buf :=
  fun j => if off ≤ j then q (j - off) else p j

/-- A buffer holding the listed values (used for concrete inputs). -/
def Buf.ofList (l : List ℚ) : Buf := fun i => l.getD i 0

/-- A `pele::Array<double>`: `size()` and the storage behind `data()`. -/
structure Array where
  size : Nat
  data : Buf

/-- An array holding the listed values. -/
def Array.ofList (l : List ℚ) : Array := ⟨l.length, Buf.ofList l⟩

/-- Source `Array::assign(d)`: every element becomes `d`. -/
def Array.assign (a : Array) (d : ℚ) : Array :=
  ⟨a.size, fun i => if i < a.size then d else a.data i⟩

/-- The exceptions thrown by the source. -/
inductive error where
  | runtime_error (msg : String)
  | invalid_argument (msg : String)
  deriving DecidableEq, Repr

/-! ## Cartesian distance -/

/-- Source `meta_dist<IDX>::f`. -/
def meta_dist : Nat → Buf → Buf → Buf → Buf
  | 0, r_ij, _, _ => r_ij
  | k + 1, r_ij, r1, r2 =>
      meta_dist k (Function.update r_ij k (r1 k - r2 k)) r1 r2

/-- Source `meta_dist_soa<IDX>::f`. -/
def meta_dist_soa : Nat → Buf → Buf → Buf → Nat → Buf
  | 0, r_ij, _, _, _ => r_ij
  | k + 1, r_ij, r1, r2, natoms =>
      let i := natoms * k
      meta_dist_soa k (Function.update r_ij k (r1 i - r2 i)) r1 r2 natoms

/-- Source `cartesian_distance<ndim>`. -/
structure cartesian_distance where
  _ndim : Nat

namespace cartesian_distance

def get_rij (d : cartesian_distance) (r_ij r1 r2 : Buf) : Buf :=
  meta_dist d._ndim r_ij r1 r2

def get_rij_soa (d : cartesian_distance) (r_ij r1 r2 : Buf) (natoms : Nat) : Buf :=
  meta_dist_soa d._ndim r_ij r1 r2 natoms

/-- Two-argument `put_atom_in_box(xnew, x)`: empty body; returns `xnew`. -/
def put_atom_in_box (_d : cartesian_distance) (xnew _x : Buf) : Buf := xnew

/-- In-place `put_atom_in_box(x)`: empty body. -/
def put_atom_in_box_inplace (_d : cartesian_distance) (x : Buf) : Buf := x

def put_atom_in_box_soa (_d : cartesian_distance) (xnew _x : Buf) (_natoms : Nat) : Buf := xnew

def put_atom_in_box_soa_inplace (_d : cartesian_distance) (x : Buf) (_natoms : Nat) : Buf := x

end cartesian_distance

/-! ## Periodic distance -/

/-- Source `meta_periodic_distance<IDX>::f`. -/
def meta_periodic_distance : Nat → Buf → Buf → Buf → Buf → Buf → Buf
  | 0, r_ij, _, _, _, _ => r_ij
  | k + 1, r_ij, r1, r2, _box, _ibox =>
      let r_ij := Function.update r_ij k (r1 k - r2 k)
      let r_ij := Function.update r_ij k (r_ij k - round_fast (r_ij k * _ibox k) * _box k)
      meta_periodic_distance k r_ij r1 r2 _box _ibox

/-- Source `meta_periodic_distance_soa<IDX>::f`. -/
def meta_periodic_distance_soa : Nat → Buf → Buf → Buf → Buf → Buf → Nat → Buf
  | 0, r_ij, _, _, _, _, _ => r_ij
  | k + 1, r_ij, r1, r2, _box, _ibox, natoms =>
      let i := natoms * k
      let r_ij := Function.update r_ij k (r1 i - r2 i)
      let r_ij := Function.update r_ij k (r_ij k - round_fast (r_ij k * _ibox k) * _box k)
      meta_periodic_distance_soa k r_ij r1 r2 _box _ibox natoms

/-- The boundary correction shared by every `meta_image` body: the element at `i` of
`x` is shifted by one box length when it lies beyond the half box. -/
def image_correction (x : Buf) (i : Nat) (box_k : ℚ) : Buf :=
  let half_box := 1 / 2 * box_k
  let x := if x i > half_box then Function.update x i (x i - box_k) else x
  let x := if x i < -half_box then Function.update x i (x i + box_k) else x
  x

/-- Source `meta_image<IDX>::f(xnew, x, _ibox, _box)`. -/
def meta_image : Nat → Buf → Buf → Buf → Buf → Buf
  | 0, xnew, _, _, _ => xnew
  | k + 1, xnew, x, _ibox, _box =>
      let xnew := Function.update xnew k (x k - round_fast (x k * _ibox k) * _box k)
      let xnew := image_correction xnew k (_box k)
      meta_image k xnew x _ibox _box

/-- Source `meta_image<IDX>::f(x, _ibox, _box)` (in place). -/
def meta_image_inplace : Nat → Buf → Buf → Buf → Buf
  | 0, x, _, _ => x
  | k + 1, x, _ibox, _box =>
      let x := Function.update x k (x k - round_fast (x k * _ibox k) * _box k)
      let x := image_correction x k (_box k)
      meta_image_inplace k x _ibox _box

/-- Source `meta_image_soa<IDX>::f(xnew, x, _ibox, _box, natoms)`. -/
def meta_image_soa : Nat → Buf → Buf → Buf → Buf → Nat → Buf
  | 0, xnew, _, _, _, _ => xnew
  | k + 1, xnew, x, _ibox, _box, natoms =>
      let i := k * natoms
      let xnew := Function.update xnew k (x i - round_fast (x i * _ibox k) * _box k)
      let xnew := image_correction xnew k (_box k)
      meta_image_soa k xnew x _ibox _box natoms

/-- Source `meta_image_soa<IDX>::f(x, _ibox, _box, natoms)` (in place). -/
def meta_image_soa_inplace : Nat → Buf → Buf → Buf → Nat → Buf
  | 0, x, _, _, _ => x
  | k + 1, x, _ibox, _box, natoms =>
      let i := k * natoms
      let x := Function.update x i (x i - round_fast (x i * _ibox k) * _box k)
      let x := image_correction x i (_box k)
      meta_image_soa_inplace k x _ibox _box natoms

/-- Source `periodic_distance<ndim>`: the box lengths and their reciprocals. -/
structure periodic_distance where
  _ndim : Nat
  _box : Buf
  _ibox : Buf

namespace periodic_distance

/-- The members after the loop `_box[i] = box[i]; _ibox[i] = 1 / box[i]` of the
constructor. Entries at and beyond `ndim` do not exist; they are modelled as `0`. -/
def members (ndim : Nat) (box : Array) : periodic_distance :=
  { _ndim := ndim
    _box := fun i => if i < ndim then box.data i else 0
    _ibox := fun i => if i < ndim then 1 / box.data i else 0 }

/-- Source constructor `periodic_distance(Array<double> const box)`. -/
def construct (ndim : Nat) (box : Array) : Except error periodic_distance :=
  if box.size ≠ ndim then
    Except.error (error.invalid_argument ("box.size() must be equal to ndim"))
  else
    Except.ok (members ndim box)

/-- Source default constructor `periodic_distance()`. -/
def construct_default (_ndim : Nat) : Except error periodic_distance :=
  Except.error
    (error.runtime_error ("The empty constructor is not available for periodic boundaries."))

def get_rij (d : periodic_distance) (r_ij r1 r2 : Buf) : Buf :=
  meta_periodic_distance d._ndim r_ij r1 r2 d._box d._ibox

def get_rij_soa (d : periodic_distance) (r_ij r1 r2 : Buf) (natoms : Nat) : Buf :=
  meta_periodic_distance_soa d._ndim r_ij r1 r2 d._box d._ibox natoms

def put_atom_in_box (d : periodic_distance) (xnew x : Buf) : Buf :=
  meta_image d._ndim xnew x d._ibox d._box

def put_atom_in_box_inplace (d : periodic_distance) (x : Buf) : Buf :=
  meta_image_inplace d._ndim x d._ibox d._box

/-- Source `put_in_box`: `for (i = 0; i < N; i += ndim) put_atom_in_box(&coords[i])`;
the loop variable takes the values `0, ndim, 2 ndim, ...` below `N`, which are
`(N + ndim - 1) / ndim` many. -/
def put_in_box (d : periodic_distance) (coords : Array) : Array :=
  let N := coords.size
  ⟨coords.size,
    (List.range' 0 ((N + d._ndim - 1) / d._ndim) d._ndim).foldl
      (fun c i => Buf.store c i (d.put_atom_in_box_inplace (Buf.ptr c i))) coords.data⟩

def put_atom_in_box_soa (d : periodic_distance) (xnew x : Buf) (natoms : Nat) : Buf :=
  meta_image_soa d._ndim xnew x d._ibox d._box natoms

def put_atom_in_box_soa_inplace (d : periodic_distance) (x : Buf) (natoms : Nat) : Buf :=
  meta_image_soa_inplace d._ndim x d._ibox d._box natoms

/-- Source `put_in_box_soa`. -/
def put_in_box_soa (d : periodic_distance) (coords : Array) : Array :=
  let natoms := coords.size / d._ndim
  ⟨coords.size,
    (List.range natoms).foldl
      (fun c i => Buf.store c i (d.put_atom_in_box_soa_inplace (Buf.ptr c i) natoms))
      coords.data⟩

end periodic_distance

/-! ## Lees-Edwards distance -/

/-- Source `meta_leesedwards_distance<IDX>::f`; the recursion ends in the
specialisation for `IDX = 2`, which couples the first two coordinates. -/
def meta_leesedwards_distance : Nat → Buf → Buf → Buf → Buf → Buf → ℚ → Buf
  | 0, r_ij, _, _, _, _, _ => r_ij
  | 1, r_ij, _, _, _, _, _ => r_ij
  | 2, r_ij, r1, r2, box, ibox, dx =>
      -- Calculate difference
      let r_ij := Function.update r_ij 0 (r1 0 - r2 0)
      let r_ij := Function.update r_ij 1 (r1 1 - r2 1)
      -- Apply Lees-Edwards boundary conditions in y-direction
      let round_y := round_fast (r_ij 1 * ibox 1)
      let r_ij := Function.update r_ij 0 (r_ij 0 - round_y * dx)
      let r_ij := Function.update r_ij 1 (r_ij 1 - round_y * box 1)
      -- Apply periodic boundary conditions in x-direction
      Function.update r_ij 0 (r_ij 0 - round_fast (r_ij 0 * ibox 0) * box 0)
  | n + 3, r_ij, r1, r2, box, ibox, dx =>
      let k := n + 2
      let r_ij := Function.update r_ij k (r1 k - r2 k)
      let r_ij := Function.update r_ij k (r_ij k - round_fast (r_ij k * ibox k) * box k)
      meta_leesedwards_distance k r_ij r1 r2 box ibox dx

/-- Source `meta_leesedwards_distance_soa<IDX>::f`. -/
def meta_leesedwards_distance_soa : Nat → Buf → Buf → Buf → Buf → Buf → ℚ → Nat → Buf
  | 0, r_ij, _, _, _, _, _, _ => r_ij
  | 1, r_ij, _, _, _, _, _, _ => r_ij
  | 2, r_ij, r1, r2, box, ibox, dx, natoms =>
      let r_ij := Function.update r_ij 0 (r1 0 - r2 0)
      let r_ij := Function.update r_ij 1 (r1 natoms - r2 natoms)
      let round_y := round_fast (r_ij 1 * ibox 1)
      let r_ij := Function.update r_ij 0 (r_ij 0 - round_y * dx)
      let r_ij := Function.update r_ij 1 (r_ij 1 - round_y * box 1)
      Function.update r_ij 0 (r_ij 0 - round_fast (r_ij 0 * ibox 0) * box 0)
  | n + 3, r_ij, r1, r2, box, ibox, dx, natoms =>
      let k := n + 2
      let i := k * natoms
      let r_ij := Function.update r_ij k (r1 i - r2 i)
      let r_ij := Function.update r_ij k (r_ij k - round_fast (r_ij k * ibox k) * box k)
      meta_leesedwards_distance_soa k r_ij r1 r2 box ibox dx natoms

/-- The coupled boundary correction of the Lees-Edwards image: when the element at `i1`
(shear direction) lies beyond the half box it is shifted by one box length and the
element at `i0` (flow direction) by `dx`. -/
def leesedwards_correction (x : Buf) (i0 i1 : Nat) (box_1 dx : ℚ) : Buf :=
  let half_box := 1 / 2 * box_1
  let x :=
    if x i1 > half_box then
      let x := Function.update x i0 (x i0 - dx)
      Function.update x i1 (x i1 - box_1)
    else x
  let x :=
    if x i1 < -half_box then
      let x := Function.update x i0 (x i0 + dx)
      Function.update x i1 (x i1 + box_1)
    else x
  x

/-- Source `meta_leesedwards_image<IDX>::f(xnew, x, ibox, box, dx)`. -/
def meta_leesedwards_image : Nat → Buf → Buf → Buf → Buf → ℚ → Buf
  | 0, xnew, _, _, _, _ => xnew
  | 1, xnew, _, _, _, _ => xnew
  | 2, xnew, x, ibox, box, dx =>
      -- Apply Lees-Edwards boundary conditions in y-direction
      let round_y := round_fast (x 1 * ibox 1)
      let xnew := Function.update xnew 0 (x 0 - round_y * dx)
      let xnew := Function.update xnew 1 (x 1 - round_y * box 1)
      -- Correction for values close to the box boundary
      let xnew := leesedwards_correction xnew 0 1 (box 1) dx
      -- Apply periodic boundary conditions in x-direction
      let xnew := Function.update xnew 0 (xnew 0 - round_fast (x 0 * ibox 0) * box 0)
      -- Correction for values close to the box boundary
      image_correction xnew 0 (box 0)
  | n + 3, xnew, x, ibox, box, dx =>
      let k := n + 2
      let xnew := Function.update xnew k (x k - round_fast (x k * ibox k) * box k)
      let xnew := image_correction xnew k (box k)
      meta_leesedwards_image k xnew x ibox box dx

/-- Source `meta_leesedwards_image<IDX>::f(x, ibox, box, dx)` (in place). -/
def meta_leesedwards_image_inplace : Nat → Buf → Buf → Buf → ℚ → Buf
  | 0, x, _, _, _ => x
  | 1, x, _, _, _ => x
  | 2, x, ibox, box, dx =>
      let round_y := round_fast (x 1 * ibox 1)
      let x := Function.update x 0 (x 0 - round_y * dx)
      let x := Function.update x 1 (x 1 - round_y * box 1)
      let x := leesedwards_correction x 0 1 (box 1) dx
      let x := Function.update x 0 (x 0 - round_fast (x 0 * ibox 0) * box 0)
      image_correction x 0 (box 0)
  | n + 3, x, ibox, box, dx =>
      let k := n + 2
      let x := Function.update x k (x k - round_fast (x k * ibox k) * box k)
      let x := image_correction x k (box k)
      meta_leesedwards_image_inplace k x ibox box dx

/-- Source `meta_leesedwards_image_soa<IDX>::f(xnew, x, ibox, box, dx, natoms)`. -/
def meta_leesedwards_image_soa : Nat → Buf → Buf → Buf → Buf → ℚ → Nat → Buf
  | 0, xnew, _, _, _, _, _ => xnew
  | 1, xnew, _, _, _, _, _ => xnew
  | 2, xnew, x, ibox, box, dx, natoms =>
      let round_y := round_fast (x natoms * ibox 1)
      let xnew := Function.update xnew 0 (x 0 - round_y * dx)
      let xnew := Function.update xnew 1 (x natoms - round_y * box 1)
      let xnew := leesedwards_correction xnew 0 1 (box 1) dx
      let xnew := Function.update xnew 0 (xnew 0 - round_fast (x 0 * ibox 0) * box 0)
      image_correction xnew 0 (box 0)
  | n + 3, xnew, x, ibox, box, dx, natoms =>
      let k := n + 2
      let i := k * natoms
      let xnew := Function.update xnew k (x i - round_fast (x i * ibox k) * box k)
      let xnew := image_correction xnew k (box k)
      meta_leesedwards_image_soa k xnew x ibox box dx natoms

/-- Source `meta_leesedwards_image_soa<IDX>::f(x, ibox, box, dx, natoms)` (in place). -/
def meta_leesedwards_image_soa_inplace : Nat → Buf → Buf → Buf → ℚ → Nat → Buf
  | 0, x, _, _, _, _ => x
  | 1, x, _, _, _, _ => x
  | 2, x, ibox, box, dx, natoms =>
      let round_y := round_fast (x natoms * ibox 1)
      let x := Function.update x 0 (x 0 - round_y * dx)
      let x := Function.update x natoms (x natoms - round_y * box 1)
      let x := leesedwards_correction x 0 natoms (box 1) dx
      let x := Function.update x 0 (x 0 - round_fast (x 0 * ibox 0) * box 0)
      image_correction x 0 (box 0)
  | n + 3, x, ibox, box, dx, natoms =>
      let k := n + 2
      let i := k * natoms
      let x := Function.update x i (x i - round_fast (x i * ibox k) * box k)
      let x := image_correction x i (box k)
      meta_leesedwards_image_soa_inplace k x ibox box dx natoms

/-- C `fmod(x, y)`: the remainder of the division truncated toward zero. -/
def fmod (x y : ℚ) : ℚ :=
  if 0 ≤ x / y then x - ((⌊x / y⌋ : ℤ) : ℚ) * y else x - ((⌈x / y⌉ : ℤ) : ℚ) * y

/-- Source `leesedwards_distance<ndim>`. -/
structure leesedwards_distance where
  _ndim : Nat
  m_box : Buf
  m_ibox : Buf
  m_dx : ℚ

namespace leesedwards_distance

/-- The members after the loop `m_box[i] = box[i]; m_ibox[i] = 1.0 / box[i]` of the
constructor, `m_dx` having been initialised before. Entries at and beyond `ndim` do not
exist; they are modelled as `0`. -/
def members (ndim : Nat) (box : Array) (m_dx : ℚ) : leesedwards_distance :=
  { _ndim := ndim
    m_box := fun i => if i < ndim then box.data i else 0
    m_ibox := fun i => if i < ndim then 1 / box.data i else 0
    m_dx := m_dx }

/-- Source constructor `leesedwards_distance(Array<double> const box, const double shear)`.
The member initialiser `m_dx(fmod(shear, 1.0) * box[1])` is evaluated first. -/
def construct (ndim : Nat) (box : Array) (shear : ℚ) : Except error leesedwards_distance :=
  let m_dx := fmod shear 1 * box.data 1
  if box.size ≠ ndim then
    Except.error (error.invalid_argument ("box.size() must be equal to ndim"))
  else
    Except.ok (members ndim box m_dx)

/-- Source default constructor `leesedwards_distance()`. -/
def construct_default (_ndim : Nat) : Except error leesedwards_distance :=
  Except.error
    (error.runtime_error
      ("The empty constructor is not available for Lees-Edwards boundaries."))

def get_rij (d : leesedwards_distance) (r_ij r1 r2 : Buf) : Buf :=
  meta_leesedwards_distance d._ndim r_ij r1 r2 d.m_box d.m_ibox d.m_dx

def get_rij_soa (d : leesedwards_distance) (r_ij r1 r2 : Buf) (natoms : Nat) : Buf :=
  meta_leesedwards_distance_soa d._ndim r_ij r1 r2 d.m_box d.m_ibox d.m_dx natoms

def put_atom_in_box (d : leesedwards_distance) (xnew x : Buf) : Buf :=
  meta_leesedwards_image d._ndim xnew x d.m_ibox d.m_box d.m_dx

def put_atom_in_box_inplace (d : leesedwards_distance) (x : Buf) : Buf :=
  meta_leesedwards_image_inplace d._ndim x d.m_ibox d.m_box d.m_dx

/-- Source `put_in_box`. -/
def put_in_box (d : leesedwards_distance) (coords : Array) : Array :=
  let N := coords.size
  ⟨coords.size,
    (List.range' 0 ((N + d._ndim - 1) / d._ndim) d._ndim).foldl
      (fun c i => Buf.store c i (d.put_atom_in_box_inplace (Buf.ptr c i))) coords.data⟩

def put_atom_in_box_soa (d : leesedwards_distance) (xnew x : Buf) (natoms : Nat) : Buf :=
  meta_leesedwards_image_soa d._ndim xnew x d.m_ibox d.m_box d.m_dx natoms

def put_atom_in_box_soa_inplace (d : leesedwards_distance) (x : Buf) (natoms : Nat) : Buf :=
  meta_leesedwards_image_soa_inplace d._ndim x d.m_ibox d.m_box d.m_dx natoms

/-- Source `put_in_box_soa`. -/
def put_in_box_soa (d : leesedwards_distance) (coords : Array) : Array :=
  let natoms := coords.size / d._ndim
  ⟨coords.size,
    (List.range natoms).foldl
      (fun c i => Buf.store c i (d.put_atom_in_box_soa_inplace (Buf.ptr c i) natoms))
      coords.data⟩

end leesedwards_distance

/-! ## Auxiliary predicates -/

/-- The integer `n` fits a signed 32-bit `int`. -/
def FitsInt32 (n : ℤ) : Prop := -2 ^ 31 ≤ n ∧ n < 2 ^ 31

instance (n : ℤ) : Decidable (FitsInt32 n) := by unfold FitsInt32; infer_instance

/-! ## Pairwise evaluation engine -/

/-- Source `p[i] += v`. -/
def Buf.add_at (p : Buf) (i : Nat) (v : ℚ) : Buf := Function.update p i (p i + v)

/-- Source `p[i] -= v`. -/
def Buf.sub_at (p : Buf) (i : Nat) (v : ℚ) : Buf := Function.update p i (p i - v)

/-- The `distance_policy` template parameter of `SimplePairwisePotential`: one of the
three policies of `distance.h`. -/
inductive distance_policy where
  | cartesian (d : cartesian_distance)
  | periodic (d : periodic_distance)
  | leesedwards (d : leesedwards_distance)

namespace distance_policy

def _ndim : distance_policy → Nat
  | cartesian d => d._ndim
  | periodic d => d._ndim
  | leesedwards d => d._ndim

def get_rij : distance_policy → Buf → Buf → Buf → Buf
  | cartesian d, r_ij, r1, r2 => d.get_rij r_ij r1 r2
  | periodic d, r_ij, r1, r2 => d.get_rij r_ij r1 r2
  | leesedwards d, r_ij, r1, r2 => d.get_rij r_ij r1 r2

def get_rij_soa : distance_policy → Buf → Buf → Buf → Nat → Buf
  | cartesian d, r_ij, r1, r2, natoms => d.get_rij_soa r_ij r1 r2 natoms
  | periodic d, r_ij, r1, r2, natoms => d.get_rij_soa r_ij r1 r2 natoms
  | leesedwards d, r_ij, r1, r2, natoms => d.get_rij_soa r_ij r1 r2 natoms

end distance_policy

/-- The `pairwise_interaction` template parameter: its three member functions take the
squared separation and the combined radius; the values written through the pointers
`gij` and `hij` are returned after the energy. -/
structure pairwise_interaction where
  energy : ℚ → ℚ → ℚ
  energy_gradient : ℚ → ℚ → ℚ × ℚ
  energy_gradient_hessian : ℚ → ℚ → ℚ × ℚ × ℚ

/-- Source `SimplePairwisePotential`. The members `m_radii`, `m_soa` and the member
function `sum_radii` belong to the base class `PairwisePotentialInterface`, whose header
is not part of the sources; they are parameters of the model. -/
structure SimplePairwisePotential where
  _interaction : pairwise_interaction
  _dist : distance_policy
  m_radii_sca : ℚ
  m_radii : Array
  m_soa : Bool
  sum_radii : Nat → Nat → ℚ

namespace SimplePairwisePotential

/-- Source `m_ndim = distance_policy::_ndim`. -/
def m_ndim (pot : SimplePairwisePotential) : Nat := pot._dist._ndim

/-- The displacement `dr` of a pair: `get_rij_soa(dr, &x[atom_i], &x[atom_j], natoms)`
when `m_soa`, else `get_rij(dr, &x[atom_i*m_ndim], &x[atom_j*m_ndim])`. The local array
`dr` is not initialised by the source; every element below `m_ndim` is written by the
policy before it is read, and the model starts from zeros. -/
def pair_dr (pot : SimplePairwisePotential) (x : Array) (natoms atom_i atom_j : Nat) : Buf :=
  if pot.m_soa then
    pot._dist.get_rij_soa (fun _ => 0) (Buf.ptr x.data atom_i) (Buf.ptr x.data atom_j) natoms
  else
    pot._dist.get_rij (fun _ => 0) (Buf.ptr x.data (atom_i * pot.m_ndim))
      (Buf.ptr x.data (atom_j * pot.m_ndim))

/-- The loop `r2 = 0; for k < m_ndim: r2 += dr[k] * dr[k]`. -/
def pair_r2 (pot : SimplePairwisePotential) (dr : Buf) : ℚ :=
  (List.range pot.m_ndim).foldl (fun r2 k => r2 + dr k * dr k) 0

/-- Source `SimplePairwisePotential::get_energy`. -/
def get_energy (pot : SimplePairwisePotential) (x : Array) : Except error ℚ :=
  let natoms := x.size / pot.m_ndim
  if pot.m_ndim * natoms ≠ x.size then
    Except.error
      (error.runtime_error ("x.size() is not divisible by the number of dimensions"))
  else
    Except.ok
      ((List.range natoms).foldl
        (fun e atom_i =>
          (List.range atom_i).foldl
            (fun e atom_j =>
              let dr := pot.pair_dr x natoms atom_i atom_j
              let r2 := pot.pair_r2 dr
              e + pot._interaction.energy r2 (pot.sum_radii atom_i atom_j))
            e)
        0)

/-- The force scatter of `add_energy_gradient` for one pair: the loop over `k` with
`dr[k] *= gij` followed by `grad[..] -= dr[k]` and `grad[..] += dr[k]`. -/
def gradient_scatter (pot : SimplePairwisePotential) (natoms atom_i atom_j : Nat) (gij : ℚ)
    (dr grad : Buf) : Buf :=
  ((List.range pot.m_ndim).foldl
    (fun (s : Buf × Buf) k =>
      let dr := Function.update s.1 k (s.1 k * gij)
      if pot.m_soa then
        let k1 := k * natoms
        let grad := Buf.sub_at s.2 (atom_i + k1) (dr k)
        let grad := Buf.add_at grad (atom_j + k1) (dr k)
        (dr, grad)
      else
        let grad := Buf.sub_at s.2 (atom_i * pot.m_ndim + k) (dr k)
        let grad := Buf.add_at grad (atom_j * pot.m_ndim + k) (dr k)
        (dr, grad))
    (dr, grad)).2

/-- The body of the pair loop of `add_energy_gradient`, on the state `(e, grad)`. -/
def energy_gradient_pair (pot : SimplePairwisePotential) (x : Array) (natoms : Nat)
    (st : ℚ × Buf) (atom_i atom_j : Nat) : ℚ × Buf :=
  let dr := pot.pair_dr x natoms atom_i atom_j
  let r2 := pot.pair_r2 dr
  let eg := pot._interaction.energy_gradient r2 (pot.sum_radii atom_i atom_j)
  let gij := eg.2
  let e := st.1 + eg.1
  let grad := if gij ≠ 0 then pot.gradient_scatter natoms atom_i atom_j gij dr st.2 else st.2
  (e, grad)

/-- Source `SimplePairwisePotential::add_energy_gradient`; the result is the returned
energy or the exception, together with the caller's `grad` after the call. -/
def add_energy_gradient (pot : SimplePairwisePotential) (x grad : Array) :
    Except error ℚ × Array :=
  let natoms := x.size / pot.m_ndim
  if pot.m_ndim * natoms ≠ x.size then
    (Except.error
      (error.runtime_error ("x.size() is not divisible by the number of dimensions")), grad)
  else if grad.size ≠ x.size then
    (Except.error (error.runtime_error ("grad must have the same size as x")), grad)
  else
    let st := (List.range natoms).foldl
      (fun st atom_i =>
        (List.range atom_i).foldl
          (fun st atom_j => pot.energy_gradient_pair x natoms st atom_i atom_j) st)
      ((0 : ℚ), grad.data)
    (Except.ok st.1, ⟨grad.size, st.2⟩)

/-- Source `SimplePairwisePotential::get_energy_gradient`. -/
def get_energy_gradient (pot : SimplePairwisePotential) (x grad : Array) :
    Except error ℚ × Array :=
  let grad := grad.assign 0
  pot.add_energy_gradient x grad

/-- The force scatter of `add_energy_gradient_hessian` for one pair:
`grad[..] -= gij * dr[k]` and `grad[..] += gij * dr[k]`. -/
def gradient_scatter_h (pot : SimplePairwisePotential) (natoms atom_i atom_j : Nat) (gij : ℚ)
    (dr grad : Buf) : Buf :=
  (List.range pot.m_ndim).foldl
    (fun grad k =>
      if pot.m_soa then
        let k1 := k * natoms
        let grad := Buf.sub_at grad (atom_i + k1) (gij * dr k)
        Buf.add_at grad (atom_j + k1) (gij * dr k)
      else
        let grad := Buf.sub_at grad (atom_i * pot.m_ndim + k) (gij * dr k)
        Buf.add_at grad (atom_j * pot.m_ndim + k) (gij * dr k))
    grad

/-- The Hessian update of one pair for the dimension-major layout: the body of
`for k` in the `m_soa` branch, including the inner loop `for l = k + 1 .. m_ndim`. -/
def hessian_k_soa (m_ndim N natoms atom_i atom_j : Nat) (gij hij r2 : ℚ) (dr : Buf)
    (hess : Buf) (k : Nat) : Buf :=
  let k1 := k * natoms
  -- diagonal block - diagonal terms
  let Hii_diag := (hij + gij) * dr k * dr k / r2 - gij
  let hess := Buf.add_at hess (N * (atom_i + k1) + atom_i + k1) Hii_diag
  let hess := Buf.add_at hess (N * (atom_j + k1) + atom_j + k1) Hii_diag
  -- off diagonal block - diagonal terms
  let Hij_diag := -Hii_diag
  let hess := Function.update hess (N * (atom_i + k1) + atom_j + k1) Hij_diag
  let hess := Function.update hess (N * (atom_j + k1) + atom_i + k1) Hij_diag
  (List.range' (k + 1) (m_ndim - (k + 1))).foldl
    (fun hess l =>
      let l1 := l * natoms
      -- diagonal block - off diagonal terms
      let Hii_off := (hij + gij) * dr k * dr l / r2
      let hess := Buf.add_at hess (N * (atom_i + k1) + atom_i + l1) Hii_off
      let hess := Buf.add_at hess (N * (atom_i + l1) + atom_i + k1) Hii_off
      let hess := Buf.add_at hess (N * (atom_j + k1) + atom_j + l1) Hii_off
      let hess := Buf.add_at hess (N * (atom_j + l1) + atom_j + k1) Hii_off
      -- off diagonal block - off diagonal terms
      let Hij_off := -Hii_off
      let hess := Function.update hess (N * (atom_i + k1) + atom_j + l1) Hij_off
      let hess := Function.update hess (N * (atom_i + l1) + atom_j + k1) Hij_off
      let hess := Function.update hess (N * (atom_j + k1) + atom_i + l1) Hij_off
      Function.update hess (N * (atom_j + l1) + atom_i + k1) Hij_off)
    hess

/-- The Hessian update of one pair for the particle-major layout: the body of `for k`
in the `else` branch, including the inner loop `for l = k + 1 .. m_ndim`. -/
def hessian_k_aos (m_ndim N atom_i atom_j : Nat) (gij hij r2 : ℚ) (dr : Buf)
    (hess : Buf) (k : Nat) : Buf :=
  let i1 := atom_i * m_ndim
  let j1 := atom_j * m_ndim
  -- diagonal block - diagonal terms
  let Hii_diag := (hij + gij) * dr k * dr k / r2 - gij
  let hess := Buf.add_at hess (N * (i1 + k) + i1 + k) Hii_diag
  let hess := Buf.add_at hess (N * (j1 + k) + j1 + k) Hii_diag
  -- off diagonal block - diagonal terms
  let Hij_diag := -Hii_diag
  let hess := Function.update hess (N * (i1 + k) + j1 + k) Hij_diag
  let hess := Function.update hess (N * (j1 + k) + i1 + k) Hij_diag
  (List.range' (k + 1) (m_ndim - (k + 1))).foldl
    (fun hess l =>
      -- diagonal block - off diagonal terms
      let Hii_off := (hij + gij) * dr k * dr l / r2
      let hess := Buf.add_at hess (N * (i1 + k) + i1 + l) Hii_off
      let hess := Buf.add_at hess (N * (i1 + l) + i1 + k) Hii_off
      let hess := Buf.add_at hess (N * (j1 + k) + j1 + l) Hii_off
      let hess := Buf.add_at hess (N * (j1 + l) + j1 + k) Hii_off
      -- off diagonal block - off diagonal terms
      let Hij_off := -Hii_off
      let hess := Function.update hess (N * (i1 + k) + j1 + l) Hij_off
      let hess := Function.update hess (N * (i1 + l) + j1 + k) Hij_off
      let hess := Function.update hess (N * (j1 + k) + i1 + l) Hij_off
      Function.update hess (N * (j1 + l) + i1 + k) Hij_off)
    hess

/-- The Hessian update of one pair: `for k < m_ndim`, one of the two layout branches. -/
def hessian_scatter (pot : SimplePairwisePotential) (N natoms atom_i atom_j : Nat)
    (gij hij r2 : ℚ) (dr hess : Buf) : Buf :=
  (List.range pot.m_ndim).foldl
    (fun hess k =>
      if pot.m_soa then
        hessian_k_soa pot.m_ndim N natoms atom_i atom_j gij hij r2 dr hess k
      else
        hessian_k_aos pot.m_ndim N atom_i atom_j gij hij r2 dr hess k)
    hess

/-- The body of the pair loop of `add_energy_gradient_hessian`, on the state
`(e, grad, hess)`. -/
def energy_gradient_hessian_pair (pot : SimplePairwisePotential) (x : Array)
    (N natoms : Nat) (st : ℚ × Buf × Buf) (atom_i atom_j : Nat) : ℚ × Buf × Buf :=
  let dr := pot.pair_dr x natoms atom_i atom_j
  let r2 := pot.pair_r2 dr
  let egh := pot._interaction.energy_gradient_hessian r2 (pot.sum_radii atom_i atom_j)
  let gij := egh.2.1
  let hij := egh.2.2
  let e := st.1 + egh.1
  let grad :=
    if gij ≠ 0 then pot.gradient_scatter_h natoms atom_i atom_j gij dr st.2.1 else st.2.1
  let hess :=
    if hij ≠ 0 then pot.hessian_scatter N natoms atom_i atom_j gij hij r2 dr st.2.2
    else st.2.2
  (e, grad, hess)

/-- Source `SimplePairwisePotential::add_energy_gradient_hessian`; the result is the
returned energy or the exception, together with the caller's `grad` and `hess` after the
call. -/
def add_energy_gradient_hessian (pot : SimplePairwisePotential) (x grad hess : Array) :
    Except error ℚ × Array × Array :=
  let N := x.size
  let natoms := x.size / pot.m_ndim
  if pot.m_ndim * natoms ≠ x.size then
    (Except.error
      (error.runtime_error ("x.size() is not divisible by the number of dimensions")),
      grad, hess)
  else if x.size ≠ grad.size then
    (Except.error (error.invalid_argument ("the gradient has the wrong size")), grad, hess)
  else if hess.size ≠ x.size * x.size then
    (Except.error (error.invalid_argument ("the Hessian has the wrong size")), grad, hess)
  else
    let st := (List.range natoms).foldl
      (fun st atom_i =>
        (List.range atom_i).foldl
          (fun st atom_j => pot.energy_gradient_hessian_pair x N natoms st atom_i atom_j) st)
      ((0 : ℚ), grad.data, hess.data)
    (Except.ok st.1, ⟨grad.size, st.2.1⟩, ⟨hess.size, st.2.2⟩)

/-- Source `SimplePairwisePotential::get_energy_gradient_hessian`. -/
def get_energy_gradient_hessian (pot : SimplePairwisePotential) (x grad hess : Array) :
    Except error ℚ × Array × Array :=
  let grad := grad.assign 0
  let hess := hess.assign 0
  pot.add_energy_gradient_hessian x grad hess

end SimplePairwisePotential

/-- The logical coordinates of a particle stored dimension-major: coordinate `d` of the
particle addressed by `p` is `p[d * natoms]`. -/
def Buf.strided (p : Buf) (natoms : Nat) : Buf := fun d => p (d * natoms)

/-- The value that `image_correction` leaves in the corrected element. -/
def corrected (v box_k : ℚ) : ℚ :=
  let half_box := 1 / 2 * box_k
  let v := if v > half_box then v - box_k else v
  let v := if v < -half_box then v + box_k else v
  v

/-- The values that `leesedwards_correction` leaves in the flow-direction element
(first component) and the shear-direction element (second component). -/
def corrected_pair (v0 v1 box_1 dx : ℚ) : ℚ × ℚ :=
  let half_box := 1 / 2 * box_1
  let p := if v1 > half_box then (v0 - dx, v1 - box_1) else (v0, v1)
  let p := if p.2 < -half_box then (p.1 + dx, p.2 + box_1) else p
  p

/-- The values that the in-place Lees-Edwards image for `IDX = 2` leaves in the
flow-direction element (first component) and the shear-direction element (second
component), from the values `v0`, `v1` they held. -/
def leesedwards_image_values (v0 v1 ibox_0 box_0 ibox_1 box_1 dx : ℚ) : ℚ × ℚ :=
  let round_y := round_fast (v1 * ibox_1)
  let p := corrected_pair (v0 - round_y * dx) (v1 - round_y * box_1) box_1 dx
  (corrected (p.1 - round_fast (p.1 * ibox_0) * box_0) box_0, p.2)

/-- The value that one step of the periodic image leaves in an element that held `v`:
the fold by `round_fast` followed by the boundary correction. -/
def image_value (v ibox_k box_k : ℚ) : ℚ :=
  corrected (v - round_fast (v * ibox_k) * box_k) box_k

/-! ## Reference quantities of the pairwise sums -/

namespace SimplePairwisePotential

/-- The position in a coordinate or gradient vector of coordinate `k` of particle `i`:
`i + k * natoms` in the dimension-major layout, `i * m_ndim + k` in the particle-major
layout. -/
def index (pot : SimplePairwisePotential) (natoms i k : Nat) : Nat :=
  if pot.m_soa then i + k * natoms else i * pot.m_ndim + k

/-- The logical coordinates of particle `i` in `x`. -/
def particle (pot : SimplePairwisePotential) (x : Array) (natoms i : Nat) : Buf :=
  fun k => x.data (pot.index natoms i k)

/-- The displacement of the pair `(i, j)`: the policy's `get_rij` on the logical
coordinates of the two particles. -/
def r_ij (pot : SimplePairwisePotential) (x : Array) (natoms i j : Nat) : Buf :=
  pot._dist.get_rij (fun _ => 0) (pot.particle x natoms i) (pot.particle x natoms j)

/-- The squared separation of the pair `(i, j)`. -/
def r2_ij (pot : SimplePairwisePotential) (x : Array) (natoms i j : Nat) : ℚ :=
  ∑ k in Finset.range pot.m_ndim, pot.r_ij x natoms i j k * pot.r_ij x natoms i j k

/-- The gradient magnitude that `energy_gradient` returns for the pair `(i, j)`. -/
def g_ij (pot : SimplePairwisePotential) (x : Array) (natoms i j : Nat) : ℚ :=
  (pot._interaction.energy_gradient (pot.r2_ij x natoms i j) (pot.sum_radii i j)).2

end SimplePairwisePotential

/-- The pairs `(i, j)` with `j < i < N`. -/
def pair_set (N : Nat) : Finset (Nat × Nat) :=
  (Finset.range N ×ˢ Finset.range N).filter (fun p => p.2 < p.1)

/-! ## Concrete inputs -/

/-- An interaction used for concrete inputs: energy `r2`, gradient magnitude `1`,
Hessian scalar `0`. -/
def linear_interaction : pairwise_interaction :=
  { energy := fun r2 _ => r2
    energy_gradient := fun r2 _ => (r2, 1)
    energy_gradient_hessian := fun r2 _ => (r2, 1, 0) }

/-- An engine used for concrete inputs: `linear_interaction` under the cartesian policy
in `ndim` dimensions, particle-major, no radii. -/
def linear_potential (ndim : Nat) : SimplePairwisePotential :=
  { _interaction := linear_interaction
    _dist := distance_policy.cartesian ⟨ndim⟩
    m_radii_sca := 0
    m_radii := ⟨0, fun _ => 0⟩
    m_soa := false
    sum_radii := fun _ _ => 0 }

/-- What the pair `(i, j)` adds to the gradient entry at position `q`. -/
def SimplePairwisePotential.pair_gradient (pot : SimplePairwisePotential) (x : Array)
    (natoms i j q : Nat) : ℚ :=
  ∑ k in Finset.range pot.m_ndim,
    ((if q = pot.index natoms i k then
        -(pot.r_ij x natoms i j k * pot.g_ij x natoms i j) else 0)
      + (if q = pot.index natoms j k then
        pot.r_ij x natoms i j k * pot.g_ij x natoms i j else 0))

/-! ## Reference quantities of the Hessian -/

/-- The pair term of the Hessian for the dimensions `(k, l)`:
`(h + g) * dr[k] * dr[l] / r2`, minus `g` when `k = l`. -/
def hess_term (g h r2 : ℚ) (dr : Buf) (k l : Nat) : ℚ :=
  (h + g) * dr k * dr l / r2 - if k = l then g else 0

/-- The body of the loop over `l` of the Hessian update, for a layout given by the
position `idx p k` of coordinate `k` of particle `p`. -/
def hessian_l (idx : Nat → Nat → Nat) (N i j : Nat) (g h r2 : ℚ) (dr : Buf) (k : Nat)
    (H : Buf) (l : Nat) : Buf :=
  let H := Buf.add_at H (N * idx i k + idx i l) ((h + g) * dr k * dr l / r2)
  let H := Buf.add_at H (N * idx i l + idx i k) ((h + g) * dr k * dr l / r2)
  let H := Buf.add_at H (N * idx j k + idx j l) ((h + g) * dr k * dr l / r2)
  let H := Buf.add_at H (N * idx j l + idx j k) ((h + g) * dr k * dr l / r2)
  let H := Function.update H (N * idx i k + idx j l) (-((h + g) * dr k * dr l / r2))
  let H := Function.update H (N * idx i l + idx j k) (-((h + g) * dr k * dr l / r2))
  let H := Function.update H (N * idx j k + idx i l) (-((h + g) * dr k * dr l / r2))
  Function.update H (N * idx j l + idx i k) (-((h + g) * dr k * dr l / r2))

/-- The first four statements of the body of the loop over `k` of the Hessian update,
for a layout given by `idx`. -/
def hessian_head (idx : Nat → Nat → Nat) (N i j : Nat) (g h r2 : ℚ) (dr : Buf)
    (H : Buf) (k : Nat) : Buf :=
  let H := Buf.add_at H (N * idx i k + idx i k) ((h + g) * dr k * dr k / r2 - g)
  let H := Buf.add_at H (N * idx j k + idx j k) ((h + g) * dr k * dr k / r2 - g)
  let H := Function.update H (N * idx i k + idx j k) (-((h + g) * dr k * dr k / r2 - g))
  Function.update H (N * idx j k + idx i k) (-((h + g) * dr k * dr k / r2 - g))

/-- The body of the loop over `k` of the Hessian update, for a layout given by `idx`. -/
def hessian_k (idx : Nat → Nat → Nat) (D N i j : Nat) (g h r2 : ℚ) (dr : Buf)
    (H : Buf) (k : Nat) : Buf :=
  (List.range' (k + 1) (D - (k + 1))).foldl (fun H l => hessian_l idx N i j g h r2 dr k H l)
    (hessian_head idx N i j g h r2 dr H k)

/-- The positions `idx p k` of a layout for `n` particles in `D` dimensions are below `N`
and distinct for distinct `(p, k)`. -/
structure LayoutOK (idx : Nat → Nat → Nat) (n D N : Nat) : Prop where
  lt : ∀ p k, p < n → k < D → idx p k < N
  inj : ∀ p k q l, p < n → k < D → q < n → l < D → (idx p k = idx q l ↔ p = q ∧ k = l)

namespace SimplePairwisePotential

/-- The energy that `energy_gradient_hessian` returns for the pair `(i, j)`. -/
def eh_ij (pot : SimplePairwisePotential) (x : Array) (natoms i j : Nat) : ℚ :=
  (pot._interaction.energy_gradient_hessian (pot.r2_ij x natoms i j) (pot.sum_radii i j)).1

/-- The gradient magnitude that `energy_gradient_hessian` returns for the pair `(i, j)`. -/
def gh_ij (pot : SimplePairwisePotential) (x : Array) (natoms i j : Nat) : ℚ :=
  (pot._interaction.energy_gradient_hessian (pot.r2_ij x natoms i j) (pot.sum_radii i j)).2.1

/-- The Hessian scalar that `energy_gradient_hessian` returns for the pair `(i, j)`. -/
def h_ij (pot : SimplePairwisePotential) (x : Array) (natoms i j : Nat) : ℚ :=
  (pot._interaction.energy_gradient_hessian (pot.r2_ij x natoms i j) (pot.sum_radii i j)).2.2

/-- What the pair `(i, j)` adds to the gradient entry at position `q` in
`add_energy_gradient_hessian`. -/
def pair_gradient_h (pot : SimplePairwisePotential) (x : Array) (natoms i j q : Nat) : ℚ :=
  ∑ k in Finset.range pot.m_ndim,
    ((if q = pot.index natoms i k then
        -(pot.gh_ij x natoms i j * pot.r_ij x natoms i j k) else 0)
      + (if q = pot.index natoms j k then
        pot.gh_ij x natoms i j * pot.r_ij x natoms i j k else 0))

/-- The pair term `(h + g) * dr[k] * dr[l] / r2 - [k = l] * g` of the pair `(i, j)`. -/
def pair_term (pot : SimplePairwisePotential) (x : Array) (natoms i j k l : Nat) : ℚ :=
  hess_term (pot.gh_ij x natoms i j) (pot.h_ij x natoms i j) (pot.r2_ij x natoms i j)
    (pot.r_ij x natoms i j) k l

/-- The pair term that the code writes: the Hessian of a pair is updated only when the
Hessian scalar `h` of the pair is not zero. -/
def written_term (pot : SimplePairwisePotential) (x : Array) (natoms i j k l : Nat) : ℚ :=
  if pot.h_ij x natoms i j ≠ 0 then pot.pair_term x natoms i j k l else 0

/-- The Hessian component of `energy_gradient_hessian_pair`. -/
def hess_step (pot : SimplePairwisePotential) (x : Array) (N natoms : Nat) (H : Buf)
    (i j : Nat) : Buf :=
  if pot.h_ij x natoms i j ≠ 0 then
    pot.hessian_scatter N natoms i j (pot.gh_ij x natoms i j) (pot.h_ij x natoms i j)
      (pot.r2_ij x natoms i j) (pot.r_ij x natoms i j) H
  else H

/-- The gradient component of `energy_gradient_hessian_pair`. -/
def grad_step (pot : SimplePairwisePotential) (x : Array) (natoms : Nat) (G : Buf)
    (i j : Nat) : Buf :=
  if pot.gh_ij x natoms i j ≠ 0 then
    pot.gradient_scatter_h natoms i j (pot.gh_ij x natoms i j) (pot.r_ij x natoms i j) G
  else G

end SimplePairwisePotential

/-- The double loop `for atom_i < n: for atom_j < atom_i` of the engine over a state. -/
def pair_loop {σ : Type} (n : Nat) (step : σ → Nat → Nat → σ) (init : σ) : σ :=
  (List.range n).foldl (fun st i => (List.range i).foldl (fun st j => step st i j) st) init

/-- An interaction used for concrete inputs: energy `r2`, gradient magnitude `1`,
Hessian scalar `2`. -/
def quadratic_interaction : pairwise_interaction :=
  { energy := fun r2 _ => r2
    energy_gradient := fun r2 _ => (r2, 1)
    energy_gradient_hessian := fun r2 _ => (r2, 1, 2) }

/-- An engine used for concrete inputs: `quadratic_interaction` under the cartesian
policy in `ndim` dimensions, with the given layout flag, no radii. -/
def quadratic_potential (ndim : Nat) (soa : Bool) : SimplePairwisePotential :=
  { _interaction := quadratic_interaction
    _dist := distance_policy.cartesian ⟨ndim⟩
    m_radii_sca := 0
    m_radii := ⟨0, fun _ => 0⟩
    m_soa := soa
    sum_radii := fun _ _ => 0 }

/-- The engine `pot` with its layout flag set to `soa`. -/
def SimplePairwisePotential.with_layout (pot : SimplePairwisePotential) (soa : Bool) :
    SimplePairwisePotential :=
  { pot with m_soa := soa }

/-- The values that the two-argument Lees-Edwards image for `IDX = 2` writes into the
flow-direction element (first component) and the shear-direction element (second
component) of `xnew`, from the values `v0`, `v1` of `x`: the periodic fold of the
flow direction rounds `x[0]` as passed in. -/
def leesedwards_image_values_xnew (v0 v1 ibox_0 box_0 ibox_1 box_1 dx : ℚ) : ℚ × ℚ :=
  let round_y := round_fast (v1 * ibox_1)
  let p := corrected_pair (v0 - round_y * dx) (v1 - round_y * box_1) box_1 dx
  (corrected (p.1 - round_fast (v0 * ibox_0) * box_0) box_0, p.2)

/-! ## Reference candidates of the Lees-Edwards displacement

These definitions follow the wording of the specification (and of the test
`LeesEdwards_Shear`), not the source of `get_rij`: they are the quantities the code is
compared with. -/

/-- Reference: `v` folded periodically by `L` with the rounding of `std::round`. -/
def reference_fold (v L : ℚ) : ℚ := v - round (v / L) * L

/-- Reference: the shifted candidate `(sx, D[1] - n * L)` with `n = round(D[1] / L)` and
`sx = D[0] - n * s * L` folded periodically by `L`. -/
def reference_shifted (D0 D1 L s : ℚ) : ℚ × ℚ :=
  let n := round (D1 / L)
  (reference_fold (D0 - n * s * L) L, D1 - n * L)

/-- Reference: the unshifted candidate (periodically folded `D[0]`, raw `D[1]`). -/
def reference_unshifted (D0 D1 L : ℚ) : ℚ × ℚ := (reference_fold D0 L, D1)

/-- Reference: the squared norm of a candidate. -/
def reference_norm (p : ℚ × ℚ) : ℚ := p.1 * p.1 + p.2 * p.2

/-- Reference: the candidate of smaller squared norm, the shifted one only when its
squared norm is strictly smaller. -/
def reference_choice (D0 D1 L s : ℚ) : ℚ × ℚ :=
  if reference_norm (reference_shifted D0 D1 L s) < reference_norm (reference_unshifted D0 D1 L)
  then reference_shifted D0 D1 L s
  else reference_unshifted D0 D1 L

/-- The value that the rounding fold of the periodic image leaves in an element that
held `v`, before the boundary correction: `v - round_fast(v * ibox_k) * box_k`. -/
def fold_value (v ibox_k box_k : ℚ) : ℚ := v - round_fast (v * ibox_k) * box_k

/-! ## Combined potential -/

/-- Source `CombinedPotential`. The list holds `BasePotential` pointers, whose header is
not part of the sources; the components modelled are pairwise engines, as in the
specification, and the virtual call
`pot_ptr->add_energy_gradient_hessian(x, grad, hess, soa)` is the engine's
`add_energy_gradient_hessian(x, grad, hess)`, the layout of an engine being its member
`m_soa`. -/
structure CombinedPotential where
  _potentials : List SimplePairwisePotential

namespace CombinedPotential

/-- Source `CombinedPotential::get_energy_gradient_hessian`; the result is the returned
energy or the exception, together with the caller's `grad` and `hess` after the call. An
exception thrown by a component ends the loop. -/
def get_energy_gradient_hessian (c : CombinedPotential) (x grad hess : Array)
    (_soa : Bool) : Except error ℚ × Array × Array :=
  if x.size ≠ grad.size then
    (Except.error (error.invalid_argument ("the gradient has the wrong size")), grad, hess)
  else if hess.size ≠ x.size * x.size then
    (Except.error (error.invalid_argument ("the Hessian has the wrong size")), grad, hess)
  else
    c._potentials.foldl
      (fun st pot_ptr =>
        match st.1 with
        | Except.error _ => st
        | Except.ok energy =>
          let r := pot_ptr.add_energy_gradient_hessian x st.2.1 st.2.2
          match r.1 with
          | Except.error err => (Except.error err, r.2)
          | Except.ok e => (Except.ok (energy + e), r.2))
      (Except.ok 0, grad.assign 0, hess.assign 0)

end CombinedPotential

/-! ## Neighbor and overlap queries -/

/-- A `pele::Array<T>` of another element type `T` (vectors, `short`): `size()` and the
elements. -/
structure ArrayT (α : Type) where
  size : Nat
  data : Nat → α

/-- Source `v[i].push_back(a)` on an array of vectors. -/
def push_back {α : Type} (v : Nat → List α) (i : Nat) (a : α) : Nat → List α :=
  Function.update v i (v i ++ [a])

/-- The `std::vector<double>` of `n` elements held in a buffer, as it is copied by
`push_back`. -/
def Buf.toVector (b : Buf) (n : Nat) : List ℚ := (List.range n).map b

namespace SimplePairwisePotential

/-- The displacement of the neighbor and overlap queries:
`get_rij(dr, &coords[atom_i * m_ndim], &coords[atom_j * m_ndim])`, particle-major
whatever the layout flag. Every element of `dr` below `m_ndim` is written by the policy;
the model starts from zeros. -/
def query_dr (pot : SimplePairwisePotential) (coords : Array) (atom_i atom_j : Nat) : Buf :=
  pot._dist.get_rij (fun _ => 0) (Buf.ptr coords.data (atom_i * pot.m_ndim))
    (Buf.ptr coords.data (atom_j * pot.m_ndim))

/-- The body of the pair loop of `get_neighbors_picky` for two included particles, on
the state `(neighbor_indss, neighbor_distss)`; the loop over `k` computes `r2` and
`neg_dr[k] = -dr[k]`. -/
def neighbors_pair (pot : SimplePairwisePotential) (coords : Array) (cutoff_sca : ℚ)
    (st : (Nat → List Nat) × (Nat → List (List ℚ))) (atom_i atom_j : Nat) :
    (Nat → List Nat) × (Nat → List (List ℚ)) :=
  let dr := pot.query_dr coords atom_i atom_j
  let r2 := pot.pair_r2 dr
  let neg_dr : Buf := fun k => -dr k
  let r_H := pot.sum_radii atom_i atom_j
  let r_S := cutoff_sca * r_H
  let r_S2 := r_S * r_S
  if r2 ≤ r_S2 then
    let neighbor_indss := push_back st.1 atom_i atom_j
    let neighbor_indss := push_back neighbor_indss atom_j atom_i
    let neighbor_distss := push_back st.2 atom_i (dr.toVector pot.m_ndim)
    let neighbor_distss := push_back neighbor_distss atom_j (neg_dr.toVector pot.m_ndim)
    (neighbor_indss, neighbor_distss)
  else st

/-- Source `SimplePairwisePotential::get_neighbors_picky`; the result is the exception,
if any, together with the caller's `neighbor_indss` and `neighbor_distss` after the
call. The elements of `include_atoms` are `short`. -/
def get_neighbors_picky (pot : SimplePairwisePotential) (coords : Array)
    (neighbor_indss : ArrayT (List Nat)) (neighbor_distss : ArrayT (List (List ℚ)))
    (include_atoms : ArrayT ℤ) (cutoff_factor : ℚ) :
    Except error Unit × ArrayT (List Nat) × ArrayT (List (List ℚ)) :=
  let natoms := coords.size / pot.m_ndim
  if pot.m_ndim * natoms ≠ coords.size then
    (Except.error (error.runtime_error
      ("coords.size() is not divisible by the number of dimensions")),
      neighbor_indss, neighbor_distss)
  else if natoms ≠ include_atoms.size then
    (Except.error (error.runtime_error
      ("include_atoms.size() is not equal to the number of atoms")),
      neighbor_indss, neighbor_distss)
  else if pot.m_radii.size = 0 then
    (Except.error (error.runtime_error
      ("Can\x27t calculate neighbors, because the used interaction doesn\x27t use radii. ")),
      neighbor_indss, neighbor_distss)
  else
    let cutoff_sca := (1 + pot.m_radii_sca) * cutoff_factor
    let st := (List.range natoms).foldl
      (fun st atom_i =>
        if include_atoms.data atom_i ≠ 0 then
          (List.range atom_i).foldl
            (fun st atom_j =>
              if include_atoms.data atom_j ≠ 0 then
                pot.neighbors_pair coords cutoff_sca st atom_i atom_j
              else st)
            st
        else st)
      ((fun _ => []), (fun _ => []))
    (Except.ok (), ⟨natoms, st.1⟩, ⟨natoms, st.2⟩)

/-- Source `SimplePairwisePotential::get_neighbors`. -/
def get_neighbors (pot : SimplePairwisePotential) (coords : Array)
    (neighbor_indss : ArrayT (List Nat)) (neighbor_distss : ArrayT (List (List ℚ)))
    (cutoff_factor : ℚ) :
    Except error Unit × ArrayT (List Nat) × ArrayT (List (List ℚ)) :=
  let natoms := coords.size / pot.m_ndim
  let include_atoms : ArrayT ℤ := ⟨natoms, fun _ => 1⟩
  pot.get_neighbors_picky coords neighbor_indss neighbor_distss include_atoms cutoff_factor

/-- Source `SimplePairwisePotential::get_overlaps`. -/
def get_overlaps (pot : SimplePairwisePotential) (coords : Array) : Except error (List Nat) :=
  let natoms := coords.size / pot.m_ndim
  if pot.m_ndim * natoms ≠ coords.size then
    Except.error (error.runtime_error
      ("coords.size() is not divisible by the number of dimensions"))
  else if pot.m_radii.size = 0 then
    Except.error (error.runtime_error
      ("Can\x27t calculate neighbors, because the used interaction doesn\x27t use radii. "))
  else
    Except.ok
      ((List.range natoms).foldl
        (fun overlap_inds atom_i =>
          (List.range atom_i).foldl
            (fun overlap_inds atom_j =>
              let dr := pot.query_dr coords atom_i atom_j
              let r2 := pot.pair_r2 dr
              let r_H := pot.sum_radii atom_i atom_j
              let r_H2 := r_H * r_H
              if r2 ≤ r_H2 then (overlap_inds ++ [atom_i]) ++ [atom_j] else overlap_inds)
            overlap_inds)
        [])

end SimplePairwisePotential

/-- The pairs `(i, j)` with `j < i < n`, by increasing `i` and then increasing `j`. -/
def ordered_pairs (n : Nat) : List (Nat × Nat) :=
  (List.range n).flatMap (fun i => (List.range i).map (fun j => (i, j)))

/-- An engine used for concrete inputs: `linear_interaction` under the cartesian policy
in `ndim` dimensions, particle-major, with `n` radii of length `r` (combined radius
`2 r` for every pair). -/
def radii_potential (ndim n : Nat) (r : ℚ) : SimplePairwisePotential :=
  { _interaction := linear_interaction
    _dist := distance_policy.cartesian ⟨ndim⟩
    m_radii_sca := 0
    m_radii := ⟨n, fun _ => r⟩
    m_soa := false
    sum_radii := fun _ _ => r + r }

/-- The order of the pair loop: `p` comes before `q` when its first (larger) index is
smaller, or the first indices agree and its second index is smaller. -/
def pair_before (p q : Nat × Nat) : Prop := p.1 < q.1 ∨ (p.1 = q.1 ∧ p.2 < q.2)

namespace SimplePairwisePotential

/-- The selection test of `get_neighbors_picky` for the pair `(i, j)`: both particles
are included and `r2 <= r_S2` with `r_S = cutoff_sca * r_H`,
`cutoff_sca = (1 + m_radii_sca) * cutoff_factor`. -/
def neighbors_cond (pot : SimplePairwisePotential) (coords : Array) (inc : ArrayT ℤ)
    (cutoff_factor : ℚ) (i j : Nat) : Prop :=
  inc.data i ≠ 0 ∧ inc.data j ≠ 0 ∧
    pot.pair_r2 (pot.query_dr coords i j)
      ≤ ((1 + pot.m_radii_sca) * cutoff_factor * pot.sum_radii i j)
        * ((1 + pot.m_radii_sca) * cutoff_factor * pot.sum_radii i j)

instance (pot : SimplePairwisePotential) (coords : Array) (inc : ArrayT ℤ)
    (cutoff_factor : ℚ) (i j : Nat) :
    Decidable (pot.neighbors_cond coords inc cutoff_factor i j) := by
  unfold neighbors_cond; infer_instance

/-- The displacement vector pushed for the pair `(i, j)` on the side of `i`. -/
def neighbor_dr (pot : SimplePairwisePotential) (coords : Array) (i j : Nat) : List ℚ :=
  (pot.query_dr coords i j).toVector pot.m_ndim

/-- The negated displacement vector pushed for the pair `(i, j)` on the side of `j`. -/
def neighbor_neg_dr (pot : SimplePairwisePotential) (coords : Array) (i j : Nat) :
    List ℚ :=
  Buf.toVector (fun k => -(pot.query_dr coords i j k)) pot.m_ndim

end SimplePairwisePotential

/-- Source constructor `leesedwards_distance(Array<double> const box, const double shear)`
together with the indices at which it reads `box`, in execution order: the member
initialiser `m_dx(fmod(shear, 1.0) * box[1])` reads `box[1]`; then comes the size check;
then the loop reads `box[i]` twice for every `i < ndim`. -/
def leesedwards_distance.construct_traced (ndim : Nat) (box : Array) (shear : ℚ) :
    List Nat × Except error leesedwards_distance :=
  let reads := [1]
  let m_dx := fmod shear 1 * box.data 1
  if box.size ≠ ndim then
    (reads, Except.error (error.invalid_argument ("box.size() must be equal to ndim")))
  else
    (reads ++ (List.range ndim).flatMap (fun i => [i, i]),
      Except.ok (leesedwards_distance.members ndim box m_dx))

/-- Source constructor `periodic_distance(Array<double> const box)` together with the
indices at which it reads `box`, in execution order: the size check comes first; then
the loop reads `box[i]` twice for every `i < ndim`. -/
def periodic_distance.construct_traced (ndim : Nat) (box : Array) :
    List Nat × Except error periodic_distance :=
  if box.size ≠ ndim then
    ([], Except.error (error.invalid_argument ("box.size() must be equal to ndim")))
  else
    ((List.range ndim).flatMap (fun i => [i, i]),
      Except.ok (periodic_distance.members ndim box))

/-- The dimension-major rearrangement of a particle-major array holding
`natoms = size / ndim` particles: coordinate `d` of particle `p`, stored at
`p * ndim + d`, moves to `d * natoms + p`. Elements from `size` on are kept. -/
def dimension_major (ndim : Nat) (a : Array) : Array :=
  let natoms := a.size / ndim
  ⟨a.size, fun q => if q < a.size then a.data (q % natoms * ndim + q / natoms) else a.data q⟩

/-! # Theorems -/

/-! ## Rounding -/

theorem roundHalfEven_add_even (r : ℚ) (m : ℤ) (hm : m % 2 = 0) :
    roundHalfEven (r + m) = roundHalfEven r + m := by
  unfold roundHalfEven
  have hf : ⌊r + (m : ℚ)⌋ = ⌊r⌋ + m := Int.floor_add_int r m
  rw [hf]
  have e : r + (m : ℚ) - ((⌊r⌋ + m : ℤ) : ℚ) = r - (⌊r⌋ : ℤ) := by push_cast; ring
  rw [e]
  have p : (⌊r⌋ + m) % 2 = ⌊r⌋ % 2 := by omega
  rw [p]
  split_ifs <;> ring

theorem reinterpret_int_of_fits (n : ℤ) (h : FitsInt32 n) :
    reinterpret_int (n + 6755399441055744) = n := by
  unfold FitsInt32 at h
  unfold reinterpret_int
  have : (n + 6755399441055744) % 2 ^ 32 = n % 2 ^ 32 := by omega
  rw [this]
  split_ifs <;> omega

theorem roundHalfEven_add_magic (r : ℚ) :
    roundHalfEven (r + 6755399441055744) = roundHalfEven r + 6755399441055744 := by
  have := roundHalfEven_add_even r 6755399441055744 (by norm_num)
  simpa using this

/-- Within the `int` range `round_fast` is rounding to nearest, halves to even. -/
theorem round_fast_of_fits (r : ℚ) (h : FitsInt32 (roundHalfEven r)) :
    round_fast r = (roundHalfEven r : ℚ) := by
  unfold round_fast
  simp only [roundHalfEven_add_magic, reinterpret_int_of_fits _ h]

theorem roundHalfEven_sub_le (r : ℚ) :
    -(1 / 2) ≤ r - roundHalfEven r ∧ r - roundHalfEven r ≤ 1 / 2 := by
  have h1 := Int.floor_le r
  have h2 := Int.lt_floor_add_one r
  unfold roundHalfEven
  split_ifs with a b c
  · constructor <;> linarith
  · push_cast; constructor <;> linarith
  · constructor <;> linarith
  · push_cast; constructor <;> linarith

theorem roundHalfEven_eq_of_near (r : ℚ) (n : ℤ) (h1 : -(1 / 2) < r - n)
    (h2 : r - n < 1 / 2) : roundHalfEven r = n := by
  have hb := roundHalfEven_sub_le r
  have u : ((roundHalfEven r - n : ℤ) : ℚ) < 1 := by push_cast; linarith [hb.1]
  have l : ((roundHalfEven r - n : ℤ) : ℚ) > -1 := by push_cast; linarith [hb.2]
  have a1 : roundHalfEven r - n < 1 := by exact_mod_cast u
  have a2 : roundHalfEven r - n > -1 := by exact_mod_cast l
  omega

/-- Away from exact halves, rounding half-to-even is the reference `round`. -/
theorem roundHalfEven_eq_round (r : ℚ) (h : r - (⌊r⌋ : ℤ) ≠ 1 / 2) :
    (roundHalfEven r : ℚ) = round r := by
  have h1 := Int.floor_le r
  have h2 := Int.lt_floor_add_one r
  unfold round
  split_ifs with hp
  · have : ⌊r + 1 / 2⌋ = roundHalfEven r := by
      rw [Int.floor_eq_iff]
      unfold roundHalfEven
      split_ifs with a b c
      · constructor <;> linarith
      · push_cast; constructor <;> linarith
      · exact absurd (le_antisymm (not_lt.mp b) (not_lt.mp a)) h
      · exact absurd (le_antisymm (not_lt.mp b) (not_lt.mp a)) h
    rw [this]
  · have : ⌈r - 1 / 2⌉ = roundHalfEven r := by
      rw [Int.ceil_eq_iff]
      unfold roundHalfEven
      split_ifs with a b c
      · constructor <;> linarith
      · push_cast; constructor <;> linarith
      · exact absurd (le_antisymm (not_lt.mp b) (not_lt.mp a)) h
      · exact absurd (le_antisymm (not_lt.mp b) (not_lt.mp a)) h
    rw [this]

/-- The wrap of `round_fast` at `2 ^ 32`: the low 32 bits of the sum are zero. -/
theorem round_fast_two_pow_32 : round_fast 4294967296 = 0 := by
  unfold round_fast
  have : roundHalfEven ((4294967296 : ℚ) + 6755399441055744) = 6755403736023040 :=
    roundHalfEven_eq_of_near _ _ (by norm_num) (by norm_num)
  simp only [this]
  norm_num [reinterpret_int]

/-! ## Closed forms of the template recursions -/

theorem meta_dist_apply (n : Nat) (r_ij r1 r2 : Buf) (d : Nat) :
    meta_dist n r_ij r1 r2 d = if d < n then r1 d - r2 d else r_ij d := by
  induction n generalizing r_ij with
  | zero => simp [meta_dist]
  | succ n ih =>
    simp only [meta_dist, ih, Function.update_apply]
    by_cases h1 : d < n
    · simp [h1, Nat.lt_succ_of_lt h1]
    · by_cases h2 : d = n
      · subst h2; simp
      · have : ¬ d < n + 1 := by omega
        simp [h1, h2, this]

theorem meta_periodic_distance_apply (n : Nat) (r_ij r1 r2 _box _ibox : Buf) (d : Nat) :
    meta_periodic_distance n r_ij r1 r2 _box _ibox d =
      if d < n then (r1 d - r2 d) - round_fast ((r1 d - r2 d) * _ibox d) * _box d
      else r_ij d := by
  induction n generalizing r_ij with
  | zero => simp [meta_periodic_distance]
  | succ n ih =>
    simp only [meta_periodic_distance, ih, Function.update_apply]
    by_cases h1 : d < n
    · simp [h1, Nat.lt_succ_of_lt h1]
    · by_cases h2 : d = n
      · subst h2; simp
      · have : ¬ d < n + 1 := by omega
        simp [h1, h2, this]

theorem meta_leesedwards_distance_apply (n : Nat) (r_ij r1 r2 box ibox : Buf) (dx : ℚ)
    (d : Nat) :
    meta_leesedwards_distance (n + 2) r_ij r1 r2 box ibox dx d =
      if d = 0 then
        (r1 0 - r2 0 - round_fast ((r1 1 - r2 1) * ibox 1) * dx)
          - round_fast ((r1 0 - r2 0 - round_fast ((r1 1 - r2 1) * ibox 1) * dx) * ibox 0)
              * box 0
      else if d = 1 then (r1 1 - r2 1) - round_fast ((r1 1 - r2 1) * ibox 1) * box 1
      else if d < n + 2 then (r1 d - r2 d) - round_fast ((r1 d - r2 d) * ibox d) * box d
      else r_ij d := by
  induction n generalizing r_ij with
  | zero =>
    simp only [meta_leesedwards_distance, Function.update_apply]
    by_cases h0 : d = 0
    · subst h0; simp
    · by_cases h1 : d = 1
      · subst h1; simp
      · have : ¬ d < 2 := by omega
        simp [h0, h1, this]
  | succ n ih =>
    simp only [meta_leesedwards_distance, ih, Function.update_apply]
    by_cases h0 : d = 0
    · simp [h0]
    · by_cases h1 : d = 1
      · simp [h1]
      · by_cases h2 : d < n + 2
        · simp [h0, h1, h2, Nat.lt_succ_of_lt h2]
        · by_cases h3 : d = n + 2
          · subst h3; simp
          · have : ¬ d < n + 1 + 2 := by omega
            simp [h0, h1, h2, h3, this]

/-! ## The constructed policies -/

theorem periodic_construct_ok {ndim : Nat} {box : Array} {pd : periodic_distance}
    (h : periodic_distance.construct ndim box = Except.ok pd) :
    box.size = ndim ∧ pd = periodic_distance.members ndim box := by
  unfold periodic_distance.construct at h
  split_ifs at h with hs
  cases h
  exact ⟨not_not.mp hs, rfl⟩

theorem leesedwards_construct_ok {ndim : Nat} {box : Array} {shear : ℚ}
    {ld : leesedwards_distance}
    (h : leesedwards_distance.construct ndim box shear = Except.ok ld) :
    box.size = ndim ∧
      ld = leesedwards_distance.members ndim box (fmod shear 1 * box.data 1) := by
  unfold leesedwards_distance.construct at h
  simp only at h
  split_ifs at h with hs
  cases h
  exact ⟨not_not.mp hs, rfl⟩

theorem leesedwards_get_rij_apply (ndim : Nat) (h2 : 2 ≤ ndim) (box : Array) (dx : ℚ)
    (r_ij r1 r2 : Buf) (d : Nat) (hd : d < ndim) :
    (leesedwards_distance.members ndim box dx).get_rij r_ij r1 r2 d =
      if d = 0 then
        (r1 0 - r2 0 - round_fast ((r1 1 - r2 1) / box.data 1) * dx)
          - round_fast ((r1 0 - r2 0 - round_fast ((r1 1 - r2 1) / box.data 1) * dx)
              / box.data 0) * box.data 0
      else if d = 1 then (r1 1 - r2 1) - round_fast ((r1 1 - r2 1) / box.data 1) * box.data 1
      else (r1 d - r2 d) - round_fast ((r1 d - r2 d) / box.data d) * box.data d := by
  obtain ⟨n, rfl⟩ : ∃ n, ndim = n + 2 := ⟨ndim - 2, by omega⟩
  have h0 : 0 < n + 2 := by omega
  have h1 : 1 < n + 2 := by omega
  simp only [leesedwards_distance.get_rij, leesedwards_distance.members,
    meta_leesedwards_distance_apply, hd, h0, h1, if_true, mul_one_div]

theorem fmod_one_of_mem_Ico (x : ℚ) (h0 : 0 ≤ x) (h1 : x < 1) : fmod x 1 = x := by
  have hf : ⌊x⌋ = 0 := by
    rw [Int.floor_eq_iff]; constructor <;> simp [h0, h1]
  unfold fmod
  simp [h0, hf]

theorem meta_dist_soa_eq (n : Nat) (r_ij r1 r2 : Buf) (natoms : Nat) :
    meta_dist_soa n r_ij r1 r2 natoms
      = meta_dist n r_ij (Buf.strided r1 natoms) (Buf.strided r2 natoms) := by
  induction n generalizing r_ij with
  | zero => rfl
  | succ n ih =>
    simp only [meta_dist_soa, meta_dist, ih, Buf.strided, Nat.mul_comm natoms n]

theorem meta_periodic_distance_soa_eq (n : Nat) (r_ij r1 r2 _box _ibox : Buf)
    (natoms : Nat) :
    meta_periodic_distance_soa n r_ij r1 r2 _box _ibox natoms
      = meta_periodic_distance n r_ij (Buf.strided r1 natoms) (Buf.strided r2 natoms)
          _box _ibox := by
  induction n generalizing r_ij with
  | zero => rfl
  | succ n ih =>
    simp only [meta_periodic_distance_soa, meta_periodic_distance, ih, Buf.strided,
      Nat.mul_comm natoms n]

theorem meta_leesedwards_distance_soa_eq (n : Nat) (r_ij r1 r2 box ibox : Buf) (dx : ℚ)
    (natoms : Nat) :
    meta_leesedwards_distance_soa n r_ij r1 r2 box ibox dx natoms
      = meta_leesedwards_distance n r_ij (Buf.strided r1 natoms) (Buf.strided r2 natoms)
          box ibox dx := by
  induction n using Nat.strong_induction_on generalizing r_ij with
  | _ n ih =>
    match n with
    | 0 => rfl
    | 1 => rfl
    | 2 =>
      simp only [meta_leesedwards_distance_soa, meta_leesedwards_distance, Buf.strided,
        Nat.zero_mul, Nat.one_mul]
    | m + 3 =>
      simp only [meta_leesedwards_distance_soa, meta_leesedwards_distance,
        ih (m + 2) (by omega), Buf.strided]

theorem meta_image_soa_eq (n : Nat) (xnew x _ibox _box : Buf) (natoms : Nat) :
    meta_image_soa n xnew x _ibox _box natoms
      = meta_image n xnew (Buf.strided x natoms) _ibox _box := by
  induction n generalizing xnew with
  | zero => rfl
  | succ n ih => simp only [meta_image_soa, meta_image, ih, Buf.strided]

theorem meta_leesedwards_image_soa_eq (n : Nat) (xnew x ibox box : Buf) (dx : ℚ)
    (natoms : Nat) :
    meta_leesedwards_image_soa n xnew x ibox box dx natoms
      = meta_leesedwards_image n xnew (Buf.strided x natoms) ibox box dx := by
  induction n using Nat.strong_induction_on generalizing xnew with
  | _ n ih =>
    match n with
    | 0 => rfl
    | 1 => rfl
    | 2 =>
      simp only [meta_leesedwards_image_soa, meta_leesedwards_image, Buf.strided,
        Nat.zero_mul, Nat.one_mul]
    | m + 3 =>
      simp only [meta_leesedwards_image_soa, meta_leesedwards_image,
        ih (m + 2) (by omega), Buf.strided]

theorem strided_update (x : Buf) (natoms : Nat) (h : 1 ≤ natoms) (k : Nat) (v : ℚ) :
    Buf.strided (Function.update x (k * natoms) v) natoms
      = Function.update (Buf.strided x natoms) k v := by
  funext d
  simp only [Buf.strided, Function.update_apply]
  have : d * natoms = k * natoms ↔ d = k := by
    constructor
    · intro e; exact Nat.eq_of_mul_eq_mul_right (by omega) e
    · intro e; rw [e]
  simp only [this]

theorem image_correction_eq (x : Buf) (i : Nat) (b : ℚ) :
    image_correction x i b = Function.update x i (corrected (x i) b) := by
  unfold image_correction corrected
  simp only
  by_cases h1 : x i > 1 / 2 * b
  · simp only [h1, if_true, Function.update_same]
    by_cases h2 : x i - b < -(1 / 2 * b)
    · simp only [h2, if_true, Function.update_idem]
    · simp only [h2, if_false]
  · simp only [h1, if_false]
    by_cases h2 : x i < -(1 / 2 * b)
    · simp only [h2, if_true]
    · simp only [h2, if_false, Function.update_eq_self]

theorem strided_image_correction (x : Buf) (natoms : Nat) (h : 1 ≤ natoms) (k : Nat)
    (b : ℚ) :
    Buf.strided (image_correction x (k * natoms) b) natoms
      = image_correction (Buf.strided x natoms) k b := by
  rw [image_correction_eq, image_correction_eq, strided_update _ _ h]
  rfl

theorem meta_image_soa_inplace_strided (n : Nat) (x _ibox _box : Buf) (natoms : Nat)
    (h : 1 ≤ natoms) :
    Buf.strided (meta_image_soa_inplace n x _ibox _box natoms) natoms
      = meta_image_inplace n (Buf.strided x natoms) _ibox _box := by
  induction n generalizing x with
  | zero => rfl
  | succ n ih =>
    simp only [meta_image_soa_inplace, meta_image_inplace]
    rw [ih, strided_image_correction _ _ h, strided_update _ _ h]
    rfl

theorem leesedwards_correction_eq (x : Buf) (i0 i1 : Nat) (hne : i0 ≠ i1) (b dx : ℚ) :
    leesedwards_correction x i0 i1 b dx =
      Function.update (Function.update x i0 (corrected_pair (x i0) (x i1) b dx).1) i1
        (corrected_pair (x i0) (x i1) b dx).2 := by
  have hne' : i1 ≠ i0 := fun e => hne e.symm
  funext q
  unfold leesedwards_correction corrected_pair
  simp only
  by_cases h1 : x i1 > 1 / 2 * b
  · simp only [h1, if_true, Function.update_same, Function.update_noteq hne']
    by_cases h2 : x i1 - b < -(1 / 2 * b)
    · simp only [h2, if_true, Function.update_same, Function.update_noteq hne,
        Function.update_noteq hne', Function.update_apply]
      split_ifs <;> rfl
    · simp only [h2, if_false, Function.update_apply]
  · simp only [h1, if_false]
    by_cases h2 : x i1 < -(1 / 2 * b)
    · simp only [h2, if_true, Function.update_same, Function.update_noteq hne',
        Function.update_apply]
    · simp only [h2, if_false, Function.update_apply]
      split_ifs with a c
      · rw [a]
      · rw [c]
      · rfl

theorem strided_leesedwards_correction (x : Buf) (natoms : Nat) (h : 1 ≤ natoms)
    (b dx : ℚ) :
    Buf.strided (leesedwards_correction x 0 natoms b dx) natoms
      = leesedwards_correction (Buf.strided x natoms) 0 1 b dx := by
  have u0 := fun (y : Buf) (v : ℚ) => strided_update y natoms h 0 v
  have u1 := fun (y : Buf) (v : ℚ) => strided_update y natoms h 1 v
  simp only [Nat.zero_mul, Nat.one_mul] at u0 u1
  rw [leesedwards_correction_eq _ _ _ (by omega), leesedwards_correction_eq _ _ _ (by omega),
    u1, u0]
  simp only [Buf.strided, Nat.zero_mul, Nat.one_mul]

theorem meta_leesedwards_image_inplace_two (x ibox box : Buf) (dx : ℚ) :
    meta_leesedwards_image_inplace 2 x ibox box dx =
      Function.update
        (Function.update x 0
          (leesedwards_image_values (x 0) (x 1) (ibox 0) (box 0) (ibox 1) (box 1) dx).1) 1
        (leesedwards_image_values (x 0) (x 1) (ibox 0) (box 0) (ibox 1) (box 1) dx).2 := by
  have h01 : (0 : Nat) ≠ 1 := by decide
  have h10 : (1 : Nat) ≠ 0 := by decide
  funext q
  simp only [meta_leesedwards_image_inplace, leesedwards_image_values]
  rw [image_correction_eq, leesedwards_correction_eq _ _ _ h01]
  simp only [Function.update_same, Function.update_noteq h01, Function.update_noteq h10,
    Function.update_apply]
  split_ifs <;> first | rfl | omega

theorem meta_leesedwards_image_soa_inplace_two (x ibox box : Buf) (dx : ℚ) (natoms : Nat)
    (h : 1 ≤ natoms) :
    meta_leesedwards_image_soa_inplace 2 x ibox box dx natoms =
      Function.update
        (Function.update x 0
          (leesedwards_image_values (x 0) (x natoms) (ibox 0) (box 0) (ibox 1) (box 1)
            dx).1) natoms
        (leesedwards_image_values (x 0) (x natoms) (ibox 0) (box 0) (ibox 1) (box 1)
          dx).2 := by
  have h01 : (0 : Nat) ≠ natoms := by omega
  have h10 : natoms ≠ 0 := by omega
  funext q
  simp only [meta_leesedwards_image_soa_inplace, leesedwards_image_values]
  rw [image_correction_eq, leesedwards_correction_eq _ _ _ h01]
  simp only [Function.update_same, Function.update_noteq h01, Function.update_noteq h10,
    Function.update_apply]
  split_ifs <;> first | rfl | omega

theorem meta_leesedwards_image_soa_inplace_strided (n : Nat) (x ibox box : Buf) (dx : ℚ)
    (natoms : Nat) (h : 1 ≤ natoms) :
    Buf.strided (meta_leesedwards_image_soa_inplace n x ibox box dx natoms) natoms
      = meta_leesedwards_image_inplace n (Buf.strided x natoms) ibox box dx := by
  induction n using Nat.strong_induction_on generalizing x with
  | _ n ih =>
    match n with
    | 0 => rfl
    | 1 => rfl
    | 2 =>
      have u0 := fun (y : Buf) (v : ℚ) => strided_update y natoms h 0 v
      have u1 := fun (y : Buf) (v : ℚ) => strided_update y natoms h 1 v
      simp only [Nat.zero_mul, Nat.one_mul] at u0 u1
      rw [meta_leesedwards_image_soa_inplace_two _ _ _ _ _ h,
        meta_leesedwards_image_inplace_two, u1, u0]
      simp only [Buf.strided, Nat.zero_mul, Nat.one_mul]
    | m + 3 =>
      simp only [meta_leesedwards_image_soa_inplace, meta_leesedwards_image_inplace]
      rw [ih (m + 2) (by omega), strided_image_correction _ _ h, strided_update _ _ h]
      rfl

/-! ## C9 -/

/-- C9: for each of the three policies and every `natoms >= 1`, with the logical
coordinates of an SoA particle being `x[d * natoms]`: `get_rij_soa` writes the same
displacement as `get_rij` on the logical coordinates, the two-argument
`put_atom_in_box_soa` writes the same `xnew` as the two-argument `put_atom_in_box`, and
the in-place `put_atom_in_box_soa` leaves at the offsets `d * natoms` the coordinates
that the in-place `put_atom_in_box` leaves in a contiguous copy. -/
theorem C9_soa_forms_agree_with_aos (natoms : Nat) (hn : 1 ≤ natoms)
    (cd : cartesian_distance) (pd : periodic_distance) (ld : leesedwards_distance)
    (r_ij r1 r2 xnew x : Buf) :
    (cd.get_rij_soa r_ij r1 r2 natoms
        = cd.get_rij r_ij (Buf.strided r1 natoms) (Buf.strided r2 natoms) ∧
      pd.get_rij_soa r_ij r1 r2 natoms
        = pd.get_rij r_ij (Buf.strided r1 natoms) (Buf.strided r2 natoms) ∧
      ld.get_rij_soa r_ij r1 r2 natoms
        = ld.get_rij r_ij (Buf.strided r1 natoms) (Buf.strided r2 natoms)) ∧
    (cd.put_atom_in_box_soa xnew x natoms
        = cd.put_atom_in_box xnew (Buf.strided x natoms) ∧
      pd.put_atom_in_box_soa xnew x natoms
        = pd.put_atom_in_box xnew (Buf.strided x natoms) ∧
      ld.put_atom_in_box_soa xnew x natoms
        = ld.put_atom_in_box xnew (Buf.strided x natoms)) ∧
    (Buf.strided (cd.put_atom_in_box_soa_inplace x natoms) natoms
        = cd.put_atom_in_box_inplace (Buf.strided x natoms) ∧
      Buf.strided (pd.put_atom_in_box_soa_inplace x natoms) natoms
        = pd.put_atom_in_box_inplace (Buf.strided x natoms) ∧
      Buf.strided (ld.put_atom_in_box_soa_inplace x natoms) natoms
        = ld.put_atom_in_box_inplace (Buf.strided x natoms)) := by
  refine ⟨⟨?_, ?_, ?_⟩, ⟨?_, ?_, ?_⟩, ⟨?_, ?_, ?_⟩⟩
  · exact meta_dist_soa_eq _ _ _ _ _
  · exact meta_periodic_distance_soa_eq _ _ _ _ _ _ _
  · exact meta_leesedwards_distance_soa_eq _ _ _ _ _ _ _ _
  · rfl
  · exact meta_image_soa_eq _ _ _ _ _ _
  · exact meta_leesedwards_image_soa_eq _ _ _ _ _ _ _
  · rfl
  · exact meta_image_soa_inplace_strided _ _ _ _ _ hn
  · exact meta_leesedwards_image_soa_inplace_strided _ _ _ _ _ _ hn

/-- C9 witness: two particles in the plane stored dimension-major as
`(x0, x1, y0, y1) = (37/10, 0, 13/2, 0)` under the Lees-Edwards policy with box
`(10, 10)` and `dx = 1`: the in-place SoA fold of particle 0 agrees with the in-place
fold of its contiguous coordinates `(37/10, 13/2)`. -/
theorem C9_soa_forms_agree_with_aos_witness :
    Buf.strided
        ((leesedwards_distance.members 2 (Array.ofList [10, 10]) 1).put_atom_in_box_soa_inplace
          (Buf.ofList [37 / 10, 0, 13 / 2, 0]) 2) 2
      = (leesedwards_distance.members 2 (Array.ofList [10, 10]) 1).put_atom_in_box_inplace
          (Buf.strided (Buf.ofList [37 / 10, 0, 13 / 2, 0]) 2) :=
  (C9_soa_forms_agree_with_aos 2 (by decide) ⟨2⟩
    (periodic_distance.members 2 (Array.ofList [10, 10]))
    (leesedwards_distance.members 2 (Array.ofList [10, 10]) 1) (fun _ => 0)
    (Buf.ofList [37 / 10, 0, 13 / 2, 0]) (Buf.ofList [0, 0, 0, 0]) (fun _ => 0)
    (Buf.ofList [37 / 10, 0, 13 / 2, 0])).2.2.2.2

/-! ## Closed forms of the periodic image -/

theorem meta_image_apply (n : Nat) (xnew x _ibox _box : Buf) (d : Nat) :
    meta_image n xnew x _ibox _box d =
      if d < n then image_value (x d) (_ibox d) (_box d) else xnew d := by
  induction n generalizing xnew with
  | zero => simp [meta_image]
  | succ n ih =>
    simp only [meta_image, ih, image_correction_eq, Function.update_apply,
      Function.update_same, image_value]
    by_cases h1 : d < n
    · simp [h1, Nat.lt_succ_of_lt h1]
    · by_cases h2 : d = n
      · subst h2; simp
      · have : ¬ d < n + 1 := by omega
        simp [h1, h2, this]

theorem meta_image_inplace_apply (n : Nat) (x _ibox _box : Buf) (d : Nat) :
    meta_image_inplace n x _ibox _box d =
      if d < n then image_value (x d) (_ibox d) (_box d) else x d := by
  induction n generalizing x with
  | zero => simp [meta_image_inplace]
  | succ n ih =>
    simp only [meta_image_inplace, ih, image_correction_eq, Function.update_apply,
      Function.update_same, image_value]
    by_cases h1 : d < n
    · have : d ≠ n := by omega
      simp [h1, Nat.lt_succ_of_lt h1, this]
    · by_cases h2 : d = n
      · subst h2; simp
      · have : ¬ d < n + 1 := by omega
        simp [h1, h2, this]

theorem put_in_box_count (N n : Nat) (hn : 0 < n) : (N * n + n - 1) / n = N := by
  have : N * n + n - 1 = (n - 1) + N * n := by omega
  rw [this, Nat.add_mul_div_right _ _ hn, Nat.div_eq_of_lt (by omega)]
  simp

theorem foldl_range_add (f : Nat → ℚ) (n : Nat) (init : ℚ) :
    (List.range n).foldl (fun acc k => acc + f k) init
      = init + ∑ k in Finset.range n, f k := by
  induction n with
  | zero => simp
  | succ n ih =>
    rw [List.range_succ, List.foldl_append, ih, Finset.sum_range_succ]
    simp only [List.foldl_cons, List.foldl_nil]
    ring

theorem foldl_pairs_add (f : Nat → Nat → ℚ) (n : Nat) (init : ℚ) :
    (List.range n).foldl
        (fun e i => (List.range i).foldl (fun e j => e + f i j) e) init
      = init + ∑ i in Finset.range n, ∑ j in Finset.range i, f i j := by
  induction n with
  | zero => simp
  | succ n ih =>
    rw [List.range_succ, List.foldl_append, ih, Finset.sum_range_succ]
    simp only [List.foldl_cons, List.foldl_nil, foldl_range_add]
    ring

theorem sum_pair_set (f : Nat → Nat → ℚ) (N : Nat) :
    ∑ p in pair_set N, f p.1 p.2
      = ∑ i in Finset.range N, ∑ j in Finset.range i, f i j := by
  unfold pair_set
  rw [Finset.sum_filter, Finset.sum_product]
  apply Finset.sum_congr rfl
  intro i hi
  rw [← Finset.sum_filter]
  apply Finset.sum_congr _ (fun _ _ => rfl)
  ext j
  simp only [Finset.mem_filter, Finset.mem_range] at hi ⊢
  omega

theorem mem_pair_set (N i j : Nat) : (i, j) ∈ pair_set N ↔ j < i ∧ i < N := by
  simp only [pair_set, Finset.mem_filter, Finset.mem_product, Finset.mem_range]
  omega

theorem card_pair_set (N : Nat) : (pair_set N).card = N * (N - 1) / 2 := by
  have h : ((pair_set N).card : ℚ) = ∑ i in Finset.range N, (i : ℚ) := by
    rw [Finset.card_eq_sum_ones, Nat.cast_sum]
    have := sum_pair_set (fun _ _ => (1 : ℚ)) N
    simp only [Nat.cast_one] at this ⊢
    rw [this]
    simp
  have h2 : ((pair_set N).card : ℚ) = ((∑ i in Finset.range N, i : ℕ) : ℚ) := by
    rw [h]; push_cast; rfl
  have h3 : (pair_set N).card = ∑ i in Finset.range N, i := by exact_mod_cast h2
  rw [h3, Finset.sum_range_id]

/-! ## The displacement seen by the engine -/

theorem distance_policy_get_rij_soa_eq (dist : distance_policy) (r_ij r1 r2 : Buf)
    (natoms : Nat) :
    dist.get_rij_soa r_ij r1 r2 natoms
      = dist.get_rij r_ij (Buf.strided r1 natoms) (Buf.strided r2 natoms) := by
  cases dist with
  | cartesian d => exact meta_dist_soa_eq _ _ _ _ _
  | periodic d => exact meta_periodic_distance_soa_eq _ _ _ _ _ _ _
  | leesedwards d => exact meta_leesedwards_distance_soa_eq _ _ _ _ _ _ _ _

theorem pair_dr_eq (pot : SimplePairwisePotential) (x : Array) (natoms i j : Nat) :
    pot.pair_dr x natoms i j = pot.r_ij x natoms i j := by
  unfold SimplePairwisePotential.pair_dr SimplePairwisePotential.r_ij
    SimplePairwisePotential.particle SimplePairwisePotential.index
  by_cases h : pot.m_soa = true
  · simp only [h, if_true, distance_policy_get_rij_soa_eq]
    rfl
  · simp only [h, if_false]
    rfl

theorem pair_r2_eq (pot : SimplePairwisePotential) (dr : Buf) :
    pot.pair_r2 dr = ∑ k in Finset.range pot.m_ndim, dr k * dr k := by
  unfold SimplePairwisePotential.pair_r2
  rw [foldl_range_add]
  simp

theorem natoms_eq (D N size : Nat) (hD : 0 < D) (hx : size = N * D) :
    size / D = N ∧ ¬ (D * N ≠ size) := by
  subst hx
  rw [Nat.mul_div_cancel _ hD]
  exact ⟨rfl, by simp [Nat.mul_comm]⟩

theorem get_energy_eq (pot : SimplePairwisePotential) (x : Array) (N : Nat)
    (hD : 0 < pot.m_ndim) (hx : x.size = N * pot.m_ndim) :
    pot.get_energy x = Except.ok
      (∑ i in Finset.range N, ∑ j in Finset.range i,
        pot._interaction.energy (pot.r2_ij x N i j) (pot.sum_radii i j)) := by
  obtain ⟨hn, hdiv⟩ := natoms_eq _ _ _ hD hx
  unfold SimplePairwisePotential.get_energy
  simp only [hn, hdiv, if_false, pair_dr_eq, pair_r2_eq]
  rw [foldl_pairs_add]
  simp only [zero_add, SimplePairwisePotential.r2_ij]

/-! ## C3 -/

/-- C3: for a coordinate vector of length `N * D` (either layout), `get_energy` returns
the sum over the pairs `j < i < N` of `interaction.energy(r2_ij, sum_radii(i, j))`, with
`r2_ij` the squared norm of the policy's `get_rij` on the two particles; the pairs are
the `N (N - 1) / 2` pairs with `j < i < N`, each once; the result is `0` for `N <= 1`. -/
theorem C3_get_energy_sum_over_pairs (pot : SimplePairwisePotential) (x : Array) (N : Nat)
    (hD : 0 < pot.m_ndim) (hx : x.size = N * pot.m_ndim) :
    pot.get_energy x = Except.ok
        (∑ p in pair_set N,
          pot._interaction.energy (pot.r2_ij x N p.1 p.2) (pot.sum_radii p.1 p.2)) ∧
      (∀ i j, (i, j) ∈ pair_set N ↔ j < i ∧ i < N) ∧
      (pair_set N).card = N * (N - 1) / 2 ∧
      (N ≤ 1 → pot.get_energy x = Except.ok 0) := by
  have e := get_energy_eq pot x N hD hx
  refine ⟨?_, mem_pair_set N, card_pair_set N, ?_⟩
  · rw [e, sum_pair_set
      (fun i j => pot._interaction.energy (pot.r2_ij x N i j) (pot.sum_radii i j))]
  · intro hN
    rw [e]
    have : N = 0 ∨ N = 1 := by omega
    rcases this with h | h <;> subst h <;> simp

/-- C3 witness: three particles on a line at `0, 1, 3` with energy `r2` per pair: the
total is `1 + 9 + 4 = 14`. -/
theorem C3_get_energy_sum_over_pairs_witness :
    (linear_potential 1).get_energy (Array.ofList [0, 1, 3]) = Except.ok 14 := by
  have h := (C3_get_energy_sum_over_pairs (linear_potential 1) (Array.ofList [0, 1, 3]) 3
    (by decide) rfl).1
  rw [h, sum_pair_set
    (fun i j => (linear_potential 1)._interaction.energy
      ((linear_potential 1).r2_ij (Array.ofList [0, 1, 3]) 3 i j)
      ((linear_potential 1).sum_radii i j))]
  simp only [Finset.sum_range_succ, Finset.sum_range_zero, linear_potential,
    linear_interaction, SimplePairwisePotential.r2_ij, SimplePairwisePotential.r_ij,
    SimplePairwisePotential.particle, SimplePairwisePotential.index,
    SimplePairwisePotential.m_ndim, distance_policy._ndim, distance_policy.get_rij,
    cartesian_distance.get_rij, meta_dist_apply, Array.ofList, Buf.ofList]
  norm_num

/-! ## Index arithmetic of the two layouts -/

theorem index_lt (pot : SimplePairwisePotential) (N p k : Nat) (hp : p < N)
    (hk : k < pot.m_ndim) : pot.index N p k < N * pot.m_ndim := by
  unfold SimplePairwisePotential.index
  split_ifs
  · have h1 : (k + 1) * N ≤ pot.m_ndim * N := Nat.mul_le_mul_right _ hk
    rw [Nat.add_mul, Nat.one_mul] at h1
    rw [Nat.mul_comm N]
    omega
  · have h1 : (p + 1) * pot.m_ndim ≤ N * pot.m_ndim := Nat.mul_le_mul_right _ hp
    rw [Nat.add_mul, Nat.one_mul] at h1
    omega

theorem index_inj (pot : SimplePairwisePotential) (N p k q l : Nat) (hp : p < N)
    (hk : k < pot.m_ndim) (hq : q < N) (hl : l < pot.m_ndim) :
    pot.index N p k = pot.index N q l ↔ p = q ∧ k = l := by
  constructor
  · unfold SimplePairwisePotential.index
    split_ifs
    · intro e
      have hkl : k = l := by
        rcases Nat.lt_trichotomy k l with h | h | h
        · have h1 : (k + 1) * N ≤ l * N := Nat.mul_le_mul_right _ h
          rw [Nat.add_mul, Nat.one_mul] at h1
          omega
        · exact h
        · have h1 : (l + 1) * N ≤ k * N := Nat.mul_le_mul_right _ h
          rw [Nat.add_mul, Nat.one_mul] at h1
          omega
      subst hkl
      exact ⟨by omega, rfl⟩
    · intro e
      have hpq : p = q := by
        rcases Nat.lt_trichotomy p q with h | h | h
        · have h1 : (p + 1) * pot.m_ndim ≤ q * pot.m_ndim := Nat.mul_le_mul_right _ h
          rw [Nat.add_mul, Nat.one_mul] at h1
          omega
        · exact h
        · have h1 : (q + 1) * pot.m_ndim ≤ p * pot.m_ndim := Nat.mul_le_mul_right _ h
          rw [Nat.add_mul, Nat.one_mul] at h1
          omega
      subst hpq
      exact ⟨rfl, by omega⟩
  · rintro ⟨rfl, rfl⟩; rfl

/-! ## The gradient loop -/

theorem add_at_apply (p : Buf) (i : Nat) (v : ℚ) (q : Nat) :
    Buf.add_at p i v q = p q + if q = i then v else 0 := by
  unfold Buf.add_at
  rw [Function.update_apply]
  split_ifs with h
  · rw [h]
  · simp

theorem sub_at_apply (p : Buf) (i : Nat) (v : ℚ) (q : Nat) :
    Buf.sub_at p i v q = p q + if q = i then -v else 0 := by
  unfold Buf.sub_at
  rw [Function.update_apply]
  split_ifs with h
  · rw [h]; ring
  · simp

/-- What one pair adds to the gradient entry at position `q`. -/
theorem gradient_scatter_apply (pot : SimplePairwisePotential) (natoms i j : Nat) (g : ℚ)
    (dr grad : Buf) (q : Nat) :
    pot.gradient_scatter natoms i j g dr grad q =
      grad q + ∑ k in Finset.range pot.m_ndim,
        ((if q = pot.index natoms i k then -(dr k * g) else 0)
          + (if q = pot.index natoms j k then dr k * g else 0)) := by
  unfold SimplePairwisePotential.gradient_scatter
  have key : ∀ K : Nat,
      (List.range K).foldl
        (fun (s : Buf × Buf) k =>
          if pot.m_soa then
            (Function.update s.1 k (s.1 k * g),
              Buf.add_at
                (Buf.sub_at s.2 (i + k * natoms) ((Function.update s.1 k (s.1 k * g)) k))
                (j + k * natoms) ((Function.update s.1 k (s.1 k * g)) k))
          else
            (Function.update s.1 k (s.1 k * g),
              Buf.add_at
                (Buf.sub_at s.2 (i * pot.m_ndim + k)
                  ((Function.update s.1 k (s.1 k * g)) k))
                (j * pot.m_ndim + k) ((Function.update s.1 k (s.1 k * g)) k)))
        (dr, grad)
      = (fun k => if k < K then dr k * g else dr k,
          fun q => grad q + ∑ k in Finset.range K,
            ((if q = pot.index natoms i k then -(dr k * g) else 0)
              + (if q = pot.index natoms j k then dr k * g else 0))) := by
    intro K
    induction K with
    | zero => simp
    | succ K ih =>
      rw [List.range_succ, List.foldl_append, ih]
      simp only [List.foldl_cons, List.foldl_nil, Function.update_same, lt_irrefl, if_false]
      have hdr : Function.update (fun k => if k < K then dr k * g else dr k) K (dr K * g)
          = fun k => if k < K + 1 then dr k * g else dr k := by
        funext k
        rw [Function.update_apply]
        by_cases h1 : k = K
        · subst h1; simp
        · by_cases h2 : k < K
          · have : k < K + 1 := by omega
            simp [h1, h2, this]
          · have : ¬ k < K + 1 := by omega
            simp [h1, h2, this]
      by_cases hs : pot.m_soa = true
      · simp only [hs, if_true, hdr]
        congr 1
        funext q
        rw [add_at_apply, sub_at_apply, Finset.sum_range_succ]
        simp only [SimplePairwisePotential.index, hs, if_true]
        ring
      · have hs' : pot.m_soa = false := by simpa using hs
        simp only [hs', Bool.false_eq_true, if_false, hdr]
        congr 1
        funext q
        rw [add_at_apply, sub_at_apply, Finset.sum_range_succ]
        simp only [SimplePairwisePotential.index, hs', Bool.false_eq_true, if_false]
        ring
  have := key pot.m_ndim
  simp only at this ⊢
  rw [this]

theorem energy_gradient_pair_eq (pot : SimplePairwisePotential) (x : Array) (natoms : Nat)
    (st : ℚ × Buf) (i j : Nat) :
    pot.energy_gradient_pair x natoms st i j =
      (st.1 + (pot._interaction.energy_gradient (pot.r2_ij x natoms i j)
          (pot.sum_radii i j)).1,
        fun q => st.2 q + pot.pair_gradient x natoms i j q) := by
  unfold SimplePairwisePotential.energy_gradient_pair
  simp only [pair_dr_eq, pair_r2_eq]
  have hr2 : ∑ k in Finset.range pot.m_ndim, pot.r_ij x natoms i j k * pot.r_ij x natoms i j k
      = pot.r2_ij x natoms i j := rfl
  rw [hr2]
  congr 1
  funext q
  by_cases hg : (pot._interaction.energy_gradient (pot.r2_ij x natoms i j)
      (pot.sum_radii i j)).2 = 0
  · simp only [hg, ne_eq, not_true_eq_false, if_false,
      SimplePairwisePotential.pair_gradient, SimplePairwisePotential.g_ij]
    simp
  · simp only [hg, ne_eq, not_false_eq_true, if_true, gradient_scatter_apply,
      SimplePairwisePotential.pair_gradient, SimplePairwisePotential.g_ij]

theorem foldl_pairs_state (e : Nat → Nat → ℚ) (G : Nat → Nat → Nat → ℚ)
    (step : ℚ × Buf → Nat → Nat → ℚ × Buf)
    (hstep : ∀ st i j, step st i j = (st.1 + e i j, fun q => st.2 q + G i j q))
    (n : Nat) (init : ℚ × Buf) :
    (List.range n).foldl
        (fun st i => (List.range i).foldl (fun st j => step st i j) st) init
      = (init.1 + ∑ i in Finset.range n, ∑ j in Finset.range i, e i j,
          fun q => init.2 q + ∑ i in Finset.range n, ∑ j in Finset.range i, G i j q) := by
  have inner : ∀ (i m : Nat) (st : ℚ × Buf),
      (List.range m).foldl (fun st j => step st i j) st
        = (st.1 + ∑ j in Finset.range m, e i j,
            fun q => st.2 q + ∑ j in Finset.range m, G i j q) := by
    intro i m st
    induction m with
    | zero => simp
    | succ m ih =>
      rw [List.range_succ, List.foldl_append, ih]
      simp only [List.foldl_cons, List.foldl_nil, hstep, Finset.sum_range_succ]
      congr 1
      · ring
      · funext q; ring
  induction n with
  | zero => simp
  | succ n ih =>
    rw [List.range_succ, List.foldl_append, ih]
    simp only [List.foldl_cons, List.foldl_nil, inner, Finset.sum_range_succ]
    congr 1
    · ring
    · funext q; ring

theorem add_energy_gradient_eq (pot : SimplePairwisePotential) (x grad : Array) (N : Nat)
    (hD : 0 < pot.m_ndim) (hx : x.size = N * pot.m_ndim) (hg : grad.size = x.size) :
    pot.add_energy_gradient x grad =
      (Except.ok (∑ i in Finset.range N, ∑ j in Finset.range i,
          (pot._interaction.energy_gradient (pot.r2_ij x N i j) (pot.sum_radii i j)).1),
        ⟨grad.size, fun q => grad.data q
          + ∑ i in Finset.range N, ∑ j in Finset.range i, pot.pair_gradient x N i j q⟩) := by
  obtain ⟨hn, hdiv⟩ := natoms_eq _ _ _ hD hx
  unfold SimplePairwisePotential.add_energy_gradient
  have hg' : ¬ (grad.size ≠ x.size) := by simp [hg]
  simp only [hn, hdiv, hg', if_false]
  rw [foldl_pairs_state _ _ _ (energy_gradient_pair_eq pot x N)]
  simp only [zero_add]

/-- The contribution of a pair to the entry of coordinate `d` of particle `p`. -/
theorem pair_gradient_at_index (pot : SimplePairwisePotential) (x : Array) (N i j p d : Nat)
    (hi : i < N) (hj : j < N) (hp : p < N) (hd : d < pot.m_ndim) :
    pot.pair_gradient x N i j (pot.index N p d) =
      (if p = i then -(pot.r_ij x N i j d * pot.g_ij x N i j) else 0)
        + (if p = j then pot.r_ij x N i j d * pot.g_ij x N i j else 0) := by
  unfold SimplePairwisePotential.pair_gradient
  rw [Finset.sum_add_distrib]
  congr 1
  · have : ∀ k ∈ Finset.range pot.m_ndim,
        (if pot.index N p d = pot.index N i k then
          -(pot.r_ij x N i j k * pot.g_ij x N i j) else 0)
        = if d = k then
            (if p = i then -(pot.r_ij x N i j d * pot.g_ij x N i j) else 0) else 0 := by
      intro k hk
      rw [Finset.mem_range] at hk
      have e := index_inj pot N p d i k hp hd hi hk
      by_cases h1 : d = k
      · subst h1; simp [e]
      · simp [h1, e]
    rw [Finset.sum_congr rfl this, Finset.sum_ite_eq]
    simp [hd]
  · have : ∀ k ∈ Finset.range pot.m_ndim,
        (if pot.index N p d = pot.index N j k then
          pot.r_ij x N i j k * pot.g_ij x N i j else 0)
        = if d = k then
            (if p = j then pot.r_ij x N i j d * pot.g_ij x N i j else 0) else 0 := by
      intro k hk
      rw [Finset.mem_range] at hk
      have e := index_inj pot N p d j k hp hd hj hk
      by_cases h1 : d = k
      · subst h1; simp [e]
      · simp [h1, e]
    rw [Finset.sum_congr rfl this, Finset.sum_ite_eq]
    simp [hd]

theorem sum_pairs_first (A : Nat → Nat → ℚ) (N p : Nat) (hp : p < N) :
    ∑ i in Finset.range N, ∑ j in Finset.range i, (if p = i then A i j else 0)
      = ∑ j in Finset.range p, A p j := by
  have : ∀ i ∈ Finset.range N,
      ∑ j in Finset.range i, (if p = i then A i j else 0)
        = if p = i then ∑ j in Finset.range p, A p j else 0 := by
    intro i _
    by_cases h : p = i
    · subst h; simp
    · simp [h]
  rw [Finset.sum_congr rfl this, Finset.sum_ite_eq]
  simp [hp]

theorem sum_pairs_second (B : Nat → Nat → ℚ) (N p : Nat) :
    ∑ i in Finset.range N, ∑ j in Finset.range i, (if p = j then B i j else 0)
      = ∑ i in (Finset.range N).filter (fun i => p < i), B i p := by
  rw [Finset.sum_filter]
  apply Finset.sum_congr rfl
  intro i _
  rw [Finset.sum_ite_eq]
  simp

theorem gradient_entry (pot : SimplePairwisePotential) (x : Array) (N p d : Nat)
    (hp : p < N) (hd : d < pot.m_ndim) :
    ∑ i in Finset.range N, ∑ j in Finset.range i, pot.pair_gradient x N i j (pot.index N p d)
      = ∑ j in Finset.range p, -(pot.g_ij x N p j * pot.r_ij x N p j d)
        + ∑ i in (Finset.range N).filter (fun i => p < i),
            pot.g_ij x N i p * pot.r_ij x N i p d := by
  have h1 : ∀ i ∈ Finset.range N, ∀ j ∈ Finset.range i,
      pot.pair_gradient x N i j (pot.index N p d)
        = (if p = i then -(pot.g_ij x N i j * pot.r_ij x N i j d) else 0)
          + (if p = j then pot.g_ij x N i j * pot.r_ij x N i j d else 0) := by
    intro i hi j hj
    rw [Finset.mem_range] at hi hj
    rw [pair_gradient_at_index pot x N i j p d hi (by omega) hp hd]
    simp only [mul_comm]
  rw [Finset.sum_congr rfl (fun i hi => Finset.sum_congr rfl (h1 i hi))]
  simp only [Finset.sum_add_distrib]
  rw [sum_pairs_first (fun i j => -(pot.g_ij x N i j * pot.r_ij x N i j d)) N p hp,
    sum_pairs_second (fun i j => pot.g_ij x N i j * pot.r_ij x N i j d) N p]

/-! ## C4 -/

/-- C4: when `x` has length `N * D` and `grad` the length of `x` (either layout),
`get_energy_gradient` succeeds; the entry of coordinate `d` of particle `p` is the sum
over `j < p` of `-g_pj * r_pj[d]` plus the sum over `p < i < N` of `g_ip * r_ip[d]`,
where for `i > j` `r_ij` is the policy's displacement of the pair and `g_ij` the gradient
magnitude the interaction returns for it; and no entry of the result depends on what
`grad` held before the call. -/
theorem C4_get_energy_gradient_entries (pot : SimplePairwisePotential) (x grad : Array)
    (N : Nat) (hD : 0 < pot.m_ndim) (hx : x.size = N * pot.m_ndim)
    (hg : grad.size = x.size) :
    (∃ e, (pot.get_energy_gradient x grad).1 = Except.ok e) ∧
      (∀ p d, p < N → d < pot.m_ndim →
        (pot.get_energy_gradient x grad).2.data (pot.index N p d) =
          ∑ j in Finset.range p, -(pot.g_ij x N p j * pot.r_ij x N p j d)
            + ∑ i in (Finset.range N).filter (fun i => p < i),
                pot.g_ij x N i p * pot.r_ij x N i p d) ∧
      (∀ grad2 : Array, grad2.size = x.size → ∀ q, q < x.size →
        (pot.get_energy_gradient x grad).2.data q
          = (pot.get_energy_gradient x grad2).2.data q) := by
  have e1 : ∀ g0 : Array, g0.size = x.size →
      pot.get_energy_gradient x g0 =
        (Except.ok (∑ i in Finset.range N, ∑ j in Finset.range i,
            (pot._interaction.energy_gradient (pot.r2_ij x N i j) (pot.sum_radii i j)).1),
          ⟨g0.size, fun q => (if q < g0.size then 0 else g0.data q)
            + ∑ i in Finset.range N, ∑ j in Finset.range i, pot.pair_gradient x N i j q⟩) := by
    intro g0 h0
    unfold SimplePairwisePotential.get_energy_gradient
    simp only
    rw [add_energy_gradient_eq pot x (g0.assign 0) N hD hx (by simpa [Array.assign] using h0)]
    rfl
  refine ⟨⟨_, by rw [e1 grad hg]⟩, ?_, ?_⟩
  · intro p d hp hd
    rw [e1 grad hg]
    have hlt : pot.index N p d < grad.size := by
      rw [hg, hx]; exact index_lt pot N p d hp hd
    simp only [hlt, if_true, zero_add]
    exact gradient_entry pot x N p d hp hd
  · intro grad2 h2 q hq
    rw [e1 grad hg, e1 grad2 h2]
    have a : q < grad.size := by rw [hg]; exact hq
    have b : q < grad2.size := by rw [h2]; exact hq
    simp only [a, b, if_true]

/-- C4 witness: three particles on a line at `0, 1, 3`, gradient magnitude `1` for every
pair, `grad` holding `(7, 7, 7)` before the call: the entry of particle 1 becomes
`-(1 - 0) + (3 - 1) = 1`. -/
theorem C4_get_energy_gradient_entries_witness :
    ((linear_potential 1).get_energy_gradient (Array.ofList [0, 1, 3])
      (Array.ofList [7, 7, 7])).2.data 1 = 1 := by
  have h := (C4_get_energy_gradient_entries (linear_potential 1) (Array.ofList [0, 1, 3])
    (Array.ofList [7, 7, 7]) 3 (by decide) rfl rfl).2.1 1 0 (by decide) (by decide)
  have hi : (linear_potential 1).index 3 1 0 = 1 := rfl
  rw [hi] at h
  rw [h]
  have hf : (Finset.range 3).filter (fun i => 1 < i) = {2} := by decide
  rw [hf]
  simp only [Finset.sum_range_succ, Finset.sum_range_zero, Finset.sum_singleton,
    linear_potential, linear_interaction, SimplePairwisePotential.g_ij,
    SimplePairwisePotential.r_ij, SimplePairwisePotential.particle,
    SimplePairwisePotential.index, SimplePairwisePotential.m_ndim, distance_policy._ndim,
    distance_policy.get_rij, cartesian_distance.get_rij,
    meta_dist_apply, Array.ofList, Buf.ofList]
  norm_num

/-! ## The Hessian loop -/

theorem hessian_k_soa_eq (D N natoms i j : Nat) (g h r2 : ℚ) (dr H : Buf) (k : Nat) :
    SimplePairwisePotential.hessian_k_soa D N natoms i j g h r2 dr H k
      = hessian_k (fun p k => p + k * natoms) D N i j g h r2 dr H k := by
  simp only [SimplePairwisePotential.hessian_k_soa, hessian_k, hessian_l, hessian_head,
    Nat.add_assoc]

theorem hessian_k_aos_eq (D N i j : Nat) (g h r2 : ℚ) (dr H : Buf) (k : Nat) :
    SimplePairwisePotential.hessian_k_aos D N i j g h r2 dr H k
      = hessian_k (fun p k => p * D + k) D N i j g h r2 dr H k := by
  simp only [SimplePairwisePotential.hessian_k_aos, hessian_k, hessian_l, hessian_head,
    Nat.add_assoc]

theorem index_fun_eq (pot : SimplePairwisePotential) (natoms : Nat) :
    pot.index natoms
      = if pot.m_soa then (fun p k => p + k * natoms) else (fun p k => p * pot.m_ndim + k) := by
  funext p k
  unfold SimplePairwisePotential.index
  split_ifs <;> rfl

theorem hessian_scatter_eq (pot : SimplePairwisePotential) (N natoms i j : Nat)
    (g h r2 : ℚ) (dr H : Buf) :
    pot.hessian_scatter N natoms i j g h r2 dr H
      = (List.range pot.m_ndim).foldl
          (fun H k => hessian_k (pot.index natoms) pot.m_ndim N i j g h r2 dr H k) H := by
  unfold SimplePairwisePotential.hessian_scatter
  rw [index_fun_eq]
  cases hs : pot.m_soa
  · simp only [Bool.false_eq_true, if_false, hessian_k_aos_eq]
  · simp only [if_true, hessian_k_soa_eq]

theorem cell_eq_iff (N a b a' b' : Nat) (hb : b < N) (hb' : b' < N) :
    N * a + b = N * a' + b' ↔ a = a' ∧ b = b' := by
  constructor
  · intro e
    have haa : a = a' := by
      rcases Nat.lt_trichotomy a a' with h | h | h
      · have h1 : N * (a + 1) ≤ N * a' := Nat.mul_le_mul_left _ h
        rw [Nat.mul_add, Nat.mul_one] at h1
        omega
      · exact h
      · have h1 : N * (a' + 1) ≤ N * a := Nat.mul_le_mul_left _ h
        rw [Nat.mul_add, Nat.mul_one] at h1
        omega
    subst haa
    exact ⟨rfl, by omega⟩
  · rintro ⟨rfl, rfl⟩; rfl

theorem cell_decode {idx : Nat → Nat → Nat} {n D N : Nat} (L : LayoutOK idx n D N)
    {p k q l p' k' q' l' : Nat} (hp : p < n) (hk : k < D) (hq : q < n) (hl : l < D)
    (hp' : p' < n) (hk' : k' < D) (hq' : q' < n) (hl' : l' < D) :
    N * idx p k + idx q l = N * idx p' k' + idx q' l'
      ↔ (p = p' ∧ k = k') ∧ (q = q' ∧ l = l') := by
  rw [cell_eq_iff N _ _ _ _ (L.lt q l hq hl) (L.lt q' l' hq' hl'),
    L.inj p k p' k' hp hk hp' hk', L.inj q l q' l' hq hl hq' hl']

theorem hessian_l_same {idx : Nat → Nat → Nat} {n D N : Nat} (L : LayoutOK idx n D N)
    (i j : Nat) (g h r2 : ℚ) (dr : Buf) (k : Nat) (H : Buf) (l : Nat)
    (hi : i < n) (hj : j < n) (hij : i ≠ j) (hk : k < D) (hl : l < D) (hkl : k < l)
    (p k' l' : Nat) (hp : p < n) (hk' : k' < D) (hl' : l' < D) :
    hessian_l idx N i j g h r2 dr k H l (N * idx p k' + idx p l') =
      H (N * idx p k' + idx p l')
        + if (p = i ∨ p = j) ∧ ((k' = k ∧ l' = l) ∨ (k' = l ∧ l' = k)) then
            (h + g) * dr k * dr l / r2 else 0 := by
  have hn1 : ¬ (k = l) := by omega
  have hn2 : ¬ (l = k) := by omega
  have d1 := cell_decode L hp hk' hp hl' hi hk hi hl
  have d2 := cell_decode L hp hk' hp hl' hi hl hi hk
  have d3 := cell_decode L hp hk' hp hl' hj hk hj hl
  have d4 := cell_decode L hp hk' hp hl' hj hl hj hk
  have d5 := cell_decode L hp hk' hp hl' hi hk hj hl
  have d6 := cell_decode L hp hk' hp hl' hi hl hj hk
  have d7 := cell_decode L hp hk' hp hl' hj hk hi hl
  have d8 := cell_decode L hp hk' hp hl' hj hl hi hk
  simp only [hessian_l, Function.update_apply, add_at_apply, d1, d2, d3, d4, d5, d6, d7, d8]
  by_cases c1 : p = i
  · subst c1
    have hne : ¬ (p = j) := hij
    simp only [hne, true_and, false_and, and_false, if_false, true_or, add_zero]
    by_cases c2 : k' = k ∧ l' = l
    · have c3 : ¬ (k' = l ∧ l' = k) := by omega
      simp [c2, c3, hn1, hn2]
    · by_cases c3 : k' = l ∧ l' = k
      · simp [c2, c3, hn1, hn2]
      · simp [c2, c3, hn1, hn2]
  · by_cases c4 : p = j
    · subst c4
      have hne : ¬ (p = i) := c1
      simp only [hne, true_and, false_and, and_false, if_false, or_true, zero_add, add_zero]
      by_cases c2 : k' = k ∧ l' = l
      · have c3 : ¬ (k' = l ∧ l' = k) := by omega
        simp [c2, c3, hn1, hn2]
      · by_cases c3 : k' = l ∧ l' = k
        · simp [c2, c3, hn1, hn2]
        · simp [c2, c3, hn1, hn2]
    · simp [c1, c4]

theorem hessian_l_cross {idx : Nat → Nat → Nat} {n D N : Nat} (L : LayoutOK idx n D N)
    (i j : Nat) (g h r2 : ℚ) (dr : Buf) (k : Nat) (H : Buf) (l : Nat)
    (hi : i < n) (hj : j < n) (hij : i ≠ j) (hk : k < D) (hl : l < D) (hkl : k < l)
    (p q k' l' : Nat) (hp : p < n) (hq : q < n) (hpq : p ≠ q) (hk' : k' < D) (hl' : l' < D) :
    hessian_l idx N i j g h r2 dr k H l (N * idx p k' + idx q l') =
      if ((p = i ∧ q = j) ∨ (p = j ∧ q = i)) ∧ ((k' = k ∧ l' = l) ∨ (k' = l ∧ l' = k)) then
        -((h + g) * dr k * dr l / r2)
      else H (N * idx p k' + idx q l') := by
  have hn1 : ¬ (k = l) := by omega
  have hn2 : ¬ (l = k) := by omega
  have d1 := cell_decode L hp hk' hq hl' hi hk hi hl
  have d2 := cell_decode L hp hk' hq hl' hi hl hi hk
  have d3 := cell_decode L hp hk' hq hl' hj hk hj hl
  have d4 := cell_decode L hp hk' hq hl' hj hl hj hk
  have d5 := cell_decode L hp hk' hq hl' hi hk hj hl
  have d6 := cell_decode L hp hk' hq hl' hi hl hj hk
  have d7 := cell_decode L hp hk' hq hl' hj hk hi hl
  have d8 := cell_decode L hp hk' hq hl' hj hl hi hk
  simp only [hessian_l, Function.update_apply, add_at_apply, d1, d2, d3, d4, d5, d6, d7, d8]
  by_cases c1 : p = i ∧ q = j
  · obtain ⟨rfl, rfl⟩ := c1
    have hne : ¬ (q = p) := fun e => hpq e.symm
    simp only [hne, hpq, true_and, false_and, and_false, if_false, true_or, add_zero,
      and_true, and_self]
    by_cases c2 : k' = k ∧ l' = l
    · have c3 : ¬ (k' = l ∧ l' = k) := by omega
      simp [c2, c3, hn1, hn2]
    · by_cases c3 : k' = l ∧ l' = k
      · simp [c2, c3, hn1, hn2]
      · simp [c2, c3, hn1, hn2]
  · by_cases c4 : p = j ∧ q = i
    · obtain ⟨rfl, rfl⟩ := c4
      have hne : ¬ (q = p) := fun e => hpq e.symm
      simp only [hne, hpq, true_and, false_and, and_false, if_false, or_true, add_zero,
        and_true, and_self]
      by_cases c2 : k' = k ∧ l' = l
      · have c3 : ¬ (k' = l ∧ l' = k) := by omega
        simp [c2, c3, hn1, hn2]
      · by_cases c3 : k' = l ∧ l' = k
        · simp [c2, c3, hn1, hn2]
        · simp [c2, c3, hn1, hn2]
    · have e0 : ¬ (((p = i ∧ q = j) ∨ (p = j ∧ q = i))
          ∧ ((k' = k ∧ l' = l) ∨ (k' = l ∧ l' = k))) := by
        rintro ⟨h1 | h1, _⟩
        · exact c1 h1
        · exact c4 h1
      have n1 : ¬ ((p = j ∧ k' = l) ∧ q = i ∧ l' = k) := fun e => c4 ⟨e.1.1, e.2.1⟩
      have n2 : ¬ ((p = j ∧ k' = k) ∧ q = i ∧ l' = l) := fun e => c4 ⟨e.1.1, e.2.1⟩
      have n3 : ¬ ((p = i ∧ k' = l) ∧ q = j ∧ l' = k) := fun e => c1 ⟨e.1.1, e.2.1⟩
      have n4 : ¬ ((p = i ∧ k' = k) ∧ q = j ∧ l' = l) := fun e => c1 ⟨e.1.1, e.2.1⟩
      have n5 : ¬ ((p = i ∧ k' = k) ∧ q = i ∧ l' = l) :=
        fun e => hpq (e.1.1.trans e.2.1.symm)
      have n6 : ¬ ((p = i ∧ k' = l) ∧ q = i ∧ l' = k) :=
        fun e => hpq (e.1.1.trans e.2.1.symm)
      have n7 : ¬ ((p = j ∧ k' = k) ∧ q = j ∧ l' = l) :=
        fun e => hpq (e.1.1.trans e.2.1.symm)
      have n8 : ¬ ((p = j ∧ k' = l) ∧ q = j ∧ l' = k) :=
        fun e => hpq (e.1.1.trans e.2.1.symm)
      simp only [e0, n1, n2, n3, n4, n5, n6, n7, n8, if_false, add_zero]

theorem ite_add_combine (P A B C : Prop) [Decidable P] [Decidable A] [Decidable B]
    [Decidable C] (x T tA tB : ℚ) (hC : C ↔ A ∨ B) (hAB : ¬ (A ∧ B)) (hA : A → tA = T)
    (hB : B → tB = T) :
    (x + if P ∧ A then tA else 0) + (if P ∧ B then tB else 0)
      = x + if P ∧ C then T else 0 := by
  by_cases hP : P
  · by_cases a : A
    · have b : ¬ B := fun b => hAB ⟨a, b⟩
      have c : C := hC.mpr (Or.inl a)
      simp [hP, a, b, c, hA a]
    · by_cases b : B
      · have c : C := hC.mpr (Or.inr b)
        simp [hP, a, b, c, hB b]
      · have c : ¬ C := fun c => (hC.mp c).elim a b
        simp [hP, a, b, c]
  · simp [hP]

theorem ite_set_combine (P A B C : Prop) [Decidable P] [Decidable A] [Decidable B]
    [Decidable C] (y T tA tB : ℚ) (hC : C ↔ A ∨ B) (hA : A → tA = T) (hB : B → tB = T) :
    (if P ∧ B then -tB else (if P ∧ A then -tA else y))
      = if P ∧ C then -T else y := by
  by_cases hP : P
  · by_cases b : B
    · have c : C := hC.mpr (Or.inr b)
      simp [hP, b, c, hB b]
    · by_cases a : A
      · have c : C := hC.mpr (Or.inl a)
        simp [hP, a, b, c, hA a]
      · have c : ¬ C := fun c => (hC.mp c).elim a b
        simp [hP, a, b, c]
  · simp [hP]

theorem hessian_l_loop_same {idx : Nat → Nat → Nat} {n D N : Nat} (L : LayoutOK idx n D N)
    (i j : Nat) (g h r2 : ℚ) (dr : Buf) (k : Nat)
    (hi : i < n) (hj : j < n) (hij : i ≠ j) (hk : k < D)
    (p k' l' : Nat) (hp : p < n) (hk' : k' < D) (hl' : l' < D)
    (m : Nat) (hm : k + 1 + m ≤ D) (H : Buf) :
    (List.range' (k + 1) m).foldl (fun H l => hessian_l idx N i j g h r2 dr k H l) H
        (N * idx p k' + idx p l') =
      H (N * idx p k' + idx p l')
        + if (p = i ∨ p = j)
            ∧ ((k' = k ∧ k < l' ∧ l' < k + 1 + m) ∨ (l' = k ∧ k < k' ∧ k' < k + 1 + m)) then
            (h + g) * dr k' * dr l' / r2 else 0 := by
  induction m with
  | zero =>
    have : ¬ ((p = i ∨ p = j)
        ∧ ((k' = k ∧ k < l' ∧ l' < k + 1 + 0) ∨ (l' = k ∧ k < k' ∧ k' < k + 1 + 0))) := by
      omega
    simp only [List.range'_zero, List.foldl_nil, this, if_false, add_zero]
  | succ m ih =>
    rw [List.range'_concat, List.foldl_append]
    simp only [List.foldl_cons, List.foldl_nil, Nat.one_mul]
    rw [hessian_l_same L i j g h r2 dr k _ (k + 1 + m) hi hj hij hk (by omega) (by omega)
      p k' l' hp hk' hl', ih (by omega)]
    apply ite_add_combine
    · omega
    · omega
    · intro _; rfl
    · rintro (⟨rfl, rfl⟩ | ⟨rfl, rfl⟩)
      · rfl
      · ring

theorem hessian_l_loop_cross {idx : Nat → Nat → Nat} {n D N : Nat} (L : LayoutOK idx n D N)
    (i j : Nat) (g h r2 : ℚ) (dr : Buf) (k : Nat)
    (hi : i < n) (hj : j < n) (hij : i ≠ j) (hk : k < D)
    (p q k' l' : Nat) (hp : p < n) (hq : q < n) (hpq : p ≠ q) (hk' : k' < D) (hl' : l' < D)
    (m : Nat) (hm : k + 1 + m ≤ D) (H : Buf) :
    (List.range' (k + 1) m).foldl (fun H l => hessian_l idx N i j g h r2 dr k H l) H
        (N * idx p k' + idx q l') =
      if ((p = i ∧ q = j) ∨ (p = j ∧ q = i))
          ∧ ((k' = k ∧ k < l' ∧ l' < k + 1 + m) ∨ (l' = k ∧ k < k' ∧ k' < k + 1 + m)) then
        -((h + g) * dr k' * dr l' / r2)
      else H (N * idx p k' + idx q l') := by
  induction m with
  | zero =>
    have : ¬ (((p = i ∧ q = j) ∨ (p = j ∧ q = i))
        ∧ ((k' = k ∧ k < l' ∧ l' < k + 1 + 0) ∨ (l' = k ∧ k < k' ∧ k' < k + 1 + 0))) := by
      omega
    simp only [List.range'_zero, List.foldl_nil, this, if_false]
  | succ m ih =>
    rw [List.range'_concat, List.foldl_append]
    simp only [List.foldl_cons, List.foldl_nil, Nat.one_mul]
    rw [hessian_l_cross L i j g h r2 dr k _ (k + 1 + m) hi hj hij hk (by omega) (by omega)
      p q k' l' hp hq hpq hk' hl', ih (by omega)]
    apply ite_set_combine
    · omega
    · intro _; rfl
    · rintro (⟨rfl, rfl⟩ | ⟨rfl, rfl⟩)
      · rfl
      · ring

theorem hessian_head_same {idx : Nat → Nat → Nat} {n D N : Nat} (L : LayoutOK idx n D N)
    (i j : Nat) (g h r2 : ℚ) (dr : Buf) (k : Nat) (H : Buf)
    (hi : i < n) (hj : j < n) (hij : i ≠ j) (hk : k < D)
    (p k' l' : Nat) (hp : p < n) (hk' : k' < D) (hl' : l' < D) :
    hessian_head idx N i j g h r2 dr H k (N * idx p k' + idx p l') =
      H (N * idx p k' + idx p l')
        + if (p = i ∨ p = j) ∧ (k' = k ∧ l' = k) then
            (h + g) * dr k * dr k / r2 - g else 0 := by
  have d1 := cell_decode L hp hk' hp hl' hi hk hi hk
  have d2 := cell_decode L hp hk' hp hl' hj hk hj hk
  have d3 := cell_decode L hp hk' hp hl' hi hk hj hk
  have d4 := cell_decode L hp hk' hp hl' hj hk hi hk
  simp only [hessian_head, Function.update_apply, add_at_apply, d1, d2, d3, d4]
  by_cases c1 : p = i
  · subst c1
    have hne : ¬ (p = j) := hij
    by_cases c2 : k' = k ∧ l' = k
    · simp [hne, c2]
    · simp [hne, c2]
  · by_cases c4 : p = j
    · subst c4
      by_cases c2 : k' = k ∧ l' = k
      · simp [c1, c2]
      · simp [c1, c2]
    · simp [c1, c4]

theorem hessian_head_cross {idx : Nat → Nat → Nat} {n D N : Nat} (L : LayoutOK idx n D N)
    (i j : Nat) (g h r2 : ℚ) (dr : Buf) (k : Nat) (H : Buf)
    (hi : i < n) (hj : j < n) (hk : k < D)
    (p q k' l' : Nat) (hp : p < n) (hq : q < n) (hpq : p ≠ q) (hk' : k' < D) (hl' : l' < D) :
    hessian_head idx N i j g h r2 dr H k (N * idx p k' + idx q l') =
      if ((p = i ∧ q = j) ∨ (p = j ∧ q = i)) ∧ (k' = k ∧ l' = k) then
        -((h + g) * dr k * dr k / r2 - g)
      else H (N * idx p k' + idx q l') := by
  have d1 := cell_decode L hp hk' hq hl' hi hk hi hk
  have d2 := cell_decode L hp hk' hq hl' hj hk hj hk
  have d3 := cell_decode L hp hk' hq hl' hi hk hj hk
  have d4 := cell_decode L hp hk' hq hl' hj hk hi hk
  simp only [hessian_head, Function.update_apply, add_at_apply, d1, d2, d3, d4]
  have n1 : ¬ ((p = i ∧ k' = k) ∧ q = i ∧ l' = k) := fun e => hpq (e.1.1.trans e.2.1.symm)
  have n2 : ¬ ((p = j ∧ k' = k) ∧ q = j ∧ l' = k) := fun e => hpq (e.1.1.trans e.2.1.symm)
  simp only [n1, n2, if_false, add_zero]
  by_cases c1 : p = i ∧ q = j
  · obtain ⟨rfl, rfl⟩ := c1
    have hne : ¬ (q = p) := fun e => hpq e.symm
    by_cases c2 : k' = k ∧ l' = k
    · simp [hne, hpq, c2]
    · have c3 : ¬ (k' = k ∧ l' = k) := c2
      have c4 : k' = k → ¬ l' = k := fun a b => c2 ⟨a, b⟩
      simp [hne, hpq, c4]
  · by_cases c4 : p = j ∧ q = i
    · obtain ⟨rfl, rfl⟩ := c4
      have hne : ¬ (q = p) := fun e => hpq e.symm
      by_cases c2 : k' = k ∧ l' = k
      · simp [hne, hpq, c2]
      · have c5 : k' = k → ¬ l' = k := fun a b => c2 ⟨a, b⟩
        simp [hne, hpq, c5]
    · have e0 : ¬ (((p = i ∧ q = j) ∨ (p = j ∧ q = i)) ∧ (k' = k ∧ l' = k)) := by
        rintro ⟨h1 | h1, _⟩
        · exact c1 h1
        · exact c4 h1
      have m1 : ¬ ((p = j ∧ k' = k) ∧ q = i ∧ l' = k) := fun e => c4 ⟨e.1.1, e.2.1⟩
      have m2 : ¬ ((p = i ∧ k' = k) ∧ q = j ∧ l' = k) := fun e => c1 ⟨e.1.1, e.2.1⟩
      simp only [e0, m1, m2, if_false]

theorem hessian_k_same {idx : Nat → Nat → Nat} {n D N : Nat} (L : LayoutOK idx n D N)
    (i j : Nat) (g h r2 : ℚ) (dr : Buf) (k : Nat) (H : Buf)
    (hi : i < n) (hj : j < n) (hij : i ≠ j) (hk : k < D)
    (p k' l' : Nat) (hp : p < n) (hk' : k' < D) (hl' : l' < D) :
    hessian_k idx D N i j g h r2 dr H k (N * idx p k' + idx p l') =
      H (N * idx p k' + idx p l')
        + if (p = i ∨ p = j) ∧ ((k' = k ∧ k ≤ l') ∨ (l' = k ∧ k ≤ k')) then
            hess_term g h r2 dr k' l' else 0 := by
  unfold hessian_k
  rw [hessian_l_loop_same L i j g h r2 dr k hi hj hij hk p k' l' hp hk' hl' (D - (k + 1))
    (by omega), hessian_head_same L i j g h r2 dr k H hi hj hij hk p k' l' hp hk' hl']
  apply ite_add_combine
  · omega
  · omega
  · rintro ⟨rfl, rfl⟩
    simp [hess_term]
  · intro hA
    have : k' ≠ l' := by omega
    simp [hess_term, this]

theorem hessian_k_cross {idx : Nat → Nat → Nat} {n D N : Nat} (L : LayoutOK idx n D N)
    (i j : Nat) (g h r2 : ℚ) (dr : Buf) (k : Nat) (H : Buf)
    (hi : i < n) (hj : j < n) (hij : i ≠ j) (hk : k < D)
    (p q k' l' : Nat) (hp : p < n) (hq : q < n) (hpq : p ≠ q) (hk' : k' < D) (hl' : l' < D) :
    hessian_k idx D N i j g h r2 dr H k (N * idx p k' + idx q l') =
      if ((p = i ∧ q = j) ∨ (p = j ∧ q = i)) ∧ ((k' = k ∧ k ≤ l') ∨ (l' = k ∧ k ≤ k')) then
        -hess_term g h r2 dr k' l'
      else H (N * idx p k' + idx q l') := by
  unfold hessian_k
  rw [hessian_l_loop_cross L i j g h r2 dr k hi hj hij hk p q k' l' hp hq hpq hk' hl'
    (D - (k + 1)) (by omega),
    hessian_head_cross L i j g h r2 dr k H hi hj hk p q k' l' hp hq hpq hk' hl']
  apply ite_set_combine
  · omega
  · rintro ⟨rfl, rfl⟩
    simp [hess_term]
  · intro hA
    have : k' ≠ l' := by omega
    simp [hess_term, this]

theorem hessian_k_loop_same {idx : Nat → Nat → Nat} {n D N : Nat} (L : LayoutOK idx n D N)
    (i j : Nat) (g h r2 : ℚ) (dr : Buf)
    (hi : i < n) (hj : j < n) (hij : i ≠ j)
    (p k' l' : Nat) (hp : p < n) (hk' : k' < D) (hl' : l' < D)
    (K : Nat) (hK : K ≤ D) (H : Buf) :
    (List.range K).foldl (fun H k => hessian_k idx D N i j g h r2 dr H k) H
        (N * idx p k' + idx p l') =
      H (N * idx p k' + idx p l')
        + if (p = i ∨ p = j) ∧ (k' < K ∨ l' < K) then hess_term g h r2 dr k' l' else 0 := by
  induction K with
  | zero =>
    have : ¬ ((p = i ∨ p = j) ∧ (k' < 0 ∨ l' < 0)) := by omega
    simp only [List.range_zero, List.foldl_nil, this, if_false, add_zero]
  | succ K ih =>
    rw [List.range_succ, List.foldl_append]
    simp only [List.foldl_cons, List.foldl_nil]
    rw [hessian_k_same L i j g h r2 dr K _ hi hj hij (by omega) p k' l' hp hk' hl',
      ih (by omega)]
    apply ite_add_combine
    · omega
    · omega
    · intro _; rfl
    · intro _; rfl

theorem hessian_k_loop_cross {idx : Nat → Nat → Nat} {n D N : Nat} (L : LayoutOK idx n D N)
    (i j : Nat) (g h r2 : ℚ) (dr : Buf)
    (hi : i < n) (hj : j < n) (hij : i ≠ j)
    (p q k' l' : Nat) (hp : p < n) (hq : q < n) (hpq : p ≠ q) (hk' : k' < D) (hl' : l' < D)
    (K : Nat) (hK : K ≤ D) (H : Buf) :
    (List.range K).foldl (fun H k => hessian_k idx D N i j g h r2 dr H k) H
        (N * idx p k' + idx q l') =
      if ((p = i ∧ q = j) ∨ (p = j ∧ q = i)) ∧ (k' < K ∨ l' < K) then
        -hess_term g h r2 dr k' l'
      else H (N * idx p k' + idx q l') := by
  induction K with
  | zero =>
    have : ¬ (((p = i ∧ q = j) ∨ (p = j ∧ q = i)) ∧ (k' < 0 ∨ l' < 0)) := by omega
    simp only [List.range_zero, List.foldl_nil, this, if_false]
  | succ K ih =>
    rw [List.range_succ, List.foldl_append]
    simp only [List.foldl_cons, List.foldl_nil]
    rw [hessian_k_cross L i j g h r2 dr K _ hi hj hij (by omega) p q k' l' hp hq hpq hk' hl',
      ih (by omega)]
    apply ite_set_combine
    · omega
    · intro _; rfl
    · intro _; rfl

/-! ## The pair step of the Hessian -/

theorem layout_ok (pot : SimplePairwisePotential) (N : Nat) :
    LayoutOK (pot.index N) N pot.m_ndim (N * pot.m_ndim) :=
  ⟨fun p k hp hk => index_lt pot N p k hp hk,
    fun p k q l hp hk hq hl => index_inj pot N p k q l hp hk hq hl⟩

theorem energy_gradient_hessian_pair_eq (pot : SimplePairwisePotential) (x : Array)
    (Nf N : Nat) (st : ℚ × Buf × Buf) (i j : Nat) :
    pot.energy_gradient_hessian_pair x Nf N st i j =
      (st.1 + pot.eh_ij x N i j, pot.grad_step x N st.2.1 i j,
        pot.hess_step x Nf N st.2.2 i j) := by
  unfold SimplePairwisePotential.energy_gradient_hessian_pair
  simp only [pair_dr_eq, pair_r2_eq]
  rfl

theorem hess_step_same (pot : SimplePairwisePotential) (x : Array) (N : Nat) (H : Buf)
    (i j : Nat) (hi : i < N) (hj : j < i)
    (p k l : Nat) (hp : p < N) (hk : k < pot.m_ndim) (hl : l < pot.m_ndim) :
    pot.hess_step x (N * pot.m_ndim) N H i j
        (N * pot.m_ndim * pot.index N p k + pot.index N p l) =
      H (N * pot.m_ndim * pot.index N p k + pot.index N p l)
        + if p = i ∨ p = j then pot.written_term x N i j k l else 0 := by
  unfold SimplePairwisePotential.hess_step SimplePairwisePotential.written_term
  by_cases hh : pot.h_ij x N i j = 0
  · simp [hh]
  · simp only [ne_eq, hh, not_false_eq_true, if_true]
    rw [hessian_scatter_eq,
      hessian_k_loop_same (layout_ok pot N) i j _ _ _ _ hi (by omega) (by omega) p k l hp hk hl
        pot.m_ndim (le_refl _)]
    have : k < pot.m_ndim ∨ l < pot.m_ndim := Or.inl hk
    simp only [this, and_true]
    rfl

theorem hess_step_cross (pot : SimplePairwisePotential) (x : Array) (N : Nat) (H : Buf)
    (i j : Nat) (hi : i < N) (hj : j < i)
    (p q k l : Nat) (hp : p < N) (hq : q < N) (hpq : p ≠ q) (hk : k < pot.m_ndim)
    (hl : l < pot.m_ndim) :
    pot.hess_step x (N * pot.m_ndim) N H i j
        (N * pot.m_ndim * pot.index N p k + pot.index N q l) =
      if ((p = i ∧ q = j) ∨ (p = j ∧ q = i)) ∧ pot.h_ij x N i j ≠ 0 then
        -pot.pair_term x N i j k l
      else H (N * pot.m_ndim * pot.index N p k + pot.index N q l) := by
  unfold SimplePairwisePotential.hess_step
  by_cases hh : pot.h_ij x N i j = 0
  · simp [hh]
  · simp only [ne_eq, hh, not_false_eq_true, if_true, and_true]
    rw [hessian_scatter_eq,
      hessian_k_loop_cross (layout_ok pot N) i j _ _ _ _ hi (by omega) (by omega) p q k l hp hq
        hpq hk hl pot.m_ndim (le_refl _)]
    have : k < pot.m_ndim ∨ l < pot.m_ndim := Or.inl hk
    simp only [this, and_true]
    rfl

theorem gradient_scatter_h_apply (pot : SimplePairwisePotential) (natoms i j : Nat) (g : ℚ)
    (dr grad : Buf) (q : Nat) :
    pot.gradient_scatter_h natoms i j g dr grad q =
      grad q + ∑ k in Finset.range pot.m_ndim,
        ((if q = pot.index natoms i k then -(g * dr k) else 0)
          + (if q = pot.index natoms j k then g * dr k else 0)) := by
  unfold SimplePairwisePotential.gradient_scatter_h
  have key : ∀ K : Nat,
      (List.range K).foldl
        (fun grad k =>
          if pot.m_soa then
            Buf.add_at (Buf.sub_at grad (i + k * natoms) (g * dr k)) (j + k * natoms)
              (g * dr k)
          else
            Buf.add_at (Buf.sub_at grad (i * pot.m_ndim + k) (g * dr k))
              (j * pot.m_ndim + k) (g * dr k))
        grad q
      = grad q + ∑ k in Finset.range K,
          ((if q = pot.index natoms i k then -(g * dr k) else 0)
            + (if q = pot.index natoms j k then g * dr k else 0)) := by
    intro K
    induction K with
    | zero => simp
    | succ K ih =>
      rw [List.range_succ, List.foldl_append]
      simp only [List.foldl_cons, List.foldl_nil]
      cases hs : pot.m_soa
      · simp only [hs, Bool.false_eq_true, if_false] at ih ⊢
        rw [add_at_apply, sub_at_apply, ih, Finset.sum_range_succ]
        simp only [SimplePairwisePotential.index, hs, Bool.false_eq_true, if_false]
        ring
      · simp only [hs, if_true] at ih ⊢
        rw [add_at_apply, sub_at_apply, ih, Finset.sum_range_succ]
        simp only [SimplePairwisePotential.index, hs, if_true]
        ring
  exact key pot.m_ndim

theorem grad_step_apply (pot : SimplePairwisePotential) (x : Array) (N : Nat) (G : Buf)
    (i j q : Nat) :
    pot.grad_step x N G i j q = G q + pot.pair_gradient_h x N i j q := by
  unfold SimplePairwisePotential.grad_step SimplePairwisePotential.pair_gradient_h
  by_cases hg : pot.gh_ij x N i j = 0
  · simp [hg]
  · simp only [ne_eq, hg, not_false_eq_true, if_true, gradient_scatter_h_apply]

/-! ## The double loop over pairs -/

theorem pair_loop_zero {σ : Type} (step : σ → Nat → Nat → σ) (init : σ) :
    pair_loop 0 step init = init := rfl

theorem pair_loop_succ {σ : Type} (n : Nat) (step : σ → Nat → Nat → σ) (init : σ) :
    pair_loop (n + 1) step init
      = (List.range n).foldl (fun st j => step st n j) (pair_loop n step init) := by
  unfold pair_loop
  rw [List.range_succ, List.foldl_append]
  rfl

theorem pair_loop_triple (f1 : ℚ → Nat → Nat → ℚ) (f2 f3 : Buf → Nat → Nat → Buf)
    (n : Nat) (init : ℚ × Buf × Buf) :
    pair_loop n (fun st i j => (f1 st.1 i j, f2 st.2.1 i j, f3 st.2.2 i j)) init
      = (pair_loop n f1 init.1, pair_loop n f2 init.2.1, pair_loop n f3 init.2.2) := by
  have inner : ∀ (i m : Nat) (st : ℚ × Buf × Buf),
      (List.range m).foldl
          (fun st j => ((f1 st.1 i j, f2 st.2.1 i j, f3 st.2.2 i j) : ℚ × Buf × Buf)) st
        = ((List.range m).foldl (fun a j => f1 a i j) st.1,
            (List.range m).foldl (fun a j => f2 a i j) st.2.1,
            (List.range m).foldl (fun a j => f3 a i j) st.2.2) := by
    intro i m st
    induction m with
    | zero => rfl
    | succ m ih =>
      simp only [List.range_succ, List.foldl_append, ih, List.foldl_cons, List.foldl_nil]
  induction n with
  | zero => rfl
  | succ n ih =>
    rw [pair_loop_succ, pair_loop_succ, pair_loop_succ, pair_loop_succ, ih, inner]

theorem pair_loop_energy (c : Nat → Nat → ℚ) (n : Nat) (init : ℚ) :
    pair_loop n (fun e i j => e + c i j) init
      = init + ∑ i in Finset.range n, ∑ j in Finset.range i, c i j :=
  foldl_pairs_add c n init

theorem pair_loop_add_at (step : Buf → Nat → Nat → Buf) (X : Nat) (c : Nat → Nat → ℚ)
    (n : Nat) (hstep : ∀ H i j, i < n → j < i → step H i j X = H X + c i j) (H0 : Buf) :
    pair_loop n step H0 X
      = H0 X + ∑ i in Finset.range n, ∑ j in Finset.range i, c i j := by
  induction n with
  | zero => simp [pair_loop_zero]
  | succ n ih =>
    have inner : ∀ (m : Nat), m ≤ n → ∀ H : Buf,
        (List.range m).foldl (fun st j => step st n j) H X
          = H X + ∑ j in Finset.range m, c n j := by
      intro m hm H
      induction m with
      | zero => simp
      | succ m ihm =>
        rw [List.range_succ, List.foldl_append]
        simp only [List.foldl_cons, List.foldl_nil]
        rw [hstep _ n m (by omega) (by omega), ihm (by omega), Finset.sum_range_succ]
        ring
    rw [pair_loop_succ, inner n (le_refl n),
      ih (fun H i j hi hj => hstep H i j (by omega) hj), Finset.sum_range_succ]
    ring

theorem ite_or_combine (A B C act : Prop) [Decidable A] [Decidable B] [Decidable C]
    [Decidable act] (v y : ℚ) (hC : C ↔ A ∨ B) :
    (if B ∧ act then v else (if A ∧ act then v else y)) = if C ∧ act then v else y := by
  by_cases hact : act
  · by_cases b : B
    · have c : C := hC.mpr (Or.inr b)
      simp [hact, b, c]
    · by_cases a : A
      · have c : C := hC.mpr (Or.inl a)
        simp [hact, a, b, c]
      · have c : ¬ C := fun c => (hC.mp c).elim a b
        simp [hact, a, b, c]
  · simp [hact]

theorem pair_loop_set_at (step : Buf → Nat → Nat → Buf) (X : Nat) (a b : Nat) (hab : b < a)
    (active : Prop) [Decidable active] (v : ℚ) (n : Nat)
    (hstep : ∀ H i j, i < n → j < i →
      step H i j X = if (i = a ∧ j = b) ∧ active then v else H X) (H0 : Buf) :
    pair_loop n step H0 X = if a < n ∧ active then v else H0 X := by
  induction n with
  | zero => simp [pair_loop_zero]
  | succ n ih =>
    have inner : ∀ (m : Nat), m ≤ n → ∀ H : Buf,
        (List.range m).foldl (fun st j => step st n j) H X
          = if (n = a ∧ b < m) ∧ active then v else H X := by
      intro m hm H
      induction m with
      | zero => simp
      | succ m ihm =>
        rw [List.range_succ, List.foldl_append]
        simp only [List.foldl_cons, List.foldl_nil]
        rw [hstep _ n m (by omega) (by omega), ihm (by omega)]
        apply ite_or_combine
        omega
    rw [pair_loop_succ, inner n (le_refl n),
      ih (fun H i j hi hj => hstep H i j (by omega) hj)]
    apply ite_or_combine
    omega

/-! ## Closed form of `add_energy_gradient_hessian` -/

theorem add_energy_gradient_hessian_eq (pot : SimplePairwisePotential) (x grad hess : Array)
    (N : Nat) (hD : 0 < pot.m_ndim) (hx : x.size = N * pot.m_ndim)
    (hg : grad.size = x.size) (hh : hess.size = x.size * x.size) :
    pot.add_energy_gradient_hessian x grad hess =
      (Except.ok (∑ i in Finset.range N, ∑ j in Finset.range i, pot.eh_ij x N i j),
        ⟨grad.size, pair_loop N (pot.grad_step x N) grad.data⟩,
        ⟨hess.size, pair_loop N (pot.hess_step x (N * pot.m_ndim) N) hess.data⟩) := by
  obtain ⟨hn, hdiv⟩ := natoms_eq _ _ _ hD hx
  unfold SimplePairwisePotential.add_energy_gradient_hessian
  have hg' : ¬ (x.size ≠ grad.size) := by simp [hg]
  have hh' : ¬ (hess.size ≠ x.size * x.size) := by simp [hh]
  simp only [hn, hdiv, hg', hh', if_false]
  have e : (List.range N).foldl
      (fun st atom_i =>
        (List.range atom_i).foldl
          (fun st atom_j => pot.energy_gradient_hessian_pair x x.size N st atom_i atom_j) st)
      ((0 : ℚ), grad.data, hess.data)
      = pair_loop N
          (fun st i j => (st.1 + pot.eh_ij x N i j, pot.grad_step x N st.2.1 i j,
            pot.hess_step x (N * pot.m_ndim) N st.2.2 i j))
          ((0 : ℚ), grad.data, hess.data) := by
    unfold pair_loop
    simp only [energy_gradient_hessian_pair_eq, hx]
  rw [e, pair_loop_triple (fun e i j => e + pot.eh_ij x N i j) (pot.grad_step x N)
    (pot.hess_step x (N * pot.m_ndim) N), pair_loop_energy]
  simp only [zero_add]

theorem pair_loop_grad_step (pot : SimplePairwisePotential) (x : Array) (N : Nat) (G : Buf)
    (q : Nat) :
    pair_loop N (pot.grad_step x N) G q
      = G q + ∑ i in Finset.range N, ∑ j in Finset.range i, pot.pair_gradient_h x N i j q :=
  pair_loop_add_at _ q _ N (fun H i j _ _ => grad_step_apply pot x N H i j q) G

theorem pair_loop_hess_same (pot : SimplePairwisePotential) (x : Array) (N : Nat) (H : Buf)
    (p k l : Nat) (hp : p < N) (hk : k < pot.m_ndim) (hl : l < pot.m_ndim) :
    pair_loop N (pot.hess_step x (N * pot.m_ndim) N) H
        (N * pot.m_ndim * pot.index N p k + pot.index N p l)
      = H (N * pot.m_ndim * pot.index N p k + pot.index N p l)
        + ∑ i in Finset.range N, ∑ j in Finset.range i,
            (if p = i ∨ p = j then pot.written_term x N i j k l else 0) :=
  pair_loop_add_at _ _ _ N
    (fun H i j hi hj => hess_step_same pot x N H i j hi hj p k l hp hk hl) H

/-- A cross-particle cell with the larger particle index `a` in the row. -/
theorem pair_loop_hess_cross_lower (pot : SimplePairwisePotential) (x : Array) (N : Nat)
    (H : Buf) (a b k l : Nat) (ha : a < N) (hab : b < a) (hk : k < pot.m_ndim)
    (hl : l < pot.m_ndim) :
    pair_loop N (pot.hess_step x (N * pot.m_ndim) N) H
        (N * pot.m_ndim * pot.index N a k + pot.index N b l)
      = if pot.h_ij x N a b ≠ 0 then -pot.pair_term x N a b k l
        else H (N * pot.m_ndim * pot.index N a k + pot.index N b l) := by
  have hb : b < N := by omega
  have hne : a ≠ b := by omega
  rw [pair_loop_set_at _ _ a b hab (pot.h_ij x N a b ≠ 0) (-pot.pair_term x N a b k l) N _ H]
  · simp only [ha, true_and]
  · intro H' i j hi hj
    rw [hess_step_cross pot x N H' i j hi hj a b k l ha hb hne hk hl]
    by_cases c : i = a ∧ j = b
    · obtain ⟨rfl, rfl⟩ := c
      simp
    · have c' : ¬ ((a = i ∧ b = j) ∨ (a = j ∧ b = i)) := by omega
      simp only [c, c', false_and, if_false]

/-- A cross-particle cell with the larger particle index `a` in the column. -/
theorem pair_loop_hess_cross_upper (pot : SimplePairwisePotential) (x : Array) (N : Nat)
    (H : Buf) (a b k l : Nat) (ha : a < N) (hab : b < a) (hk : k < pot.m_ndim)
    (hl : l < pot.m_ndim) :
    pair_loop N (pot.hess_step x (N * pot.m_ndim) N) H
        (N * pot.m_ndim * pot.index N b k + pot.index N a l)
      = if pot.h_ij x N a b ≠ 0 then -pot.pair_term x N a b k l
        else H (N * pot.m_ndim * pot.index N b k + pot.index N a l) := by
  have hb : b < N := by omega
  have hne : b ≠ a := by omega
  rw [pair_loop_set_at _ _ a b hab (pot.h_ij x N a b ≠ 0) (-pot.pair_term x N a b k l) N _ H]
  · simp only [ha, true_and]
  · intro H' i j hi hj
    rw [hess_step_cross pot x N H' i j hi hj b a k l hb ha hne hk hl]
    by_cases c : i = a ∧ j = b
    · obtain ⟨rfl, rfl⟩ := c
      simp
    · have c' : ¬ ((b = i ∧ a = j) ∨ (b = j ∧ a = i)) := by omega
      simp only [c, c', false_and, if_false]

/-! ## Closed form of `get_energy_gradient_hessian` -/

theorem cell_lt (Nf a b : Nat) (ha : a < Nf) (hb : b < Nf) : Nf * a + b < Nf * Nf := by
  have h1 : Nf * (a + 1) ≤ Nf * Nf := Nat.mul_le_mul_left _ ha
  rw [Nat.mul_add, Nat.mul_one] at h1
  omega

theorem get_energy_gradient_hessian_eq (pot : SimplePairwisePotential)
    (x grad hess : Array) (N : Nat) (hD : 0 < pot.m_ndim) (hx : x.size = N * pot.m_ndim)
    (hg : grad.size = x.size) (hh : hess.size = x.size * x.size) :
    pot.get_energy_gradient_hessian x grad hess =
      (Except.ok (∑ i in Finset.range N, ∑ j in Finset.range i, pot.eh_ij x N i j),
        ⟨grad.size, pair_loop N (pot.grad_step x N) (grad.assign 0).data⟩,
        ⟨hess.size,
          pair_loop N (pot.hess_step x (N * pot.m_ndim) N) (hess.assign 0).data⟩) := by
  unfold SimplePairwisePotential.get_energy_gradient_hessian
  simp only
  rw [add_energy_gradient_hessian_eq pot x (grad.assign 0) (hess.assign 0) N hD hx
    (by simpa [Array.assign] using hg) (by simpa [Array.assign] using hh)]
  rfl

theorem assign_zero_cell (hess : Array) (Nf a b : Nat) (hh : hess.size = Nf * Nf)
    (ha : a < Nf) (hb : b < Nf) : (hess.assign 0).data (Nf * a + b) = 0 := by
  have := cell_lt Nf a b ha hb
  simp only [Array.assign, hh, this, if_true]

theorem get_hessian_same (pot : SimplePairwisePotential) (x grad hess : Array) (N : Nat)
    (hD : 0 < pot.m_ndim) (hx : x.size = N * pot.m_ndim) (hg : grad.size = x.size)
    (hh : hess.size = x.size * x.size)
    (p k l : Nat) (hp : p < N) (hk : k < pot.m_ndim) (hl : l < pot.m_ndim) :
    (pot.get_energy_gradient_hessian x grad hess).2.2.data
        (N * pot.m_ndim * pot.index N p k + pot.index N p l)
      = ∑ i in Finset.range N, ∑ j in Finset.range i,
          (if p = i ∨ p = j then pot.written_term x N i j k l else 0) := by
  rw [get_energy_gradient_hessian_eq pot x grad hess N hD hx hg hh]
  simp only
  rw [pair_loop_hess_same pot x N _ p k l hp hk hl,
    assign_zero_cell hess (N * pot.m_ndim) _ _ (by rw [hh, hx]) (index_lt pot N p k hp hk)
      (index_lt pot N p l hp hl), zero_add]

theorem get_hessian_lower (pot : SimplePairwisePotential) (x grad hess : Array) (N : Nat)
    (hD : 0 < pot.m_ndim) (hx : x.size = N * pot.m_ndim) (hg : grad.size = x.size)
    (hh : hess.size = x.size * x.size)
    (a b k l : Nat) (ha : a < N) (hab : b < a) (hk : k < pot.m_ndim) (hl : l < pot.m_ndim) :
    (pot.get_energy_gradient_hessian x grad hess).2.2.data
        (N * pot.m_ndim * pot.index N a k + pot.index N b l)
      = -pot.written_term x N a b k l := by
  rw [get_energy_gradient_hessian_eq pot x grad hess N hD hx hg hh]
  simp only
  rw [pair_loop_hess_cross_lower pot x N _ a b k l ha hab hk hl,
    assign_zero_cell hess (N * pot.m_ndim) _ _ (by rw [hh, hx]) (index_lt pot N a k ha hk)
      (index_lt pot N b l (by omega) hl)]
  unfold SimplePairwisePotential.written_term
  split_ifs <;> simp

theorem get_hessian_upper (pot : SimplePairwisePotential) (x grad hess : Array) (N : Nat)
    (hD : 0 < pot.m_ndim) (hx : x.size = N * pot.m_ndim) (hg : grad.size = x.size)
    (hh : hess.size = x.size * x.size)
    (a b k l : Nat) (ha : a < N) (hab : b < a) (hk : k < pot.m_ndim) (hl : l < pot.m_ndim) :
    (pot.get_energy_gradient_hessian x grad hess).2.2.data
        (N * pot.m_ndim * pot.index N b k + pot.index N a l)
      = -pot.written_term x N a b k l := by
  rw [get_energy_gradient_hessian_eq pot x grad hess N hD hx hg hh]
  simp only
  rw [pair_loop_hess_cross_upper pot x N _ a b k l ha hab hk hl,
    assign_zero_cell hess (N * pot.m_ndim) _ _ (by rw [hh, hx])
      (index_lt pot N b k (by omega) hk) (index_lt pot N a l ha hl)]
  unfold SimplePairwisePotential.written_term
  split_ifs <;> simp

theorem hess_term_symm (g h r2 : ℚ) (dr : Buf) (k l : Nat) :
    hess_term g h r2 dr k l = hess_term g h r2 dr l k := by
  unfold hess_term
  by_cases e : k = l
  · subst e; rfl
  · have e' : ¬ l = k := fun c => e c.symm
    simp only [e, e', if_false]
    ring

theorem written_term_symm (pot : SimplePairwisePotential) (x : Array) (N i j k l : Nat) :
    pot.written_term x N i j k l = pot.written_term x N i j l k := by
  unfold SimplePairwisePotential.written_term SimplePairwisePotential.pair_term
  rw [hess_term_symm]

theorem index_surj (pot : SimplePairwisePotential) (N a : Nat) (hD : 0 < pot.m_ndim)
    (ha : a < N * pot.m_ndim) :
    ∃ p k, p < N ∧ k < pot.m_ndim ∧ pot.index N p k = a := by
  have hN : 0 < N := by
    rcases Nat.eq_zero_or_pos N with h | h
    · subst h; simp at ha
    · exact h
  unfold SimplePairwisePotential.index
  cases hs : pot.m_soa
  · refine ⟨a / pot.m_ndim, a % pot.m_ndim, ?_, Nat.mod_lt _ hD, ?_⟩
    · exact (Nat.div_lt_iff_lt_mul hD).mpr ha
    · simp only [Bool.false_eq_true, if_false]
      exact Nat.div_add_mod' a pot.m_ndim
  · refine ⟨a % N, a / N, Nat.mod_lt _ hN, ?_, ?_⟩
    · exact (Nat.div_lt_iff_lt_mul hN).mpr (by rw [Nat.mul_comm]; exact ha)
    · simp only [if_true]
      rw [Nat.add_comm]
      exact Nat.div_add_mod' a N

/-! ## C5 -/

/-- C5 (the code at the failing input): two particles at `(0, 0)` and `(1, 0)` under the
cartesian policy in two dimensions, with an interaction returning gradient magnitude
`g = 1` and Hessian scalar `h = 0`. The call succeeds; the pair term for `k = l = 1` is
`(h + g) * dr[1] * dr[1] / r2 - g = -1`, yet the same-particle entry
`H[(1,1),(1,1)]` (position `4 * 3 + 3`) and the cross-particle entry `H[(1,1),(0,1)]`
(position `4 * 3 + 1`) are both left at `0`: the Hessian update is skipped because
`h = 0`. -/
theorem C5_hessian_update_skipped_when_h_is_zero :
    (∃ e, ((linear_potential 2).get_energy_gradient_hessian (Array.ofList [0, 0, 1, 0])
        (Array.ofList [0, 0, 0, 0]) ⟨16, fun _ => 0⟩).1 = Except.ok e) ∧
      (linear_potential 2).gh_ij (Array.ofList [0, 0, 1, 0]) 2 1 0 = 1 ∧
      (linear_potential 2).h_ij (Array.ofList [0, 0, 1, 0]) 2 1 0 = 0 ∧
      (linear_potential 2).pair_term (Array.ofList [0, 0, 1, 0]) 2 1 0 1 1 = -1 ∧
      ((linear_potential 2).get_energy_gradient_hessian (Array.ofList [0, 0, 1, 0])
        (Array.ofList [0, 0, 0, 0]) ⟨16, fun _ => 0⟩).2.2.data (4 * 3 + 3) = 0 ∧
      ((linear_potential 2).get_energy_gradient_hessian (Array.ofList [0, 0, 1, 0])
        (Array.ofList [0, 0, 0, 0]) ⟨16, fun _ => 0⟩).2.2.data (4 * 3 + 1) = 0 := by
  have hw : ∀ i j k l,
      (linear_potential 2).written_term (Array.ofList [0, 0, 1, 0]) 2 i j k l = 0 := by
    intro i j k l
    simp [SimplePairwisePotential.written_term, SimplePairwisePotential.h_ij,
      linear_potential, linear_interaction]
  have hD : 0 < (linear_potential 2).m_ndim := by decide
  have hx : (Array.ofList [0, 0, 1, 0]).size = 2 * (linear_potential 2).m_ndim := rfl
  have hg : (Array.ofList [0, 0, 0, 0]).size = (Array.ofList [0, 0, 1, 0]).size := rfl
  have hh : (⟨16, fun _ => 0⟩ : Array).size
      = (Array.ofList [0, 0, 1, 0]).size * (Array.ofList [0, 0, 1, 0]).size := rfl
  refine ⟨⟨_, by rw [get_energy_gradient_hessian_eq _ _ _ _ 2 hD hx hg hh]⟩, rfl, rfl, ?_,
    ?_, ?_⟩
  · simp only [SimplePairwisePotential.pair_term, hess_term, SimplePairwisePotential.gh_ij,
      SimplePairwisePotential.h_ij, SimplePairwisePotential.r2_ij,
      SimplePairwisePotential.r_ij, SimplePairwisePotential.particle,
      SimplePairwisePotential.index, SimplePairwisePotential.m_ndim, distance_policy._ndim,
      distance_policy.get_rij, cartesian_distance.get_rij, meta_dist_apply,
      linear_potential, linear_interaction, Array.ofList, Buf.ofList,
      Finset.sum_range_succ, Finset.sum_range_zero]
    norm_num
  · have e := get_hessian_same (linear_potential 2) (Array.ofList [0, 0, 1, 0])
      (Array.ofList [0, 0, 0, 0]) ⟨16, fun _ => 0⟩ 2 hD hx hg hh 1 1 1 (by decide)
      (by decide) (by decide)
    simp only [hw, ite_self, Finset.sum_const_zero] at e
    exact e
  · have e := get_hessian_lower (linear_potential 2) (Array.ofList [0, 0, 1, 0])
      (Array.ofList [0, 0, 0, 0]) ⟨16, fun _ => 0⟩ 2 hD hx hg hh 1 0 1 1 (by decide)
      (by decide) (by decide) (by decide)
    simp only [hw, neg_zero] at e
    exact e

/-! ## C6 -/

theorem get_hessian_symm (pot : SimplePairwisePotential) (x grad hess : Array) (N : Nat)
    (hD : 0 < pot.m_ndim) (hx : x.size = N * pot.m_ndim) (hg : grad.size = x.size)
    (hh : hess.size = x.size * x.size)
    (p q k l : Nat) (hp : p < N) (hq : q < N) (hk : k < pot.m_ndim) (hl : l < pot.m_ndim) :
    (pot.get_energy_gradient_hessian x grad hess).2.2.data
        (N * pot.m_ndim * pot.index N p k + pot.index N q l)
      = (pot.get_energy_gradient_hessian x grad hess).2.2.data
        (N * pot.m_ndim * pot.index N q l + pot.index N p k) := by
  rcases Nat.lt_trichotomy p q with h | h | h
  · rw [get_hessian_upper pot x grad hess N hD hx hg hh q p k l hq h hk hl,
      get_hessian_lower pot x grad hess N hD hx hg hh q p l k hq h hl hk,
      written_term_symm]
  · subst h
    rw [get_hessian_same pot x grad hess N hD hx hg hh p k l hp hk hl,
      get_hessian_same pot x grad hess N hD hx hg hh p l k hp hl hk]
    simp only [written_term_symm pot x N _ _ k l]
  · rw [get_hessian_lower pot x grad hess N hD hx hg hh p q k l hp h hk hl,
      get_hessian_upper pot x grad hess N hD hx hg hh p q l k hp h hl hk,
      written_term_symm]

/-- C6: when `get_energy_gradient_hessian` succeeds (`x` of length `n = N * D`, `grad` of
length `n`, `hess` of length `n * n`), the Hessian it leaves satisfies
`hess[p * n + q] = hess[q * n + p]` for all `p, q < n`, in either layout and for any
interaction. -/
theorem C6_hessian_is_symmetric (pot : SimplePairwisePotential) (x grad hess : Array)
    (N : Nat) (hD : 0 < pot.m_ndim) (hx : x.size = N * pot.m_ndim)
    (hg : grad.size = x.size) (hh : hess.size = x.size * x.size) :
    (∃ e, (pot.get_energy_gradient_hessian x grad hess).1 = Except.ok e) ∧
      ∀ p q, p < x.size → q < x.size →
        (pot.get_energy_gradient_hessian x grad hess).2.2.data (p * x.size + q)
          = (pot.get_energy_gradient_hessian x grad hess).2.2.data (q * x.size + p) := by
  refine ⟨⟨_, by rw [get_energy_gradient_hessian_eq pot x grad hess N hD hx hg hh]⟩, ?_⟩
  intro a b ha hb
  rw [hx] at ha hb
  obtain ⟨p, k, hp, hk, rfl⟩ := index_surj pot N a hD ha
  obtain ⟨q, l, hq, hl, rfl⟩ := index_surj pot N b hD hb
  rw [hx, Nat.mul_comm (pot.index N p k), Nat.mul_comm (pot.index N q l)]
  exact get_hessian_symm pot x grad hess N hD hx hg hh p q k l hp hq hk hl

/-- C6 witness: two particles in the plane, Hessian scalar `2` for the pair: the entries
at `(1, 3)` and `(3, 1)` of the `4 x 4` Hessian agree. -/
theorem C6_hessian_is_symmetric_witness :
    ((quadratic_potential 2 false).get_energy_gradient_hessian (Array.ofList [0, 0, 1, 0])
        (Array.ofList [0, 0, 0, 0]) ⟨16, fun _ => 0⟩).2.2.data
        (1 * (Array.ofList [0, 0, 1, 0]).size + 3)
      = ((quadratic_potential 2 false).get_energy_gradient_hessian
        (Array.ofList [0, 0, 1, 0]) (Array.ofList [0, 0, 0, 0]) ⟨16, fun _ => 0⟩).2.2.data
        (3 * (Array.ofList [0, 0, 1, 0]).size + 1) :=
  (C6_hessian_is_symmetric (quadratic_potential 2 false) (Array.ofList [0, 0, 1, 0])
    (Array.ofList [0, 0, 0, 0]) ⟨16, fun _ => 0⟩ 2 (by decide) rfl rfl rfl).2 1 3
    (by decide) (by decide)

/-! ## C7 -/

theorem meta_leesedwards_distance_small (n : Nat) (hn : n < 2) (r_ij r1 r2 box ibox : Buf)
    (dx : ℚ) : meta_leesedwards_distance n r_ij r1 r2 box ibox dx = r_ij := by
  interval_cases n <;> rfl

/-- The displacement only depends on the first `_ndim` coordinates of the two particles. -/
theorem distance_policy_get_rij_congr (dist : distance_policy) (r_ij r1 r2 r1' r2' : Buf)
    (h1 : ∀ k, k < dist._ndim → r1 k = r1' k) (h2 : ∀ k, k < dist._ndim → r2 k = r2' k) :
    dist.get_rij r_ij r1 r2 = dist.get_rij r_ij r1' r2' := by
  funext d
  cases dist with
  | cartesian c =>
    simp only [distance_policy.get_rij, cartesian_distance.get_rij, meta_dist_apply]
    simp only [distance_policy._ndim] at h1 h2
    split_ifs with hd
    · rw [h1 d hd, h2 d hd]
    · rfl
  | periodic c =>
    simp only [distance_policy.get_rij, periodic_distance.get_rij,
      meta_periodic_distance_apply]
    simp only [distance_policy._ndim] at h1 h2
    split_ifs with hd
    · rw [h1 d hd, h2 d hd]
    · rfl
  | leesedwards c =>
    simp only [distance_policy.get_rij, leesedwards_distance.get_rij]
    simp only [distance_policy._ndim] at h1 h2
    by_cases hn : c._ndim < 2
    · rw [meta_leesedwards_distance_small _ hn, meta_leesedwards_distance_small _ hn]
    · obtain ⟨n, hn'⟩ : ∃ n, c._ndim = n + 2 := ⟨c._ndim - 2, by omega⟩
      rw [hn'] at h1 h2 ⊢
      simp only [meta_leesedwards_distance_apply]
      rw [h1 0 (by omega), h1 1 (by omega), h2 0 (by omega), h2 1 (by omega)]
      by_cases d0 : d = 0
      · simp only [d0, if_true]
      · by_cases d1 : d = 1
        · simp only [d1, one_ne_zero, if_true, if_false]
        · simp only [d0, d1, if_false]
          split_ifs with hd
          · rw [h1 d hd, h2 d hd]
          · rfl

theorem with_layout_m_ndim (pot : SimplePairwisePotential) (b : Bool) :
    (pot.with_layout b).m_ndim = pot.m_ndim := rfl

theorem r_ij_layout (pot : SimplePairwisePotential) (x x' : Array) (N : Nat)
    (hperm : ∀ i d, i < N → d < pot.m_ndim → x'.data (d * N + i) = x.data (i * pot.m_ndim + d))
    (i j : Nat) (hi : i < N) (hj : j < N) :
    (pot.with_layout true).r_ij x' N i j = (pot.with_layout false).r_ij x N i j := by
  unfold SimplePairwisePotential.r_ij
  apply distance_policy_get_rij_congr
  · intro k hk
    have := hperm i k hi hk
    simp only [SimplePairwisePotential.particle, SimplePairwisePotential.index,
      SimplePairwisePotential.with_layout, if_true, Bool.false_eq_true, if_false]
    rw [Nat.add_comm]; exact this
  · intro k hk
    have := hperm j k hj hk
    simp only [SimplePairwisePotential.particle, SimplePairwisePotential.index,
      SimplePairwisePotential.with_layout, if_true, Bool.false_eq_true, if_false]
    rw [Nat.add_comm]; exact this

theorem r2_ij_layout (pot : SimplePairwisePotential) (x x' : Array) (N : Nat)
    (hperm : ∀ i d, i < N → d < pot.m_ndim → x'.data (d * N + i) = x.data (i * pot.m_ndim + d))
    (i j : Nat) (hi : i < N) (hj : j < N) :
    (pot.with_layout true).r2_ij x' N i j = (pot.with_layout false).r2_ij x N i j := by
  unfold SimplePairwisePotential.r2_ij
  rw [r_ij_layout pot x x' N hperm i j hi hj]
  rfl

theorem g_ij_layout (pot : SimplePairwisePotential) (x x' : Array) (N : Nat)
    (hperm : ∀ i d, i < N → d < pot.m_ndim → x'.data (d * N + i) = x.data (i * pot.m_ndim + d))
    (i j : Nat) (hi : i < N) (hj : j < N) :
    (pot.with_layout true).g_ij x' N i j = (pot.with_layout false).g_ij x N i j := by
  unfold SimplePairwisePotential.g_ij
  rw [r2_ij_layout pot x x' N hperm i j hi hj]
  rfl

theorem eh_ij_layout (pot : SimplePairwisePotential) (x x' : Array) (N : Nat)
    (hperm : ∀ i d, i < N → d < pot.m_ndim → x'.data (d * N + i) = x.data (i * pot.m_ndim + d))
    (i j : Nat) (hi : i < N) (hj : j < N) :
    (pot.with_layout true).eh_ij x' N i j = (pot.with_layout false).eh_ij x N i j := by
  unfold SimplePairwisePotential.eh_ij
  rw [r2_ij_layout pot x x' N hperm i j hi hj]
  rfl

theorem gh_ij_layout (pot : SimplePairwisePotential) (x x' : Array) (N : Nat)
    (hperm : ∀ i d, i < N → d < pot.m_ndim → x'.data (d * N + i) = x.data (i * pot.m_ndim + d))
    (i j : Nat) (hi : i < N) (hj : j < N) :
    (pot.with_layout true).gh_ij x' N i j = (pot.with_layout false).gh_ij x N i j := by
  unfold SimplePairwisePotential.gh_ij
  rw [r2_ij_layout pot x x' N hperm i j hi hj]
  rfl

theorem h_ij_layout (pot : SimplePairwisePotential) (x x' : Array) (N : Nat)
    (hperm : ∀ i d, i < N → d < pot.m_ndim → x'.data (d * N + i) = x.data (i * pot.m_ndim + d))
    (i j : Nat) (hi : i < N) (hj : j < N) :
    (pot.with_layout true).h_ij x' N i j = (pot.with_layout false).h_ij x N i j := by
  unfold SimplePairwisePotential.h_ij
  rw [r2_ij_layout pot x x' N hperm i j hi hj]
  rfl

theorem written_term_layout (pot : SimplePairwisePotential) (x x' : Array) (N : Nat)
    (hperm : ∀ i d, i < N → d < pot.m_ndim → x'.data (d * N + i) = x.data (i * pot.m_ndim + d))
    (i j : Nat) (hi : i < N) (hj : j < N) (k l : Nat) :
    (pot.with_layout true).written_term x' N i j k l
      = (pot.with_layout false).written_term x N i j k l := by
  unfold SimplePairwisePotential.written_term SimplePairwisePotential.pair_term
  rw [h_ij_layout pot x x' N hperm i j hi hj, gh_ij_layout pot x x' N hperm i j hi hj,
    r2_ij_layout pot x x' N hperm i j hi hj, r_ij_layout pot x x' N hperm i j hi hj]

theorem get_energy_gradient_eq (pot : SimplePairwisePotential) (x grad : Array) (N : Nat)
    (hD : 0 < pot.m_ndim) (hx : x.size = N * pot.m_ndim) (hg : grad.size = x.size) :
    pot.get_energy_gradient x grad =
      (Except.ok (∑ i in Finset.range N, ∑ j in Finset.range i,
          (pot._interaction.energy_gradient (pot.r2_ij x N i j) (pot.sum_radii i j)).1),
        ⟨grad.size, fun q => (if q < grad.size then 0 else grad.data q)
          + ∑ i in Finset.range N, ∑ j in Finset.range i, pot.pair_gradient x N i j q⟩) := by
  unfold SimplePairwisePotential.get_energy_gradient
  simp only
  rw [add_energy_gradient_eq pot x (grad.assign 0) N hD hx (by simpa [Array.assign] using hg)]
  rfl

theorem get_gradient_entry (pot : SimplePairwisePotential) (x grad : Array) (N : Nat)
    (hD : 0 < pot.m_ndim) (hx : x.size = N * pot.m_ndim) (hg : grad.size = x.size)
    (p d : Nat) (hp : p < N) (hd : d < pot.m_ndim) :
    (pot.get_energy_gradient x grad).2.data (pot.index N p d) =
      ∑ j in Finset.range p, -(pot.g_ij x N p j * pot.r_ij x N p j d)
        + ∑ i in (Finset.range N).filter (fun i => p < i),
            pot.g_ij x N i p * pot.r_ij x N i p d := by
  rw [get_energy_gradient_eq pot x grad N hD hx hg]
  have hlt : pot.index N p d < grad.size := by
    rw [hg, hx]; exact index_lt pot N p d hp hd
  simp only [hlt, if_true, zero_add]
  exact gradient_entry pot x N p d hp hd

theorem pair_gradient_h_at_index (pot : SimplePairwisePotential) (x : Array)
    (N i j p d : Nat) (hi : i < N) (hj : j < N) (hp : p < N) (hd : d < pot.m_ndim) :
    pot.pair_gradient_h x N i j (pot.index N p d) =
      (if p = i then -(pot.gh_ij x N i j * pot.r_ij x N i j d) else 0)
        + (if p = j then pot.gh_ij x N i j * pot.r_ij x N i j d else 0) := by
  unfold SimplePairwisePotential.pair_gradient_h
  rw [Finset.sum_add_distrib]
  congr 1
  · have : ∀ k ∈ Finset.range pot.m_ndim,
        (if pot.index N p d = pot.index N i k then
          -(pot.gh_ij x N i j * pot.r_ij x N i j k) else 0)
        = if d = k then
            (if p = i then -(pot.gh_ij x N i j * pot.r_ij x N i j d) else 0) else 0 := by
      intro k hk
      rw [Finset.mem_range] at hk
      have e := index_inj pot N p d i k hp hd hi hk
      by_cases h1 : d = k
      · subst h1; simp [e]
      · simp [h1, e]
    rw [Finset.sum_congr rfl this, Finset.sum_ite_eq]
    simp [hd]
  · have : ∀ k ∈ Finset.range pot.m_ndim,
        (if pot.index N p d = pot.index N j k then
          pot.gh_ij x N i j * pot.r_ij x N i j k else 0)
        = if d = k then
            (if p = j then pot.gh_ij x N i j * pot.r_ij x N i j d else 0) else 0 := by
      intro k hk
      rw [Finset.mem_range] at hk
      have e := index_inj pot N p d j k hp hd hj hk
      by_cases h1 : d = k
      · subst h1; simp [e]
      · simp [h1, e]
    rw [Finset.sum_congr rfl this, Finset.sum_ite_eq]
    simp [hd]

theorem get_gradient_h_entry (pot : SimplePairwisePotential) (x grad hess : Array) (N : Nat)
    (hD : 0 < pot.m_ndim) (hx : x.size = N * pot.m_ndim) (hg : grad.size = x.size)
    (hh : hess.size = x.size * x.size) (p d : Nat) (hp : p < N) (hd : d < pot.m_ndim) :
    (pot.get_energy_gradient_hessian x grad hess).2.1.data (pot.index N p d) =
      ∑ j in Finset.range p, -(pot.gh_ij x N p j * pot.r_ij x N p j d)
        + ∑ i in (Finset.range N).filter (fun i => p < i),
            pot.gh_ij x N i p * pot.r_ij x N i p d := by
  rw [get_energy_gradient_hessian_eq pot x grad hess N hD hx hg hh]
  simp only
  rw [pair_loop_grad_step]
  have hlt : pot.index N p d < grad.size := by
    rw [hg, hx]; exact index_lt pot N p d hp hd
  simp only [Array.assign, hlt, if_true, zero_add]
  have h1 : ∀ i ∈ Finset.range N, ∀ j ∈ Finset.range i,
      pot.pair_gradient_h x N i j (pot.index N p d)
        = (if p = i then -(pot.gh_ij x N i j * pot.r_ij x N i j d) else 0)
          + (if p = j then pot.gh_ij x N i j * pot.r_ij x N i j d else 0) := by
    intro i hi j hj
    rw [Finset.mem_range] at hi hj
    exact pair_gradient_h_at_index pot x N i j p d hi (by omega) hp hd
  rw [Finset.sum_congr rfl (fun i hi => Finset.sum_congr rfl (h1 i hi))]
  simp only [Finset.sum_add_distrib]
  rw [sum_pairs_first (fun i j => -(pot.gh_ij x N i j * pot.r_ij x N i j d)) N p hp,
    sum_pairs_second (fun i j => pot.gh_ij x N i j * pot.r_ij x N i j d) N p]

/-! ## C8 -/

theorem pair_sum_congr (f g : Nat → Nat → ℚ) (N : Nat)
    (h : ∀ i j, i < N → j < i → f i j = g i j) :
    ∑ i in Finset.range N, ∑ j in Finset.range i, f i j
      = ∑ i in Finset.range N, ∑ j in Finset.range i, g i j := by
  apply Finset.sum_congr rfl
  intro i hi
  apply Finset.sum_congr rfl
  intro j hj
  rw [Finset.mem_range] at hi hj
  exact h i j hi hj

theorem index_soa (pot : SimplePairwisePotential) (N p d : Nat) :
    (pot.with_layout true).index N p d = d * N + p := by
  simp only [SimplePairwisePotential.index, SimplePairwisePotential.with_layout, if_true]
  exact Nat.add_comm _ _

theorem index_aos (pot : SimplePairwisePotential) (N p d : Nat) :
    (pot.with_layout false).index N p d = p * pot.m_ndim + d := by
  simp only [SimplePairwisePotential.index, SimplePairwisePotential.with_layout,
    Bool.false_eq_true, if_false]
  rfl

theorem layout_gradient_sums (pot : SimplePairwisePotential) (x x' : Array) (N : Nat)
    (hperm : ∀ i d, i < N → d < pot.m_ndim → x'.data (d * N + i) = x.data (i * pot.m_ndim + d))
    (gB gA : Nat → Nat → ℚ) (hgAB : ∀ i j, i < N → j < N → gB i j = gA i j)
    (p d : Nat) (hp : p < N) :
    ∑ j in Finset.range p, -(gB p j * (pot.with_layout true).r_ij x' N p j d)
        + ∑ i in (Finset.range N).filter (fun i => p < i),
            gB i p * (pot.with_layout true).r_ij x' N i p d
      = ∑ j in Finset.range p, -(gA p j * (pot.with_layout false).r_ij x N p j d)
        + ∑ i in (Finset.range N).filter (fun i => p < i),
            gA i p * (pot.with_layout false).r_ij x N i p d := by
  congr 1
  · apply Finset.sum_congr rfl
    intro j hj
    rw [Finset.mem_range] at hj
    rw [hgAB p j hp (by omega), r_ij_layout pot x x' N hperm p j hp (by omega)]
  · apply Finset.sum_congr rfl
    intro i hi
    rw [Finset.mem_filter, Finset.mem_range] at hi
    rw [hgAB i p hi.1 hp, r_ij_layout pot x x' N hperm i p hi.1 hp]

/-- C8: let `x` be a particle-major coordinate vector of length `N * D` and `x'` its
dimension-major rearrangement (`x'[d * N + i] = x[i * D + d]`), and let the gradient and
Hessian buffers have the required lengths. The engine with the dimension-major flag on
`x'` and with the particle-major flag on `x` return the same energy from `get_energy`,
`get_energy_gradient` and `get_energy_gradient_hessian`; the gradients (of both gradient
routines) satisfy `grad'[d * N + i] = grad[i * D + d]`; and the Hessians satisfy
`hess'[(k * N + i) * ND + (l * N + j)] = hess[(i * D + k) * ND + (j * D + l)]`. -/
theorem C8_layouts_agree (pot : SimplePairwisePotential)
    (x x' grad grad' hess hess' : Array) (N : Nat) (hD : 0 < pot.m_ndim)
    (hx : x.size = N * pot.m_ndim) (hx' : x'.size = N * pot.m_ndim)
    (hperm : ∀ i d, i < N → d < pot.m_ndim → x'.data (d * N + i) = x.data (i * pot.m_ndim + d))
    (hg : grad.size = x.size) (hg' : grad'.size = x'.size)
    (hh : hess.size = x.size * x.size) (hh' : hess'.size = x'.size * x'.size) :
    (pot.with_layout true).get_energy x' = (pot.with_layout false).get_energy x ∧
      ((pot.with_layout true).get_energy_gradient x' grad').1
        = ((pot.with_layout false).get_energy_gradient x grad).1 ∧
      ((pot.with_layout true).get_energy_gradient_hessian x' grad' hess').1
        = ((pot.with_layout false).get_energy_gradient_hessian x grad hess).1 ∧
      (∀ i d, i < N → d < pot.m_ndim →
        ((pot.with_layout true).get_energy_gradient x' grad').2.data (d * N + i)
            = ((pot.with_layout false).get_energy_gradient x grad).2.data
                (i * pot.m_ndim + d) ∧
          ((pot.with_layout true).get_energy_gradient_hessian x' grad' hess').2.1.data
              (d * N + i)
            = ((pot.with_layout false).get_energy_gradient_hessian x grad hess).2.1.data
                (i * pot.m_ndim + d)) ∧
      (∀ i j k l, i < N → j < N → k < pot.m_ndim → l < pot.m_ndim →
        ((pot.with_layout true).get_energy_gradient_hessian x' grad' hess').2.2.data
            ((k * N + i) * (N * pot.m_ndim) + (l * N + j))
          = ((pot.with_layout false).get_energy_gradient_hessian x grad hess).2.2.data
            ((i * pot.m_ndim + k) * (N * pot.m_ndim) + (j * pot.m_ndim + l))) := by
  have hDA : 0 < (pot.with_layout false).m_ndim := hD
  have hDB : 0 < (pot.with_layout true).m_ndim := hD
  have hxA : x.size = N * (pot.with_layout false).m_ndim := hx
  have hxB : x'.size = N * (pot.with_layout true).m_ndim := hx'
  refine ⟨?_, ?_, ?_, ?_, ?_⟩
  · rw [get_energy_eq _ x' N hDB hxB, get_energy_eq _ x N hDA hxA]
    congr 1
    apply pair_sum_congr
    intro i j hi hj
    rw [r2_ij_layout pot x x' N hperm i j hi (by omega)]
    rfl
  · rw [get_energy_gradient_eq _ x' grad' N hDB hxB hg',
      get_energy_gradient_eq _ x grad N hDA hxA hg]
    simp only
    congr 1
    apply pair_sum_congr
    intro i j hi hj
    rw [r2_ij_layout pot x x' N hperm i j hi (by omega)]
    rfl
  · rw [get_energy_gradient_hessian_eq _ x' grad' hess' N hDB hxB hg' hh',
      get_energy_gradient_hessian_eq _ x grad hess N hDA hxA hg hh]
    simp only
    congr 1
    apply pair_sum_congr
    intro i j hi hj
    exact eh_ij_layout pot x x' N hperm i j hi (by omega)
  · intro i d hi hd
    have hdA : d < (pot.with_layout false).m_ndim := hd
    have hdB : d < (pot.with_layout true).m_ndim := hd
    rw [← index_soa pot N i d, ← index_aos pot N i d]
    constructor
    · rw [get_gradient_entry _ x' grad' N hDB hxB hg' i d hi hdB,
        get_gradient_entry _ x grad N hDA hxA hg i d hi hdA]
      exact layout_gradient_sums pot x x' N hperm _ _
        (fun a b ha hb => g_ij_layout pot x x' N hperm a b ha hb) i d hi
    · rw [get_gradient_h_entry _ x' grad' hess' N hDB hxB hg' hh' i d hi hdB,
        get_gradient_h_entry _ x grad hess N hDA hxA hg hh i d hi hdA]
      exact layout_gradient_sums pot x x' N hperm _ _
        (fun a b ha hb => gh_ij_layout pot x x' N hperm a b ha hb) i d hi
  · intro i j k l hi hj hk hl
    have hkA : k < (pot.with_layout false).m_ndim := hk
    have hkB : k < (pot.with_layout true).m_ndim := hk
    have hlA : l < (pot.with_layout false).m_ndim := hl
    have hlB : l < (pot.with_layout true).m_ndim := hl
    rw [← index_soa pot N i k, ← index_soa pot N j l, ← index_aos pot N i k,
      ← index_aos pot N j l, Nat.mul_comm ((pot.with_layout true).index N i k),
      Nat.mul_comm ((pot.with_layout false).index N i k)]
    have eB : N * pot.m_ndim = N * (pot.with_layout true).m_ndim := rfl
    have eA : N * pot.m_ndim = N * (pot.with_layout false).m_ndim := rfl
    rcases Nat.lt_trichotomy i j with h | h | h
    · conv_lhs => rw [eB]
      conv_rhs => rw [eA]
      rw [get_hessian_upper _ x' grad' hess' N hDB hxB hg' hh' j i k l hj h hkB hlB,
        get_hessian_upper _ x grad hess N hDA hxA hg hh j i k l hj h hkA hlA,
        written_term_layout pot x x' N hperm j i hj hi]
    · subst h
      conv_lhs => rw [eB]
      conv_rhs => rw [eA]
      rw [get_hessian_same _ x' grad' hess' N hDB hxB hg' hh' i k l hi hkB hlB,
        get_hessian_same _ x grad hess N hDA hxA hg hh i k l hi hkA hlA]
      apply pair_sum_congr
      intro a b ha hb
      rw [written_term_layout pot x x' N hperm a b ha (by omega)]
    · conv_lhs => rw [eB]
      conv_rhs => rw [eA]
      rw [get_hessian_lower _ x' grad' hess' N hDB hxB hg' hh' i j k l hi h hkB hlB,
        get_hessian_lower _ x grad hess N hDA hxA hg hh i j k l hi h hkA hlA,
        written_term_layout pot x x' N hperm i j hi hj]

/-- C8 witness: two particles at `(0, 0)` and `(1, 0)`, particle-major `(0, 0, 1, 0)` and
dimension-major `(0, 1, 0, 0)`: `get_energy` returns the same value in both layouts. -/
theorem C8_layouts_agree_witness :
    ((quadratic_potential 2 false).with_layout true).get_energy (Array.ofList [0, 1, 0, 0])
      = ((quadratic_potential 2 false).with_layout false).get_energy
          (Array.ofList [0, 0, 1, 0]) := by
  have hperm : ∀ i d, i < 2 → d < (quadratic_potential 2 false).m_ndim →
      (Array.ofList [0, 1, 0, 0]).data (d * 2 + i)
        = (Array.ofList [0, 0, 1, 0]).data (i * (quadratic_potential 2 false).m_ndim + d) := by
    intro i d hi hd
    have hd' : d < 2 := hd
    have e : (quadratic_potential 2 false).m_ndim = 2 := rfl
    rw [e]
    interval_cases i <;> interval_cases d <;> simp [Array.ofList, Buf.ofList]
  exact (C8_layouts_agree (quadratic_potential 2 false) (Array.ofList [0, 0, 1, 0])
    (Array.ofList [0, 1, 0, 0]) (Array.ofList [0, 0, 0, 0]) (Array.ofList [0, 0, 0, 0])
    ⟨16, fun _ => 0⟩ ⟨16, fun _ => 0⟩ 2 (by decide) rfl rfl hperm rfl rfl rfl rfl).1

/-! ## The Hessian guard -/

/-- The guard `hij != 0` loses nothing for a pair whose gradient magnitude vanishes
together with its Hessian scalar: the term written for the pair is the pair term. -/
theorem written_term_eq_pair_term (pot : SimplePairwisePotential) (x : Array)
    (N i j k l : Nat) (hgh : pot.h_ij x N i j = 0 → pot.gh_ij x N i j = 0) :
    pot.written_term x N i j k l = pot.pair_term x N i j k l := by
  unfold SimplePairwisePotential.written_term
  by_cases hh : pot.h_ij x N i j = 0
  · have hg := hgh hh
    simp [hh, SimplePairwisePotential.pair_term, hess_term, hg]
  · simp [hh]

/-! ## The periodic image inside the `int` range -/

/-- A value in the closed half box is left alone by the boundary correction. -/
theorem corrected_of_range (y L : ℚ) (lo : -(L / 2) ≤ y) (hi : y ≤ L / 2) :
    corrected y L = y := by
  unfold corrected
  simp only
  have n1 : ¬ (y > 1 / 2 * L) := by intro h; linarith
  simp only [n1, if_false]
  have n2 : ¬ (y < -(1 / 2 * L)) := by intro h; linarith
  simp only [n2, if_false]

theorem periodic_put_atom_in_box_apply (ndim : Nat) (box : Array) (xnew x : Buf) (d : Nat)
    (hd : d < ndim) :
    (periodic_distance.members ndim box).put_atom_in_box xnew x d
      = image_value (x d) (1 / box.data d) (box.data d) := by
  simp only [periodic_distance.put_atom_in_box, periodic_distance.members,
    meta_image_apply, hd, if_true]

theorem periodic_put_atom_in_box_inplace_apply (ndim : Nat) (box : Array) (x : Buf) (d : Nat)
    (hd : d < ndim) :
    (periodic_distance.members ndim box).put_atom_in_box_inplace x d
      = image_value (x d) (1 / box.data d) (box.data d) := by
  simp only [periodic_distance.put_atom_in_box_inplace, periodic_distance.members,
    meta_image_inplace_apply, hd, if_true]

/-! ## C11 -/

theorem meta_leesedwards_image_two (xnew x ibox box : Buf) (dx : ℚ) :
    meta_leesedwards_image 2 xnew x ibox box dx =
      Function.update
        (Function.update xnew 0
          (leesedwards_image_values_xnew (x 0) (x 1) (ibox 0) (box 0) (ibox 1) (box 1)
            dx).1) 1
        (leesedwards_image_values_xnew (x 0) (x 1) (ibox 0) (box 0) (ibox 1) (box 1)
          dx).2 := by
  have h01 : (0 : Nat) ≠ 1 := by decide
  have h10 : (1 : Nat) ≠ 0 := by decide
  funext q
  simp only [meta_leesedwards_image, leesedwards_image_values_xnew]
  rw [image_correction_eq, leesedwards_correction_eq _ _ _ h01]
  simp only [Function.update_same, Function.update_noteq h01, Function.update_noteq h10,
    Function.update_apply]
  split_ifs <;> first | rfl | omega

theorem meta_leesedwards_image_apply (n : Nat) (xnew x ibox box : Buf) (dx : ℚ) (d : Nat) :
    meta_leesedwards_image (n + 2) xnew x ibox box dx d =
      if d = 0 then
        (leesedwards_image_values_xnew (x 0) (x 1) (ibox 0) (box 0) (ibox 1) (box 1) dx).1
      else if d = 1 then
        (leesedwards_image_values_xnew (x 0) (x 1) (ibox 0) (box 0) (ibox 1) (box 1) dx).2
      else if d < n + 2 then image_value (x d) (ibox d) (box d)
      else xnew d := by
  induction n generalizing xnew with
  | zero =>
    rw [meta_leesedwards_image_two]
    simp only [Function.update_apply]
    by_cases h0 : d = 0
    · subst h0; simp
    · by_cases h1 : d = 1
      · subst h1; simp
      · have : ¬ d < 2 := by omega
        simp [h0, h1, this]
  | succ n ih =>
    simp only [meta_leesedwards_image, ih, image_correction_eq, Function.update_apply,
      Function.update_same, image_value]
    by_cases h0 : d = 0
    · simp [h0]
    · by_cases h1 : d = 1
      · simp [h1]
      · by_cases h2 : d < n + 2
        · have : d < n + 1 + 2 := by omega
          simp [h0, h1, h2, this]
        · by_cases h3 : d = n + 2
          · subst h3; simp
          · have : ¬ d < n + 1 + 2 := by omega
            simp [h0, h1, h2, h3, this]

theorem meta_leesedwards_image_inplace_apply (n : Nat) (x ibox box : Buf) (dx : ℚ)
    (d : Nat) :
    meta_leesedwards_image_inplace (n + 2) x ibox box dx d =
      if d = 0 then
        (leesedwards_image_values (x 0) (x 1) (ibox 0) (box 0) (ibox 1) (box 1) dx).1
      else if d = 1 then
        (leesedwards_image_values (x 0) (x 1) (ibox 0) (box 0) (ibox 1) (box 1) dx).2
      else if d < n + 2 then image_value (x d) (ibox d) (box d)
      else x d := by
  induction n generalizing x with
  | zero =>
    rw [meta_leesedwards_image_inplace_two]
    simp only [Function.update_apply]
    by_cases h0 : d = 0
    · subst h0; simp
    · by_cases h1 : d = 1
      · subst h1; simp
      · have : ¬ d < 2 := by omega
        simp [h0, h1, this]
  | succ n ih =>
    have a0 : (0 : Nat) ≠ n + 2 := by omega
    have a1 : (1 : Nat) ≠ n + 2 := by omega
    simp only [meta_leesedwards_image_inplace, ih, image_correction_eq,
      Function.update_apply, Function.update_same, image_value, a0, a1, if_false]
    by_cases h0 : d = 0
    · simp [h0]
    · by_cases h1 : d = 1
      · simp [h1]
      · by_cases h2 : d < n + 2
        · have : d < n + 1 + 2 := by omega
          have h3 : d ≠ n + 2 := by omega
          simp [h0, h1, h2, h3, this]
        · by_cases h3 : d = n + 2
          · subst h3; simp
          · have : ¬ d < n + 1 + 2 := by omega
            simp [h0, h1, h2, h3, this]

/-! ## C13 -/

theorem fmod_int_one (z : ℤ) : fmod (z : ℚ) 1 = 0 := by
  unfold fmod
  simp

theorem corrected_pair_zero (v0 v1 b : ℚ) :
    corrected_pair v0 v1 b 0 = (v0, corrected v1 b) := by
  unfold corrected_pair corrected
  simp only [sub_zero, add_zero]
  by_cases h1 : v1 > 1 / 2 * b
  · simp only [h1, if_true]
    by_cases h2 : v1 - b < -(1 / 2 * b)
    · simp only [h2, if_true]
    · simp only [h2, if_false]
  · simp only [h1, if_false]
    by_cases h2 : v1 < -(1 / 2 * b)
    · simp only [h2, if_true]
    · simp only [h2, if_false]

theorem leesedwards_image_values_zero (v0 v1 ib0 b0 ib1 b1 : ℚ) :
    leesedwards_image_values v0 v1 ib0 b0 ib1 b1 0
      = (image_value v0 ib0 b0, image_value v1 ib1 b1) := by
  simp only [leesedwards_image_values, corrected_pair_zero, image_value, mul_zero, sub_zero]

theorem leesedwards_image_values_xnew_zero (v0 v1 ib0 b0 ib1 b1 : ℚ) :
    leesedwards_image_values_xnew v0 v1 ib0 b0 ib1 b1 0
      = (image_value v0 ib0 b0, image_value v1 ib1 b1) := by
  simp only [leesedwards_image_values_xnew, corrected_pair_zero, image_value, mul_zero,
    sub_zero]

/-- Without shear offset the Lees-Edwards displacement is the periodic one. -/
theorem meta_leesedwards_distance_zero (n : Nat) (r_ij r1 r2 box ibox : Buf) :
    meta_leesedwards_distance (n + 2) r_ij r1 r2 box ibox 0
      = meta_periodic_distance (n + 2) r_ij r1 r2 box ibox := by
  funext d
  rw [meta_leesedwards_distance_apply, meta_periodic_distance_apply]
  by_cases h0 : d = 0
  · subst h0; simp
  · by_cases h1 : d = 1
    · subst h1; simp
    · simp [h0, h1]

/-- Without shear offset the two-argument Lees-Edwards image is the periodic one. -/
theorem meta_leesedwards_image_zero (n : Nat) (xnew x ibox box : Buf) :
    meta_leesedwards_image (n + 2) xnew x ibox box 0 = meta_image (n + 2) xnew x ibox box := by
  funext d
  rw [meta_leesedwards_image_apply, meta_image_apply, leesedwards_image_values_xnew_zero]
  by_cases h0 : d = 0
  · subst h0; simp
  · by_cases h1 : d = 1
    · subst h1; simp
    · simp [h0, h1]

/-- Without shear offset the in-place Lees-Edwards image is the periodic one. -/
theorem meta_leesedwards_image_inplace_zero (n : Nat) (x ibox box : Buf) :
    meta_leesedwards_image_inplace (n + 2) x ibox box 0
      = meta_image_inplace (n + 2) x ibox box := by
  funext d
  rw [meta_leesedwards_image_inplace_apply, meta_image_inplace_apply,
    leesedwards_image_values_zero]
  by_cases h0 : d = 0
  · subst h0; simp
  · by_cases h1 : d = 1
    · subst h1; simp
    · simp [h0, h1]

/-- C13: for every integer shear `z`, every `ndim >= 2` and every box with `ndim`
entries, the Lees-Edwards policy constructed with the box and shear `z` has shear offset
`dx = 0` and gives the same `get_rij`, the same two-argument and in-place
`put_atom_in_box` and the same `put_in_box` as the periodic policy constructed with the
box, for all inputs (the whole output buffers are equal). -/
theorem C13_leesedwards_integer_shear_is_periodic (ndim : Nat) (h2 : 2 ≤ ndim)
    (box : Array) (z : ℤ) (ld : leesedwards_distance) (pd : periodic_distance)
    (hld : leesedwards_distance.construct ndim box (z : ℚ) = Except.ok ld)
    (hpd : periodic_distance.construct ndim box = Except.ok pd) :
    ld.m_dx = 0 ∧
      (∀ r_ij r1 r2 : Buf, ld.get_rij r_ij r1 r2 = pd.get_rij r_ij r1 r2) ∧
      (∀ xnew x : Buf, ld.put_atom_in_box xnew x = pd.put_atom_in_box xnew x) ∧
      (∀ x : Buf, ld.put_atom_in_box_inplace x = pd.put_atom_in_box_inplace x) ∧
      (∀ coords : Array, ld.put_in_box coords = pd.put_in_box coords) := by
  obtain ⟨_, rfl⟩ := leesedwards_construct_ok hld
  obtain ⟨_, rfl⟩ := periodic_construct_ok hpd
  obtain ⟨n, rfl⟩ : ∃ n, ndim = n + 2 := ⟨ndim - 2, by omega⟩
  have hdx : fmod (z : ℚ) 1 * box.data 1 = 0 := by rw [fmod_int_one, zero_mul]
  have hin : ∀ x : Buf,
      (leesedwards_distance.members (n + 2) box (fmod (z : ℚ) 1 * box.data 1)).put_atom_in_box_inplace
          x
        = (periodic_distance.members (n + 2) box).put_atom_in_box_inplace x := by
    intro x
    simp only [leesedwards_distance.put_atom_in_box_inplace,
      periodic_distance.put_atom_in_box_inplace, leesedwards_distance.members,
      periodic_distance.members, hdx, meta_leesedwards_image_inplace_zero]
  refine ⟨hdx, ?_, ?_, hin, ?_⟩
  · intro r_ij r1 r2
    simp only [leesedwards_distance.get_rij, periodic_distance.get_rij,
      leesedwards_distance.members, periodic_distance.members, hdx,
      meta_leesedwards_distance_zero]
  · intro xnew x
    simp only [leesedwards_distance.put_atom_in_box, periodic_distance.put_atom_in_box,
      leesedwards_distance.members, periodic_distance.members, hdx,
      meta_leesedwards_image_zero]
  · intro coords
    have hf : (fun (c : Buf) (i : Nat) => Buf.store c i
          ((leesedwards_distance.members (n + 2) box
            (fmod (z : ℚ) 1 * box.data 1)).put_atom_in_box_inplace (Buf.ptr c i)))
        = (fun (c : Buf) (i : Nat) => Buf.store c i
          ((periodic_distance.members (n + 2) box).put_atom_in_box_inplace (Buf.ptr c i))) := by
      funext c i
      rw [hin]
    simp only [leesedwards_distance.put_in_box, periodic_distance.put_in_box, hf]
    rfl

/-- C13 witness: box `(10, 10)` with shear `3`: the displacement of `(3.7, 6.5)` from the
origin and the image of `(3.7, 6.5)` are those of the periodic policy. -/
theorem C13_leesedwards_integer_shear_is_periodic_witness :
    (leesedwards_distance.members 2 (Array.ofList [10, 10])
          (fmod ((3 : ℤ) : ℚ) 1 * (Array.ofList [10, 10]).data 1)).get_rij (fun _ => 0)
          (Buf.ofList [37 / 10, 13 / 2]) (Buf.ofList [0, 0])
        = (periodic_distance.members 2 (Array.ofList [10, 10])).get_rij (fun _ => 0)
          (Buf.ofList [37 / 10, 13 / 2]) (Buf.ofList [0, 0]) ∧
      (leesedwards_distance.members 2 (Array.ofList [10, 10])
          (fmod ((3 : ℤ) : ℚ) 1 * (Array.ofList [10, 10]).data 1)).put_atom_in_box
          (fun _ => 0) (Buf.ofList [37 / 10, 13 / 2])
        = (periodic_distance.members 2 (Array.ofList [10, 10])).put_atom_in_box
          (fun _ => 0) (Buf.ofList [37 / 10, 13 / 2]) :=
  ⟨(C13_leesedwards_integer_shear_is_periodic 2 (by decide) (Array.ofList [10, 10]) 3
      (leesedwards_distance.members 2 (Array.ofList [10, 10])
        (fmod ((3 : ℤ) : ℚ) 1 * (Array.ofList [10, 10]).data 1))
      (periodic_distance.members 2 (Array.ofList [10, 10])) rfl rfl).2.1 _ _ _,
   (C13_leesedwards_integer_shear_is_periodic 2 (by decide) (Array.ofList [10, 10]) 3
      (leesedwards_distance.members 2 (Array.ofList [10, 10])
        (fmod ((3 : ℤ) : ℚ) 1 * (Array.ofList [10, 10]).data 1))
      (periodic_distance.members 2 (Array.ofList [10, 10])) rfl rfl).2.2.1 _ _⟩

/-! ## The Lees-Edwards image inside the `int` range -/

theorem leesedwards_put_atom_in_box_inplace_apply (ndim : Nat) (h2 : 2 ≤ ndim) (box : Array)
    (dx : ℚ) (x : Buf) (d : Nat) (hd : d < ndim) :
    (leesedwards_distance.members ndim box dx).put_atom_in_box_inplace x d =
      if d = 0 then
        (leesedwards_image_values (x 0) (x 1) (1 / box.data 0) (box.data 0)
          (1 / box.data 1) (box.data 1) dx).1
      else if d = 1 then
        (leesedwards_image_values (x 0) (x 1) (1 / box.data 0) (box.data 0)
          (1 / box.data 1) (box.data 1) dx).2
      else image_value (x d) (1 / box.data d) (box.data d) := by
  obtain ⟨n, rfl⟩ : ∃ n, ndim = n + 2 := ⟨ndim - 2, by omega⟩
  have h0 : 0 < n + 2 := by omega
  have h1 : 1 < n + 2 := by omega
  simp only [leesedwards_distance.put_atom_in_box_inplace, leesedwards_distance.members,
    meta_leesedwards_image_inplace_apply, hd, h0, h1, if_true]

theorem leesedwards_put_atom_in_box_apply (ndim : Nat) (h2 : 2 ≤ ndim) (box : Array)
    (dx : ℚ) (xnew x : Buf) (d : Nat) (hd : d < ndim) :
    (leesedwards_distance.members ndim box dx).put_atom_in_box xnew x d =
      if d = 0 then
        (leesedwards_image_values_xnew (x 0) (x 1) (1 / box.data 0) (box.data 0)
          (1 / box.data 1) (box.data 1) dx).1
      else if d = 1 then
        (leesedwards_image_values_xnew (x 0) (x 1) (1 / box.data 0) (box.data 0)
          (1 / box.data 1) (box.data 1) dx).2
      else image_value (x d) (1 / box.data d) (box.data d) := by
  obtain ⟨n, rfl⟩ : ∃ n, ndim = n + 2 := ⟨ndim - 2, by omega⟩
  have h0 : 0 < n + 2 := by omega
  have h1 : 1 < n + 2 := by omega
  simp only [leesedwards_distance.put_atom_in_box, leesedwards_distance.members,
    meta_leesedwards_image_apply, hd, h0, h1, if_true]

/-! ## C14 -/

theorem round_fast_zero : round_fast 0 = 0 := by
  have hr : roundHalfEven (0 : ℚ) = 0 :=
    roundHalfEven_eq_of_near _ _ (by norm_num) (by norm_num)
  rw [round_fast_of_fits _ (by rw [hr]; decide), hr]
  norm_num

theorem round_fast_int_of_fits (z : ℤ) (h : FitsInt32 z) : round_fast (z : ℚ) = (z : ℚ) := by
  have hr : roundHalfEven (z : ℚ) = z :=
    roundHalfEven_eq_of_near _ _ (by rw [sub_self]; norm_num) (by rw [sub_self]; norm_num)
  rw [round_fast_of_fits _ (by rw [hr]; exact h), hr]

theorem round_fast_four : round_fast 4 = 4 := by
  have h := round_fast_int_of_fits 4 (by decide)
  norm_num at h
  exact h

theorem round_fast_neg_two : round_fast (-2) = -2 := by
  have h := round_fast_int_of_fits (-2) (by decide)
  norm_num at h
  exact h

theorem leesedwards_construct_half_shear :
    leesedwards_distance.construct 2 (Array.ofList [10, 10]) (1 / 2)
      = Except.ok (leesedwards_distance.members 2 (Array.ofList [10, 10]) 5) := by
  have hdx : fmod (1 / 2) 1 * (Array.ofList [10, 10]).data 1 = 5 := by
    rw [fmod_one_of_mem_Ico _ (by norm_num) (by norm_num)]
    norm_num [Buf.ofList, Array.ofList]
  simp only [leesedwards_distance.construct, hdx]
  rfl

/-- The two-argument image of `(0, 40)` in the box `(10, 10)` with shear offset 5. -/
theorem leesedwards_image_values_xnew_example :
    leesedwards_image_values_xnew 0 40 (1 / 10) 10 (1 / 10) 10 5 = (-10, 0) := by
  simp only [leesedwards_image_values_xnew, corrected_pair, corrected]
  norm_num [round_fast_four, round_fast_zero]

/-- The in-place image of `(0, 40)` in the box `(10, 10)` with shear offset 5. -/
theorem leesedwards_image_values_example :
    leesedwards_image_values 0 40 (1 / 10) 10 (1 / 10) 10 5 = (0, 0) := by
  simp only [leesedwards_image_values, corrected_pair, corrected]
  norm_num [round_fast_four, round_fast_neg_two]

theorem leesedwards_put_atom_in_box_example (xnew : Buf) :
    (leesedwards_distance.members 2 (Array.ofList [10, 10]) 5).put_atom_in_box xnew
      (Buf.ofList [0, 40]) 0 = -10 := by
  rw [leesedwards_put_atom_in_box_apply 2 (le_refl 2) _ _ _ _ 0 (by decide)]
  have e0 : (Array.ofList [10, 10]).data 0 = 10 := rfl
  have e1 : (Array.ofList [10, 10]).data 1 = 10 := rfl
  have ea : (Buf.ofList [0, 40]) 0 = 0 := rfl
  have eb : (Buf.ofList [0, 40]) 1 = 40 := rfl
  rw [if_pos rfl, e0, e1, ea, eb, leesedwards_image_values_xnew_example]

theorem leesedwards_put_atom_in_box_inplace_example :
    (leesedwards_distance.members 2 (Array.ofList [10, 10]) 5).put_atom_in_box_inplace
      (Buf.ofList [0, 40]) 0 = 0 := by
  rw [leesedwards_put_atom_in_box_inplace_apply 2 (le_refl 2) _ _ _ 0 (by decide)]
  have e0 : (Array.ofList [10, 10]).data 0 = 10 := rfl
  have e1 : (Array.ofList [10, 10]).data 1 = 10 := rfl
  have ea : (Buf.ofList [0, 40]) 0 = 0 := rfl
  have eb : (Buf.ofList [0, 40]) 1 = 40 := rfl
  rw [if_pos rfl, e0, e1, ea, eb, leesedwards_image_values_example]

theorem leesedwards_put_atom_in_box_soa_example (xnew : Buf) :
    (leesedwards_distance.members 2 (Array.ofList [10, 10]) 5).put_atom_in_box_soa xnew
      (Buf.ofList [0, 7, 40, 7]) 2 0 = -10 := by
  have hs : Buf.strided (Buf.ofList [0, 7, 40, 7]) 2 0 = 0 := rfl
  have ht : Buf.strided (Buf.ofList [0, 7, 40, 7]) 2 1 = 40 := rfl
  simp only [leesedwards_distance.put_atom_in_box_soa, leesedwards_distance.members,
    meta_leesedwards_image_soa_eq]
  rw [meta_leesedwards_image_apply 0, if_pos rfl, hs, ht]
  have e : leesedwards_image_values_xnew 0 40
      ((fun i => if i < 2 then 1 / (Array.ofList [10, 10]).data i else 0) 0)
      ((fun i => if i < 2 then (Array.ofList [10, 10]).data i else 0) 0)
      ((fun i => if i < 2 then 1 / (Array.ofList [10, 10]).data i else 0) 1)
      ((fun i => if i < 2 then (Array.ofList [10, 10]).data i else 0) 1) 5
      = leesedwards_image_values_xnew 0 40 (1 / 10) 10 (1 / 10) 10 5 := rfl
  rw [e, leesedwards_image_values_xnew_example]

theorem leesedwards_put_atom_in_box_soa_inplace_example :
    (leesedwards_distance.members 2 (Array.ofList [10, 10]) 5).put_atom_in_box_soa_inplace
      (Buf.ofList [0, 7, 40, 7]) 2 0 = 0 := by
  have hs : (Buf.ofList [0, 7, 40, 7]) 0 = 0 := rfl
  have ht : (Buf.ofList [0, 7, 40, 7]) 2 = 40 := rfl
  simp only [leesedwards_distance.put_atom_in_box_soa_inplace, leesedwards_distance.members]
  rw [meta_leesedwards_image_soa_inplace_two _ _ _ _ 2 (by decide)]
  rw [Function.update_noteq (by decide), Function.update_same, hs, ht]
  have e : leesedwards_image_values 0 40
      ((fun i => if i < 2 then 1 / (Array.ofList [10, 10]).data i else 0) 0)
      ((fun i => if i < 2 then (Array.ofList [10, 10]).data i else 0) 0)
      ((fun i => if i < 2 then 1 / (Array.ofList [10, 10]).data i else 0) 1)
      ((fun i => if i < 2 then (Array.ofList [10, 10]).data i else 0) 1) 5
      = leesedwards_image_values 0 40 (1 / 10) 10 (1 / 10) 10 5 := rfl
  rw [e, leesedwards_image_values_example]

/-- C16 (the code at the failing input): box `(10, 10)`, all lengths positive, shear
`0.5` (so `dx = 5`), `x = (0, 40)`: the two-argument `put_atom_in_box` and the
two-argument `put_atom_in_box_soa` (two particles, dimension-major) write `-10` into
`xnew[0]`, below `-L[0]/2 = -5`: the shear fold moves the flow coordinate to `-20`, but
the periodic fold rounds the original `x[0] = 0`. -/
theorem C16_leesedwards_put_atom_in_box_leaves_box :
    leesedwards_distance.construct 2 (Array.ofList [10, 10]) (1 / 2)
        = Except.ok (leesedwards_distance.members 2 (Array.ofList [10, 10]) 5) ∧
      (∀ d, d < 2 → 0 < (Array.ofList [10, 10]).data d) ∧
      (leesedwards_distance.members 2 (Array.ofList [10, 10]) 5).put_atom_in_box
          (fun _ => 0) (Buf.ofList [0, 40]) 0 = -10 ∧
      (leesedwards_distance.members 2 (Array.ofList [10, 10]) 5).put_atom_in_box_soa
          (fun _ => 0) (Buf.ofList [0, 7, 40, 7]) 2 0 = -10 ∧
      ¬ (-((Array.ofList [10, 10]).data 0 / 2)
          ≤ (leesedwards_distance.members 2 (Array.ofList [10, 10]) 5).put_atom_in_box
              (fun _ => 0) (Buf.ofList [0, 40]) 0) ∧
      ¬ (-((Array.ofList [10, 10]).data 0 / 2)
          ≤ (leesedwards_distance.members 2 (Array.ofList [10, 10]) 5).put_atom_in_box_soa
              (fun _ => 0) (Buf.ofList [0, 7, 40, 7]) 2 0) := by
  have e0 : (Array.ofList [10, 10]).data 0 = 10 := rfl
  refine ⟨leesedwards_construct_half_shear, ?_, leesedwards_put_atom_in_box_example _,
    leesedwards_put_atom_in_box_soa_example _, ?_, ?_⟩
  · intro d hd
    interval_cases d <;> norm_num [Buf.ofList, Array.ofList]
  · rw [leesedwards_put_atom_in_box_example, e0]
    norm_num
  · rw [leesedwards_put_atom_in_box_soa_example, e0]
    norm_num

/-- C17 (the code at the failing input): box `(10, 10)`, shear `0.5` (so `dx = 5`),
`x = (0, 40)`: the two-argument `put_atom_in_box` writes `-10` into `xnew[0]` while the
in-place `put_atom_in_box` leaves `0` in `x[0]`; likewise the two-argument
`put_atom_in_box_soa` writes `-10` while the in-place `put_atom_in_box_soa` leaves `0`
(two particles, dimension-major). -/
theorem C17_leesedwards_put_atom_in_box_forms_differ :
    leesedwards_distance.construct 2 (Array.ofList [10, 10]) (1 / 2)
        = Except.ok (leesedwards_distance.members 2 (Array.ofList [10, 10]) 5) ∧
      (leesedwards_distance.members 2 (Array.ofList [10, 10]) 5).put_atom_in_box
          (fun _ => 0) (Buf.ofList [0, 40]) 0
        ≠ (leesedwards_distance.members 2 (Array.ofList [10, 10]) 5).put_atom_in_box_inplace
          (Buf.ofList [0, 40]) 0 ∧
      (leesedwards_distance.members 2 (Array.ofList [10, 10]) 5).put_atom_in_box_inplace
          (Buf.ofList [0, 40]) 0 = 0 ∧
      (leesedwards_distance.members 2 (Array.ofList [10, 10]) 5).put_atom_in_box_soa
          (fun _ => 0) (Buf.ofList [0, 7, 40, 7]) 2 0
        ≠ (leesedwards_distance.members 2 (Array.ofList [10, 10])
            5).put_atom_in_box_soa_inplace (Buf.ofList [0, 7, 40, 7]) 2 0 ∧
      (leesedwards_distance.members 2 (Array.ofList [10, 10]) 5).put_atom_in_box_soa_inplace
          (Buf.ofList [0, 7, 40, 7]) 2 0 = 0 := by
  refine ⟨leesedwards_construct_half_shear, ?_, leesedwards_put_atom_in_box_inplace_example,
    ?_, leesedwards_put_atom_in_box_soa_inplace_example⟩
  · rw [leesedwards_put_atom_in_box_example, leesedwards_put_atom_in_box_inplace_example]
    norm_num
  · rw [leesedwards_put_atom_in_box_soa_example,
      leesedwards_put_atom_in_box_soa_inplace_example]
    norm_num

/-! ## C18 -/

/-- What the code computes where the test `LeesEdwards_Shear` selects a candidate: for a
box with `ndim >= 2` entries whose first two sides are `L` and a shear `0 <= s < 1`, with
`D = r1 - r2`, whenever the rounded ratios of `D[1] / L` (call it `n`) and of
`(D[0] - n * s * L) / L` fit a signed 32-bit int and neither ratio is an exact
half-integer, the first two components of the Lees-Edwards `get_rij(r1, r2)` are always
the shifted candidate `(sx, D[1] - n * L)`, `sx = D[0] - n * s * L` folded periodically by
`L`, whatever the norms; this is the candidate of smaller squared norm only when the
shifted candidate's squared norm is strictly smaller than the unshifted one's or
`n = 0`. -/
theorem leesedwards_get_rij_is_shifted_candidate (ndim : Nat) (h2 : 2 ≤ ndim)
    (box : Array) (L s : ℚ) (ld : leesedwards_distance)
    (hld : leesedwards_distance.construct ndim box s = Except.ok ld)
    (hb0 : box.data 0 = L) (hb1 : box.data 1 = L) (hs0 : 0 ≤ s) (hs1 : s < 1)
    (r_ij r1 r2 : Buf)
    (hfit1 : FitsInt32 (roundHalfEven ((r1 1 - r2 1) / L)))
    (hfit0 : FitsInt32 (roundHalfEven
      ((r1 0 - r2 0 - (roundHalfEven ((r1 1 - r2 1) / L) : ℚ) * s * L) / L)))
    (ht1 : (r1 1 - r2 1) / L - (⌊(r1 1 - r2 1) / L⌋ : ℤ) ≠ 1 / 2)
    (ht0 : (r1 0 - r2 0 - (roundHalfEven ((r1 1 - r2 1) / L) : ℚ) * s * L) / L
      - (⌊(r1 0 - r2 0 - (roundHalfEven ((r1 1 - r2 1) / L) : ℚ) * s * L) / L⌋ : ℤ)
        ≠ 1 / 2) :
    (ld.get_rij r_ij r1 r2 0, ld.get_rij r_ij r1 r2 1)
        = reference_shifted (r1 0 - r2 0) (r1 1 - r2 1) L s ∧
      ((reference_norm (reference_shifted (r1 0 - r2 0) (r1 1 - r2 1) L s)
            < reference_norm (reference_unshifted (r1 0 - r2 0) (r1 1 - r2 1) L) ∨
          round ((r1 1 - r2 1) / L) = 0) →
        (ld.get_rij r_ij r1 r2 0, ld.get_rij r_ij r1 r2 1)
          = reference_choice (r1 0 - r2 0) (r1 1 - r2 1) L s) := by
  obtain ⟨_, rfl⟩ := leesedwards_construct_ok hld
  have hdx : fmod s 1 * box.data 1 = s * L := by rw [fmod_one_of_mem_Ico s hs0 hs1, hb1]
  have ha : (roundHalfEven ((r1 1 - r2 1) / L) : ℚ) * (s * L)
      = (roundHalfEven ((r1 1 - r2 1) / L) : ℚ) * s * L := by ring
  rw [hdx]
  have e1 := leesedwards_get_rij_apply ndim h2 box (s * L) r_ij r1 r2 1 (by omega)
  have e0 := leesedwards_get_rij_apply ndim h2 box (s * L) r_ij r1 r2 0 (by omega)
  simp only [one_ne_zero, if_false, if_true, hb1, round_fast_of_fits _ hfit1] at e1
  simp only [if_true, hb0, hb1, round_fast_of_fits _ hfit1, ha,
    round_fast_of_fits _ hfit0] at e0
  have q1 := roundHalfEven_eq_round _ ht1
  have q0 := roundHalfEven_eq_round _ ht0
  have hfirst : ((leesedwards_distance.members ndim box (s * L)).get_rij r_ij r1 r2 0,
      (leesedwards_distance.members ndim box (s * L)).get_rij r_ij r1 r2 1)
      = reference_shifted (r1 0 - r2 0) (r1 1 - r2 1) L s := by
    rw [e0, e1]
    simp only [reference_shifted, reference_fold]
    rw [← q1, ← q0]
  refine ⟨hfirst, ?_⟩
  intro h
  rw [hfirst]
  rcases h with hlt | hz
  · simp only [reference_choice, hlt, if_true]
  · have hsame : reference_shifted (r1 0 - r2 0) (r1 1 - r2 1) L s
        = reference_unshifted (r1 0 - r2 0) (r1 1 - r2 1) L := by
      simp only [reference_shifted, reference_unshifted, hz, zero_mul, sub_zero]
    simp only [reference_choice, hsame, ite_self]

/-- Box `(10, 10)`, shear `0.1`, `r1 = (3.7, 6.5)`, `r2 = (0, 0)`: the shifted candidate
`(2.7, -3.5)` has the strictly smaller squared norm, and `get_rij` returns the candidate
of smaller squared norm. -/
theorem leesedwards_get_rij_is_shifted_candidate_example :
    ((leesedwards_distance.members 2 (Array.ofList [10, 10]) 1).get_rij (fun _ => 0)
          (Buf.ofList [37 / 10, 13 / 2]) (Buf.ofList [0, 0]) 0,
        (leesedwards_distance.members 2 (Array.ofList [10, 10]) 1).get_rij (fun _ => 0)
          (Buf.ofList [37 / 10, 13 / 2]) (Buf.ofList [0, 0]) 1)
      = reference_choice ((Buf.ofList [37 / 10, 13 / 2]) 0 - (Buf.ofList [0, 0]) 0)
          ((Buf.ofList [37 / 10, 13 / 2]) 1 - (Buf.ofList [0, 0]) 1) 10 (1 / 10) := by
  have hdx : fmod (1 / 10) 1 * (Array.ofList [10, 10]).data 1 = 1 := by
    rw [fmod_one_of_mem_Ico _ (by norm_num) (by norm_num)]
    norm_num [Buf.ofList, Array.ofList]
  have hc : leesedwards_distance.construct 2 (Array.ofList [10, 10]) (1 / 10)
      = Except.ok (leesedwards_distance.members 2 (Array.ofList [10, 10]) 1) := by
    simp only [leesedwards_distance.construct, hdx]
    rfl
  have ea : (Buf.ofList [37 / 10, 13 / 2]) 0 - (Buf.ofList [0, 0]) 0 = 37 / 10 := by
    norm_num [Buf.ofList]
  have eb : (Buf.ofList [37 / 10, 13 / 2]) 1 - (Buf.ofList [0, 0]) 1 = 13 / 2 := by
    norm_num [Buf.ofList]
  have r1 : roundHalfEven ((13 / 2 : ℚ) / 10) = 1 :=
    roundHalfEven_eq_of_near _ _ (by norm_num) (by norm_num)
  have r2 : roundHalfEven ((37 / 10 - ((1 : ℤ) : ℚ) * (1 / 10) * 10 : ℚ) / 10) = 0 :=
    roundHalfEven_eq_of_near _ _ (by norm_num) (by norm_num)
  have f1 : ⌊(13 / 2 : ℚ) / 10⌋ = 0 := by
    rw [Int.floor_eq_iff]; constructor <;> norm_num
  have f2 : ⌊(37 / 10 - ((1 : ℤ) : ℚ) * (1 / 10) * 10 : ℚ) / 10⌋ = 0 := by
    rw [Int.floor_eq_iff]; constructor <;> norm_num
  have fa : ⌊(13 / 2 : ℚ) / 10 + 1 / 2⌋ = 1 := by
    rw [Int.floor_eq_iff]; constructor <;> norm_num
  have fb : ⌈((37 / 10 : ℚ) - 1 * (1 / 10) * 10) / 10 - 1 / 2⌉ = 0 := by
    rw [Int.ceil_eq_iff]; constructor <;> norm_num
  have fb' : ⌊((37 / 10 : ℚ) - 1 * (1 / 10) * 10) / 10 + 1 / 2⌋ = 0 := by
    rw [Int.floor_eq_iff]; constructor <;> norm_num
  have fc : ⌊(37 / 10 : ℚ) / 10 + 1 / 2⌋ = 0 := by
    rw [Int.floor_eq_iff]; constructor <;> norm_num
  have hround1 : round ((13 / 2 : ℚ) / 10) = 1 := by
    unfold round
    rw [if_pos (by norm_num), fa]
    norm_num
  have hround2 : round (((37 / 10 : ℚ) - 1 * (1 / 10) * 10) / 10) = 0 := by
    unfold round
    rw [if_pos (by norm_num), fb']
    norm_num
  have hround3 : round ((37 / 10 : ℚ) / 10) = 0 := by
    unfold round
    rw [if_pos (by norm_num), fc]
    norm_num
  refine (leesedwards_get_rij_is_shifted_candidate 2 (le_refl 2) (Array.ofList [10, 10])
    10 (1 / 10) (leesedwards_distance.members 2 (Array.ofList [10, 10]) 1) hc rfl rfl
    (by norm_num) (by norm_num) (fun _ => 0) (Buf.ofList [37 / 10, 13 / 2])
    (Buf.ofList [0, 0]) (by rw [eb, r1]; decide) (by rw [ea, eb, r1, r2]; decide)
    (by rw [eb, f1]; norm_num) (by rw [ea, eb, r1, f2]; norm_num)).2 (Or.inl ?_)
  rw [ea, eb]
  simp only [reference_norm, reference_shifted, reference_unshifted, reference_fold,
    hround1, hround2, hround3]
  norm_num

/-- C18 (the code at the failing input): box `(10, 10)`, shear `0.4` (so `dx = 4`),
`r1 = (1, 6.5)`, `r2 = (1, 1)`, coordinates and shear as the test `LeesEdwards_Shear`
draws them, `D = (0, 5.5)`: `get_rij` returns the shifted candidate `(-4, -4.5)` of
squared norm `36.25`, while the candidate of smaller squared norm, which the test
asserts, is the unshifted `(0, 5.5)` of squared norm `30.25`. -/
theorem C18_leesedwards_get_rij_not_smaller_norm_candidate :
    leesedwards_distance.construct 2 (Array.ofList [10, 10]) (2 / 5)
        = Except.ok (leesedwards_distance.members 2 (Array.ofList [10, 10]) 4) ∧
      (leesedwards_distance.members 2 (Array.ofList [10, 10]) 4).get_rij (fun _ => 0)
          (Buf.ofList [1, 13 / 2]) (Buf.ofList [1, 1]) 0 = -4 ∧
      (leesedwards_distance.members 2 (Array.ofList [10, 10]) 4).get_rij (fun _ => 0)
          (Buf.ofList [1, 13 / 2]) (Buf.ofList [1, 1]) 1 = -9 / 2 ∧
      reference_shifted ((Buf.ofList [1, 13 / 2]) 0 - (Buf.ofList [1, 1]) 0)
          ((Buf.ofList [1, 13 / 2]) 1 - (Buf.ofList [1, 1]) 1) 10 (2 / 5) = (-4, -9 / 2) ∧
      reference_unshifted ((Buf.ofList [1, 13 / 2]) 0 - (Buf.ofList [1, 1]) 0)
          ((Buf.ofList [1, 13 / 2]) 1 - (Buf.ofList [1, 1]) 1) 10 = (0, 11 / 2) ∧
      reference_norm (-4, -9 / 2) = 145 / 4 ∧ reference_norm (0, 11 / 2) = 121 / 4 ∧
      reference_choice ((Buf.ofList [1, 13 / 2]) 0 - (Buf.ofList [1, 1]) 0)
          ((Buf.ofList [1, 13 / 2]) 1 - (Buf.ofList [1, 1]) 1) 10 (2 / 5) = (0, 11 / 2) := by
  have hdx : fmod (2 / 5) 1 * (Array.ofList [10, 10]).data 1 = 4 := by
    rw [fmod_one_of_mem_Ico _ (by norm_num) (by norm_num)]
    norm_num [Buf.ofList, Array.ofList]
  have hc : leesedwards_distance.construct 2 (Array.ofList [10, 10]) (2 / 5)
      = Except.ok (leesedwards_distance.members 2 (Array.ofList [10, 10]) 4) := by
    simp only [leesedwards_distance.construct, hdx]
    rfl
  have e0 : (Array.ofList [10, 10]).data 0 = 10 := rfl
  have e1 : (Array.ofList [10, 10]).data 1 = 10 := rfl
  have ea : (Buf.ofList [1, 13 / 2]) 0 - (Buf.ofList [1, 1]) 0 = 0 := by
    norm_num [Buf.ofList]
  have eb : (Buf.ofList [1, 13 / 2]) 1 - (Buf.ofList [1, 1]) 1 = 11 / 2 := by
    norm_num [Buf.ofList]
  have r1 : roundHalfEven ((11 / 2 : ℚ) / 10) = 1 :=
    roundHalfEven_eq_of_near _ _ (by norm_num) (by norm_num)
  have r2 : roundHalfEven ((0 - ((1 : ℤ) : ℚ) * 4 : ℚ) / 10) = 0 :=
    roundHalfEven_eq_of_near _ _ (by norm_num) (by norm_num)
  have fa : ⌊(11 / 2 : ℚ) / 10 + 1 / 2⌋ = 1 := by
    rw [Int.floor_eq_iff]; constructor <;> norm_num
  have fb : ⌈((0 : ℚ) - 1 * (2 / 5) * 10) / 10 - 1 / 2⌉ = 0 := by
    rw [Int.ceil_eq_iff]; constructor <;> norm_num
  have fc : ⌈(0 : ℚ) / 10 - 1 / 2⌉ = 0 := by
    rw [Int.ceil_eq_iff]; constructor <;> norm_num
  have hround1 : round ((11 / 2 : ℚ) / 10) = 1 := by
    unfold round
    rw [if_pos (by norm_num), fa]
    norm_num
  have hround2 : round (((0 : ℚ) - 1 * (2 / 5) * 10) / 10) = 0 := by
    unfold round
    rw [if_neg (by norm_num), fb]
    norm_num
  have hround3 : round ((0 : ℚ) / 10) = 0 := by
    unfold round
    rw [if_neg (by norm_num), fc]
    norm_num
  refine ⟨hc, ?_, ?_, ?_, ?_, ?_, ?_, ?_⟩
  · rw [leesedwards_get_rij_apply 2 (le_refl 2) _ _ _ _ _ 0 (by decide), if_pos rfl, e0, e1,
      ea, eb, round_fast_of_fits _ (by rw [r1]; decide), r1,
      round_fast_of_fits _ (by rw [r2]; decide), r2]
    norm_num
  · rw [leesedwards_get_rij_apply 2 (le_refl 2) _ _ _ _ _ 1 (by decide), if_neg (by decide),
      if_pos rfl, e1, eb, round_fast_of_fits _ (by rw [r1]; decide), r1]
    norm_num
  · rw [ea, eb]
    simp only [reference_shifted, reference_fold, hround1, hround2]
    norm_num
  · rw [ea, eb]
    simp only [reference_unshifted, reference_fold, hround3]
    norm_num
  · norm_num [reference_norm]
  · norm_num [reference_norm]
  · rw [ea, eb]
    simp only [reference_choice, reference_norm, reference_shifted, reference_unshifted,
      reference_fold, hround1, hround2, hround3]
    norm_num

/-! ## C20 -/

/-- The divisibility test of the source, `m_ndim * natoms != x.size()` with
`natoms = x.size() / m_ndim`. -/
theorem mul_div_ne_iff (D n : Nat) : D * (n / D) ≠ n ↔ ¬ D ∣ n := by
  rw [Nat.dvd_iff_div_mul_eq, Nat.mul_comm]

/-- C22 (the code at the failing input): the cartesian policy in two dimensions.
`get_energy_gradient` with `x` of length 3 throws the divisibility error, and with `x`
of length 4 and `grad` of length 3 throws the gradient-size error;
`get_energy_gradient_hessian` with `x` and `grad` of length 4 and `hess` of length 3
throws the Hessian-size error. In each case the caller's buffers, which held `7`
(gradient) and `5` (Hessian), hold `0` after the call: `assign(0)` runs before the size
checks of `add_energy_gradient` and `add_energy_gradient_hessian`. -/
theorem C22_buffers_zeroed_before_size_checks :
    (((linear_potential 2).get_energy_gradient (Array.ofList [0, 1, 3])
          (Array.ofList [7, 7, 7])).1
        = Except.error
          (error.runtime_error ("x.size() is not divisible by the number of dimensions")) ∧
      (Array.ofList [7, 7, 7]).data 0 = 7 ∧
      ((linear_potential 2).get_energy_gradient (Array.ofList [0, 1, 3])
          (Array.ofList [7, 7, 7])).2.data 0 = 0) ∧
    (((linear_potential 2).get_energy_gradient (Array.ofList [0, 0, 1, 0])
          (Array.ofList [7, 7, 7])).1
        = Except.error (error.runtime_error ("grad must have the same size as x")) ∧
      ((linear_potential 2).get_energy_gradient (Array.ofList [0, 0, 1, 0])
          (Array.ofList [7, 7, 7])).2.data 0 = 0) ∧
    (((linear_potential 2).get_energy_gradient_hessian (Array.ofList [0, 0, 1, 0])
          (Array.ofList [7, 7, 7, 7]) (Array.ofList [5, 5, 5])).1
        = Except.error (error.invalid_argument ("the Hessian has the wrong size")) ∧
      (Array.ofList [5, 5, 5]).data 0 = 5 ∧
      ((linear_potential 2).get_energy_gradient_hessian (Array.ofList [0, 0, 1, 0])
          (Array.ofList [7, 7, 7, 7]) (Array.ofList [5, 5, 5])).2.1.data 0 = 0 ∧
      ((linear_potential 2).get_energy_gradient_hessian (Array.ofList [0, 0, 1, 0])
          (Array.ofList [7, 7, 7, 7]) (Array.ofList [5, 5, 5])).2.2.data 0 = 0) :=
  ⟨⟨rfl, rfl, rfl⟩, ⟨rfl, rfl⟩, ⟨rfl, rfl, rfl, rfl⟩⟩

/-! ## C26 -/

/-- C26: constructing a periodic or a Lees-Edwards policy (any shear) from a box vector
succeeds iff the box vector has exactly `ndim` entries, and throws an invalid-argument
error iff it has not; the default construction of either policy always throws. -/
theorem C26_policy_construction (ndim : Nat) (box : Array) (shear : ℚ) :
    ((∃ pd, periodic_distance.construct ndim box = Except.ok pd) ↔ box.size = ndim) ∧
      ((∃ msg, periodic_distance.construct ndim box
          = Except.error (error.invalid_argument msg)) ↔ box.size ≠ ndim) ∧
      ((∃ ld, leesedwards_distance.construct ndim box shear = Except.ok ld)
        ↔ box.size = ndim) ∧
      ((∃ msg, leesedwards_distance.construct ndim box shear
          = Except.error (error.invalid_argument msg)) ↔ box.size ≠ ndim) ∧
      (∃ err, periodic_distance.construct_default ndim = Except.error err) ∧
      (∃ err, leesedwards_distance.construct_default ndim = Except.error err) := by
  refine ⟨?_, ?_, ?_, ?_, ⟨_, rfl⟩, ⟨_, rfl⟩⟩
  · unfold periodic_distance.construct
    split_ifs with h
    · constructor
      · rintro ⟨pd, he⟩
        cases he
      · intro hc
        exact absurd hc h
    · exact ⟨fun _ => not_not.mp h, fun _ => ⟨_, rfl⟩⟩
  · unfold periodic_distance.construct
    split_ifs with h
    · exact ⟨fun _ => h, fun _ => ⟨_, rfl⟩⟩
    · constructor
      · rintro ⟨msg, he⟩
        cases he
      · intro hc
        exact absurd hc h
  · unfold leesedwards_distance.construct
    simp only
    split_ifs with h
    · constructor
      · rintro ⟨ld, he⟩
        cases he
      · intro hc
        exact absurd hc h
    · exact ⟨fun _ => not_not.mp h, fun _ => ⟨_, rfl⟩⟩
  · unfold leesedwards_distance.construct
    simp only
    split_ifs with h
    · exact ⟨fun _ => h, fun _ => ⟨_, rfl⟩⟩
    · constructor
      · rintro ⟨msg, he⟩
        cases he
      · intro hc
        exact absurd hc h

/-! ## C27 -/

/-- For a shear strain outside the open interval `(-1, 0)`, `fmod(g + 1, 1)` is
`fmod(g, 1)`. -/
theorem fmod_add_one (g : ℚ) (h : 0 ≤ g ∨ g ≤ -1) : fmod (g + 1) 1 = fmod g 1 := by
  unfold fmod
  simp only [div_one, mul_one]
  rcases h with h | h
  · have h1 : (0 : ℚ) ≤ g + 1 := by linarith
    rw [if_pos h1, if_pos h, Int.floor_add_one]
    push_cast
    ring
  · have hneg : ¬ (0 : ℚ) ≤ g := by intro hc; linarith
    rw [if_neg hneg]
    by_cases h1 : (0 : ℚ) ≤ g + 1
    · have hg : g = -1 := by linarith
      subst hg
      rw [if_pos h1]
      have c : ⌈(-1 : ℚ)⌉ = -1 := by
        rw [Int.ceil_eq_iff]; constructor <;> norm_num
      have f : ⌊(-1 + 1 : ℚ)⌋ = 0 := by
        rw [Int.floor_eq_iff]; constructor <;> norm_num
      rw [c, f]
      norm_num
    · rw [if_neg h1, Int.ceil_add_one]
      push_cast
      ring

/-- C27 (amended): for every shear strain `g` with `g >= 0` or `g <= -1`, every `ndim`
and every box, the Lees-Edwards policies constructed with `g` and with `g + 1` hold the
same shear offset `dx = fmod(g, 1) * box[1]` (`fmod` truncates toward zero, so its
result has the sign of `g`), are equal as a whole, and therefore give identical
`get_rij` and `put_atom_in_box` results. -/
theorem C27_shear_offset_periodic_in_shear (g : ℚ) (h : 0 ≤ g ∨ g ≤ -1) (ndim : Nat)
    (box : Array) (ld ld' : leesedwards_distance)
    (hld : leesedwards_distance.construct ndim box g = Except.ok ld)
    (hld' : leesedwards_distance.construct ndim box (g + 1) = Except.ok ld') :
    ld.m_dx = fmod g 1 * box.data 1 ∧ ld'.m_dx = ld.m_dx ∧ ld' = ld ∧
      (∀ r_ij r1 r2 : Buf, ld'.get_rij r_ij r1 r2 = ld.get_rij r_ij r1 r2) ∧
      (∀ xnew x : Buf, ld'.put_atom_in_box xnew x = ld.put_atom_in_box xnew x) ∧
      (∀ x : Buf, ld'.put_atom_in_box_inplace x = ld.put_atom_in_box_inplace x) := by
  obtain ⟨_, rfl⟩ := leesedwards_construct_ok hld
  obtain ⟨_, rfl⟩ := leesedwards_construct_ok hld'
  have e : leesedwards_distance.members ndim box (fmod (g + 1) 1 * box.data 1)
      = leesedwards_distance.members ndim box (fmod g 1 * box.data 1) := by
    rw [fmod_add_one g h]
  refine ⟨rfl, ?_, e, ?_, ?_, ?_⟩
  · rw [e]
  · intro r_ij r1 r2
    rw [e]
  · intro xnew x
    rw [e]
  · intro x
    rw [e]

/-- C27 witness: box `(10, 10)`, shear strains `0.1` and `1.1`: both policies hold
`dx = 1`. -/
theorem C27_shear_offset_periodic_in_shear_witness :
    (leesedwards_distance.members 2 (Array.ofList [10, 10])
        (fmod (1 / 10 + 1) 1 * (Array.ofList [10, 10]).data 1)).m_dx
      = (leesedwards_distance.members 2 (Array.ofList [10, 10])
        (fmod (1 / 10) 1 * (Array.ofList [10, 10]).data 1)).m_dx ∧
    (leesedwards_distance.members 2 (Array.ofList [10, 10])
        (fmod (1 / 10) 1 * (Array.ofList [10, 10]).data 1)).m_dx = 1 := by
  have h := C27_shear_offset_periodic_in_shear (1 / 10) (Or.inl (by norm_num)) 2
    (Array.ofList [10, 10])
    (leesedwards_distance.members 2 (Array.ofList [10, 10])
      (fmod (1 / 10) 1 * (Array.ofList [10, 10]).data 1))
    (leesedwards_distance.members 2 (Array.ofList [10, 10])
      (fmod (1 / 10 + 1) 1 * (Array.ofList [10, 10]).data 1)) rfl rfl
  refine ⟨h.2.1, ?_⟩
  rw [h.1, fmod_one_of_mem_Ico _ (by norm_num) (by norm_num)]
  norm_num [Buf.ofList, Array.ofList]

/-- C27 counterexample: box `(10, 5)`, shear strains `g = -0.3` and `g + 1 = 0.7`: the
policies hold `dx = -1.5` and `dx = 3.5`, and `get_rij((0, 3), (0, 0))` has first
component `1.5` for the one and `-3.5` for the other. -/
theorem C27_shear_offset_counterexample :
    leesedwards_distance.construct 2 (Array.ofList [10, 5]) (-3 / 10)
        = Except.ok (leesedwards_distance.members 2 (Array.ofList [10, 5]) (-3 / 2)) ∧
      leesedwards_distance.construct 2 (Array.ofList [10, 5]) (-3 / 10 + 1)
        = Except.ok (leesedwards_distance.members 2 (Array.ofList [10, 5]) (7 / 2)) ∧
      (leesedwards_distance.members 2 (Array.ofList [10, 5]) (-3 / 2)).get_rij (fun _ => 0)
        (Buf.ofList [0, 3]) (Buf.ofList [0, 0]) 0 = 3 / 2 ∧
      (leesedwards_distance.members 2 (Array.ofList [10, 5]) (7 / 2)).get_rij (fun _ => 0)
        (Buf.ofList [0, 3]) (Buf.ofList [0, 0]) 0 = -7 / 2 := by
  have c1 : ⌈(-3 / 10 : ℚ)⌉ = 0 := by
    rw [Int.ceil_eq_iff]; constructor <;> norm_num
  have f1 : fmod (-3 / 10) 1 = -3 / 10 := by
    unfold fmod
    simp only [div_one, mul_one]
    rw [if_neg (by norm_num), c1]
    norm_num
  have f2 : fmod (-3 / 10 + 1) 1 = 7 / 10 := by
    rw [fmod_one_of_mem_Ico _ (by norm_num) (by norm_num)]
    norm_num
  have e1 : (Array.ofList [10, 5]).data 1 = 5 := rfl
  have e0 : (Array.ofList [10, 5]).data 0 = 10 := rfl
  have d1 : fmod (-3 / 10) 1 * (Array.ofList [10, 5]).data 1 = -3 / 2 := by
    rw [f1, e1]; norm_num
  have d2 : fmod (-3 / 10 + 1) 1 * (Array.ofList [10, 5]).data 1 = 7 / 2 := by
    rw [f2, e1]; norm_num
  have ea : (Buf.ofList [0, 3]) 0 - (Buf.ofList [0, 0]) 0 = 0 := by norm_num [Buf.ofList]
  have eb : (Buf.ofList [0, 3]) 1 - (Buf.ofList [0, 0]) 1 = 3 := by norm_num [Buf.ofList]
  have r1 : roundHalfEven ((3 : ℚ) / 5) = 1 :=
    roundHalfEven_eq_of_near _ _ (by norm_num) (by norm_num)
  have r2 : roundHalfEven ((0 - ((1 : ℤ) : ℚ) * (-3 / 2) : ℚ) / 10) = 0 :=
    roundHalfEven_eq_of_near _ _ (by norm_num) (by norm_num)
  have r3 : roundHalfEven ((0 - ((1 : ℤ) : ℚ) * (7 / 2) : ℚ) / 10) = 0 :=
    roundHalfEven_eq_of_near _ _ (by norm_num) (by norm_num)
  refine ⟨?_, ?_, ?_, ?_⟩
  · simp only [leesedwards_distance.construct, d1]
    rfl
  · simp only [leesedwards_distance.construct, d2]
    rfl
  · rw [leesedwards_get_rij_apply 2 (le_refl 2) _ _ _ _ _ 0 (by decide), if_pos rfl, e0, e1,
      ea, eb, round_fast_of_fits _ (by rw [r1]; decide), r1,
      round_fast_of_fits _ (by rw [r2]; decide), r2]
    norm_num
  · rw [leesedwards_get_rij_apply 2 (le_refl 2) _ _ _ _ _ 0 (by decide), if_pos rfl, e0, e1,
      ea, eb, round_fast_of_fits _ (by rw [r1]; decide), r1,
      round_fast_of_fits _ (by rw [r3]; decide), r3]
    norm_num

/-! ## C28 -/

/-- C28 (amended): a successfully constructed periodic or Lees-Edwards policy holds, in
every dimension `d < ndim`, the box length it was given and its reciprocal; the
construction does not validate the components, so the box lengths held are all strictly
positive exactly when those of the box vector are. -/
theorem C28_policy_holds_box_as_given (ndim : Nat) (box : Array) (shear : ℚ)
    (pd : periodic_distance) (ld : leesedwards_distance)
    (hpd : periodic_distance.construct ndim box = Except.ok pd)
    (hld : leesedwards_distance.construct ndim box shear = Except.ok ld) :
    (∀ d, d < ndim → pd._box d = box.data d ∧ pd._ibox d = 1 / box.data d) ∧
      (∀ d, d < ndim → ld.m_box d = box.data d ∧ ld.m_ibox d = 1 / box.data d) ∧
      ((∀ d, d < ndim → 0 < pd._box d) ↔ ∀ d, d < ndim → 0 < box.data d) ∧
      ((∀ d, d < ndim → 0 < ld.m_box d) ↔ ∀ d, d < ndim → 0 < box.data d) := by
  obtain ⟨_, rfl⟩ := periodic_construct_ok hpd
  obtain ⟨_, rfl⟩ := leesedwards_construct_ok hld
  have hp : ∀ d, d < ndim → (periodic_distance.members ndim box)._box d = box.data d ∧
      (periodic_distance.members ndim box)._ibox d = 1 / box.data d := by
    intro d hd
    simp only [periodic_distance.members, hd, if_true, and_self]
  have hl : ∀ d, d < ndim →
      (leesedwards_distance.members ndim box (fmod shear 1 * box.data 1)).m_box d
        = box.data d ∧
      (leesedwards_distance.members ndim box (fmod shear 1 * box.data 1)).m_ibox d
        = 1 / box.data d := by
    intro d hd
    simp only [leesedwards_distance.members, hd, if_true, and_self]
  refine ⟨hp, hl, ?_, ?_⟩
  · constructor
    · intro h d hd
      rw [← (hp d hd).1]
      exact h d hd
    · intro h d hd
      rw [(hp d hd).1]
      exact h d hd
  · constructor
    · intro h d hd
      rw [← (hl d hd).1]
      exact h d hd
    · intro h d hd
      rw [(hl d hd).1]
      exact h d hd

/-- C28 witness: the policies constructed from the box `(10, 10)` hold the length `10`
in dimension 0. -/
theorem C28_policy_holds_box_as_given_witness :
    (periodic_distance.members 2 (Array.ofList [10, 10]))._box 0
        = (Array.ofList [10, 10]).data 0 ∧
      (leesedwards_distance.members 2 (Array.ofList [10, 10])
        (fmod 0 1 * (Array.ofList [10, 10]).data 1)).m_box 0
        = (Array.ofList [10, 10]).data 0 :=
  ⟨((C28_policy_holds_box_as_given 2 (Array.ofList [10, 10]) 0
      (periodic_distance.members 2 (Array.ofList [10, 10]))
      (leesedwards_distance.members 2 (Array.ofList [10, 10])
        (fmod 0 1 * (Array.ofList [10, 10]).data 1)) rfl rfl).1 0 (by decide)).1,
   ((C28_policy_holds_box_as_given 2 (Array.ofList [10, 10]) 0
      (periodic_distance.members 2 (Array.ofList [10, 10]))
      (leesedwards_distance.members 2 (Array.ofList [10, 10])
        (fmod 0 1 * (Array.ofList [10, 10]).data 1)) rfl rfl).2.1 0 (by decide)).1⟩

/-- C28 counterexample: the box vector `(0, -1)` is accepted by both constructors; the
policies hold the box lengths `0` and `-1`. -/
theorem C28_nonpositive_box_counterexample :
    periodic_distance.construct 2 (Array.ofList [0, -1])
        = Except.ok (periodic_distance.members 2 (Array.ofList [0, -1])) ∧
      (periodic_distance.members 2 (Array.ofList [0, -1]))._box 0 = 0 ∧
      (periodic_distance.members 2 (Array.ofList [0, -1]))._box 1 = -1 ∧
      leesedwards_distance.construct 2 (Array.ofList [0, -1]) 0
        = Except.ok (leesedwards_distance.members 2 (Array.ofList [0, -1])
            (fmod 0 1 * (Array.ofList [0, -1]).data 1)) ∧
      (leesedwards_distance.members 2 (Array.ofList [0, -1])
        (fmod 0 1 * (Array.ofList [0, -1]).data 1)).m_box 0 = 0 ∧
      (leesedwards_distance.members 2 (Array.ofList [0, -1])
        (fmod 0 1 * (Array.ofList [0, -1]).data 1)).m_box 1 = -1 := by
  refine ⟨rfl, ?_, ?_, rfl, ?_, ?_⟩ <;>
    norm_num [periodic_distance.members, leesedwards_distance.members, Array.ofList,
      Buf.ofList]

/-! ## C29 -/

theorem image_value_eq_corrected (v ib b : ℚ) :
    image_value v ib b = corrected (fold_value v ib b) b := rfl

/-- The boundary correction for a positive box length: one shift when the value is
strictly beyond the half box, none on the edge or inside. -/
theorem corrected_cases (y L : ℚ) (hL : 0 < L) :
    (L / 2 < y → corrected y L = y - L) ∧ (y < -(L / 2) → corrected y L = y + L) ∧
      (-(L / 2) ≤ y → y ≤ L / 2 → corrected y L = y) := by
  refine ⟨?_, ?_, fun lo hi => corrected_of_range y L lo hi⟩
  · intro h
    unfold corrected
    simp only
    have a : y > 1 / 2 * L := by linarith
    have b : ¬ (y - L < -(1 / 2 * L)) := by intro hc; linarith
    simp only [a, if_true, b, if_false]
  · intro h
    unfold corrected
    simp only
    have a : ¬ (y > 1 / 2 * L) := by intro hc; linarith
    have b : y < -(1 / 2 * L) := by linarith
    simp only [a, if_false, b, if_true]

/-- C29 (amended): for the periodic policy built from a box `L` with `ndim` entries and
every `d < ndim` with `L[d] > 0`, let `y` be the value the rounding fold
`x[d] - round_fast(x[d] / L[d]) * L[d]` leaves. Both forms of `put_atom_in_box` apply one
further shift of one box length toward the interior exactly when `y` is strictly beyond
the half-box edge (`y - L[d]` when `y > L[d]/2`, `y + L[d]` when `y < -L[d]/2`); when
`y` is on the edge or inside (`-L[d]/2 <= y <= L[d]/2`) the coordinate is left at `y`. -/
theorem C29_periodic_boundary_correction (ndim : Nat) (box : Array)
    (pd : periodic_distance) (hpd : periodic_distance.construct ndim box = Except.ok pd)
    (xnew x : Buf) (d : Nat) (hd : d < ndim) (hL : 0 < box.data d) :
    pd.put_atom_in_box xnew x d = pd.put_atom_in_box_inplace x d ∧
      (box.data d / 2 < fold_value (x d) (1 / box.data d) (box.data d) →
        pd.put_atom_in_box_inplace x d
          = fold_value (x d) (1 / box.data d) (box.data d) - box.data d) ∧
      (fold_value (x d) (1 / box.data d) (box.data d) < -(box.data d / 2) →
        pd.put_atom_in_box_inplace x d
          = fold_value (x d) (1 / box.data d) (box.data d) + box.data d) ∧
      (-(box.data d / 2) ≤ fold_value (x d) (1 / box.data d) (box.data d) →
        fold_value (x d) (1 / box.data d) (box.data d) ≤ box.data d / 2 →
        pd.put_atom_in_box_inplace x d
          = fold_value (x d) (1 / box.data d) (box.data d)) := by
  obtain ⟨_, rfl⟩ := periodic_construct_ok hpd
  rw [periodic_put_atom_in_box_apply ndim box xnew x d hd,
    periodic_put_atom_in_box_inplace_apply ndim box x d hd, image_value_eq_corrected]
  exact ⟨rfl, corrected_cases _ _ hL⟩

/-- C29 witness: box `(1)`, `x = (2 ^ 32)`: the rounding fold leaves `2 ^ 32`, strictly
beyond the upper edge, and the in-place image is `2 ^ 32 - 1`. -/
theorem C29_periodic_boundary_correction_witness :
    (periodic_distance.members 1 (Array.ofList [1])).put_atom_in_box_inplace
        (Buf.ofList [4294967296]) 0
      = fold_value ((Buf.ofList [4294967296]) 0) (1 / (Array.ofList [1]).data 0)
          ((Array.ofList [1]).data 0) - (Array.ofList [1]).data 0 := by
  refine (C29_periodic_boundary_correction 1 (Array.ofList [1])
    (periodic_distance.members 1 (Array.ofList [1])) rfl (fun _ => 0)
    (Buf.ofList [4294967296]) 0 (by decide) ?_).2.1 ?_
  · norm_num [Buf.ofList, Array.ofList]
  · norm_num [fold_value, Buf.ofList, Array.ofList, round_fast_two_pow_32]

/-- C29 counterexample: box `(2)`, `x = (1)`: the rounding fold leaves `1`, exactly on
the upper half-box edge `L/2 = 1`, and `put_atom_in_box` leaves the coordinate at `1`:
no shift by one box length is applied (the claim would give `1 - 2 = -1`). -/
theorem C29_periodic_edge_counterexample :
    periodic_distance.construct 1 (Array.ofList [2])
        = Except.ok (periodic_distance.members 1 (Array.ofList [2])) ∧
      fold_value ((Buf.ofList [1]) 0) (1 / (Array.ofList [2]).data 0)
          ((Array.ofList [2]).data 0) = (Array.ofList [2]).data 0 / 2 ∧
      (periodic_distance.members 1 (Array.ofList [2])).put_atom_in_box_inplace
          (Buf.ofList [1]) 0 = 1 ∧
      (periodic_distance.members 1 (Array.ofList [2])).put_atom_in_box (fun _ => 0)
          (Buf.ofList [1]) 0 = 1 := by
  have f : ⌊(1 / 2 : ℚ)⌋ = 0 := by
    rw [Int.floor_eq_iff]; constructor <;> norm_num
  have hr : roundHalfEven (1 / 2 : ℚ) = 0 := by
    unfold roundHalfEven
    rw [f]
    norm_num
  have hrf : round_fast (1 / 2) = 0 := by
    rw [round_fast_of_fits _ (by rw [hr]; decide), hr]
    norm_num
  have hy : fold_value ((Buf.ofList [1]) 0) (1 / (Array.ofList [2]).data 0)
      ((Array.ofList [2]).data 0) = 1 := by
    norm_num [fold_value, Buf.ofList, Array.ofList, hrf]
  refine ⟨rfl, ?_, ?_, ?_⟩
  · rw [hy]
    norm_num [Buf.ofList, Array.ofList]
  · rw [periodic_put_atom_in_box_inplace_apply _ _ _ _ (by decide), image_value_eq_corrected,
      hy]
    norm_num [corrected, Buf.ofList, Array.ofList]
  · rw [periodic_put_atom_in_box_apply _ _ _ _ _ (by decide), image_value_eq_corrected, hy]
    norm_num [corrected, Buf.ofList, Array.ofList]

/-! ## C30 -/

/-- Two components: the second pair loop starts from the buffers the first one left. -/
theorem combined_two_eq (p1 p2 : SimplePairwisePotential) (x grad hess : Array) (N : Nat)
    (soa : Bool) (hD1 : 0 < p1.m_ndim) (hD2 : 0 < p2.m_ndim)
    (hx1 : x.size = N * p1.m_ndim) (hx2 : x.size = N * p2.m_ndim)
    (hg : grad.size = x.size) (hh : hess.size = x.size * x.size) :
    (CombinedPotential.mk [p1, p2]).get_energy_gradient_hessian x grad hess soa =
      (Except.ok (0 + (∑ i in Finset.range N, ∑ j in Finset.range i, p1.eh_ij x N i j)
          + ∑ i in Finset.range N, ∑ j in Finset.range i, p2.eh_ij x N i j),
        ⟨grad.size, pair_loop N (p2.grad_step x N)
          (pair_loop N (p1.grad_step x N) (grad.assign 0).data)⟩,
        ⟨hess.size, pair_loop N (p2.hess_step x (N * p2.m_ndim) N)
          (pair_loop N (p1.hess_step x (N * p1.m_ndim) N) (hess.assign 0).data)⟩) := by
  have hg' : ¬ (x.size ≠ grad.size) := by simp [hg]
  have hh' : ¬ (hess.size ≠ x.size * x.size) := by simp [hh]
  have s1 := add_energy_gradient_hessian_eq p1 x (grad.assign 0) (hess.assign 0) N hD1 hx1
    (by simpa [Array.assign] using hg) (by simpa [Array.assign] using hh)
  have s2 := add_energy_gradient_hessian_eq p2 x
    ⟨(grad.assign 0).size, pair_loop N (p1.grad_step x N) (grad.assign 0).data⟩
    ⟨(hess.assign 0).size,
      pair_loop N (p1.hess_step x (N * p1.m_ndim) N) (hess.assign 0).data⟩ N hD2 hx2
    (by simpa [Array.assign] using hg) (by simpa [Array.assign] using hh)
  simp only [CombinedPotential.get_energy_gradient_hessian, hg', hh', if_false,
    List.foldl_cons, List.foldl_nil, s1, s2]
  rfl

/-- C30 (the code at the failing input): two copies of the engine with gradient
magnitude `g = 1` and Hessian scalar `h = 2` (cartesian, one dimension, particle-major),
`x = (0, 1)`. The combined call returns the energy `2`, the sum of the component
energies, and the same-particle entry `H[0][0]` (position 0) holds `4`, the sum of the
components' entries `2 + 2`; but the cross-particle entries `H[1][0]` (position 2) and
`H[0][1]` (position 1) hold `-2`, the value one component alone produces, where the
entry-wise sum of the two components is `-4`. -/
theorem C30_combined_hessian_cross_blocks_overwritten :
    ((CombinedPotential.mk [quadratic_potential 1 false,
          quadratic_potential 1 false]).get_energy_gradient_hessian (Array.ofList [0, 1])
          (Array.ofList [0, 0]) ⟨4, fun _ => 0⟩ false).1 = Except.ok 2 ∧
      ((quadratic_potential 1 false).get_energy_gradient_hessian (Array.ofList [0, 1])
          (Array.ofList [0, 0]) ⟨4, fun _ => 0⟩).2.2.data 0 = 2 ∧
      ((quadratic_potential 1 false).get_energy_gradient_hessian (Array.ofList [0, 1])
          (Array.ofList [0, 0]) ⟨4, fun _ => 0⟩).2.2.data 2 = -2 ∧
      ((quadratic_potential 1 false).get_energy_gradient_hessian (Array.ofList [0, 1])
          (Array.ofList [0, 0]) ⟨4, fun _ => 0⟩).2.2.data 1 = -2 ∧
      ((CombinedPotential.mk [quadratic_potential 1 false,
          quadratic_potential 1 false]).get_energy_gradient_hessian (Array.ofList [0, 1])
          (Array.ofList [0, 0]) ⟨4, fun _ => 0⟩ false).2.2.data 0 = 4 ∧
      ((CombinedPotential.mk [quadratic_potential 1 false,
          quadratic_potential 1 false]).get_energy_gradient_hessian (Array.ofList [0, 1])
          (Array.ofList [0, 0]) ⟨4, fun _ => 0⟩ false).2.2.data 2 = -2 ∧
      ((CombinedPotential.mk [quadratic_potential 1 false,
          quadratic_potential 1 false]).get_energy_gradient_hessian (Array.ofList [0, 1])
          (Array.ofList [0, 0]) ⟨4, fun _ => 0⟩ false).2.2.data 1 = -2 := by
  have hD : 0 < (quadratic_potential 1 false).m_ndim := by decide
  have hx : (Array.ofList [0, 1]).size = 2 * (quadratic_potential 1 false).m_ndim := rfl
  have hg : (Array.ofList [0, 0]).size = (Array.ofList [0, 1]).size := rfl
  have hh : (⟨4, fun _ => 0⟩ : Array).size
      = (Array.ofList [0, 1]).size * (Array.ofList [0, 1]).size := rfl
  have hc := combined_two_eq (quadratic_potential 1 false) (quadratic_potential 1 false)
    (Array.ofList [0, 1]) (Array.ofList [0, 0]) ⟨4, fun _ => 0⟩ 2 false hD hD hx hx hg hh
  have hs := get_energy_gradient_hessian_eq (quadratic_potential 1 false)
    (Array.ofList [0, 1]) (Array.ofList [0, 0]) ⟨4, fun _ => 0⟩ 2 hD hx hg hh
  have hhij : (quadratic_potential 1 false).h_ij (Array.ofList [0, 1]) 2 1 0 ≠ 0 := by
    simp [SimplePairwisePotential.h_ij, quadratic_potential, quadratic_interaction]
  have hpt : (quadratic_potential 1 false).pair_term (Array.ofList [0, 1]) 2 1 0 0 0 = 2 := by
    simp only [SimplePairwisePotential.pair_term, hess_term, SimplePairwisePotential.gh_ij,
      SimplePairwisePotential.h_ij, SimplePairwisePotential.r2_ij,
      SimplePairwisePotential.r_ij, SimplePairwisePotential.particle,
      SimplePairwisePotential.index, SimplePairwisePotential.m_ndim, distance_policy._ndim,
      distance_policy.get_rij, cartesian_distance.get_rij, meta_dist_apply,
      quadratic_potential, quadratic_interaction, Array.ofList, Buf.ofList,
      Finset.sum_range_succ, Finset.sum_range_zero]
    norm_num
  have hwt : (quadratic_potential 1 false).written_term (Array.ofList [0, 1]) 2 1 0 0 0 = 2 := by
    rw [SimplePairwisePotential.written_term, if_pos hhij, hpt]
  have heh : (quadratic_potential 1 false).eh_ij (Array.ofList [0, 1]) 2 1 0 = 1 := by
    simp only [SimplePairwisePotential.eh_ij, SimplePairwisePotential.r2_ij,
      SimplePairwisePotential.r_ij, SimplePairwisePotential.particle,
      SimplePairwisePotential.index, SimplePairwisePotential.m_ndim, distance_policy._ndim,
      distance_policy.get_rij, cartesian_distance.get_rij, meta_dist_apply,
      quadratic_potential, quadratic_interaction, Array.ofList, Buf.ofList,
      Finset.sum_range_succ, Finset.sum_range_zero]
    norm_num
  have i0 : (quadratic_potential 1 false).index 2 0 0 = 0 := rfl
  have i1 : (quadratic_potential 1 false).index 2 1 0 = 1 := rfl
  have m1 : (quadratic_potential 1 false).m_ndim = 1 := rfl
  have same := fun (H : Buf) => pair_loop_hess_same (quadratic_potential 1 false)
    (Array.ofList [0, 1]) 2 H 0 0 0 (by decide) (by decide) (by decide)
  have lower := fun (H : Buf) => pair_loop_hess_cross_lower (quadratic_potential 1 false)
    (Array.ofList [0, 1]) 2 H 1 0 0 0 (by decide) (by decide) (by decide) (by decide)
  have upper := fun (H : Buf) => pair_loop_hess_cross_upper (quadratic_potential 1 false)
    (Array.ofList [0, 1]) 2 H 1 0 0 0 (by decide) (by decide) (by decide) (by decide)
  simp only [i0, i1, m1, if_pos hhij, hpt, Finset.sum_range_succ, Finset.sum_range_zero,
    hwt] at same lower upper
  norm_num at same lower upper
  rw [hc, hs]
  refine ⟨?_, ?_, ?_, ?_, ?_, ?_, ?_⟩
  · simp only [Finset.sum_range_succ, Finset.sum_range_zero, heh]
    norm_num
  · simp only [m1]
    rw [same]
    norm_num [Array.assign]
  · simp only [m1]
    rw [lower]
  · simp only [m1]
    rw [upper]
  · simp only [m1]
    rw [same, same]
    norm_num [Array.assign]
  · simp only [m1]
    rw [lower]
  · simp only [m1]
    rw [upper]

/-! ## C25 -/

theorem get_neighbors_picky_error_iff (pot : SimplePairwisePotential) (coords : Array)
    (inds : ArrayT (List Nat)) (dists : ArrayT (List (List ℚ))) (inc : ArrayT ℤ)
    (cf : ℚ) :
    (∃ err, (pot.get_neighbors_picky coords inds dists inc cf).1 = Except.error err)
      ↔ ¬ pot.m_ndim ∣ coords.size ∨ coords.size / pot.m_ndim ≠ inc.size
        ∨ pot.m_radii.size = 0 := by
  rw [← mul_div_ne_iff]
  unfold SimplePairwisePotential.get_neighbors_picky
  simp only
  split_ifs with h1 h2 h3
  · exact ⟨fun _ => Or.inl h1, fun _ => ⟨_, rfl⟩⟩
  · exact ⟨fun _ => Or.inr (Or.inl h2), fun _ => ⟨_, rfl⟩⟩
  · exact ⟨fun _ => Or.inr (Or.inr h3), fun _ => ⟨_, rfl⟩⟩
  · constructor
    · rintro ⟨err, he⟩
      cases he
    · rintro (hc | hc | hc)
      · exact absurd hc h1
      · exact absurd hc h2
      · exact absurd hc h3

theorem get_neighbors_picky_error_outputs (pot : SimplePairwisePotential) (coords : Array)
    (inds : ArrayT (List Nat)) (dists : ArrayT (List (List ℚ))) (inc : ArrayT ℤ)
    (cf : ℚ)
    (h : ∃ err, (pot.get_neighbors_picky coords inds dists inc cf).1 = Except.error err) :
    (pot.get_neighbors_picky coords inds dists inc cf).2 = (inds, dists) := by
  obtain ⟨err, he⟩ := h
  unfold SimplePairwisePotential.get_neighbors_picky at he ⊢
  simp only at he ⊢
  split_ifs at he ⊢ with h1 h2 h3
  · rfl
  · rfl
  · rfl

theorem get_overlaps_error_iff (pot : SimplePairwisePotential) (coords : Array) :
    (∃ err, pot.get_overlaps coords = Except.error err)
      ↔ ¬ pot.m_ndim ∣ coords.size ∨ pot.m_radii.size = 0 := by
  rw [← mul_div_ne_iff]
  unfold SimplePairwisePotential.get_overlaps
  simp only
  split_ifs with h1 h2
  · exact ⟨fun _ => Or.inl h1, fun _ => ⟨_, rfl⟩⟩
  · exact ⟨fun _ => Or.inr h2, fun _ => ⟨_, rfl⟩⟩
  · constructor
    · rintro ⟨err, he⟩
      cases he
    · rintro (hc | hc)
      · exact absurd hc h1
      · exact absurd hc h2

/-- C25: when no radii are configured (`m_radii` is empty), `get_neighbors`,
`get_neighbors_picky` and `get_overlaps` throw for every input;
`get_neighbors_picky` throws exactly when `|coords|` is not divisible by `D`, or the
length of the include mask differs from the particle count, or no radii are configured;
and whenever `get_neighbors_picky` throws, the caller's neighbor-index and
neighbor-displacement arrays are as they were before the call. -/
theorem C25_radius_queries_errors (pot : SimplePairwisePotential) (coords : Array)
    (inds : ArrayT (List Nat)) (dists : ArrayT (List (List ℚ))) (inc : ArrayT ℤ)
    (cf : ℚ) :
    (pot.m_radii.size = 0 →
        (∃ err, (pot.get_neighbors coords inds dists cf).1 = Except.error err) ∧
        (∃ err, (pot.get_neighbors_picky coords inds dists inc cf).1 = Except.error err) ∧
        (∃ err, pot.get_overlaps coords = Except.error err)) ∧
      ((∃ err, (pot.get_neighbors_picky coords inds dists inc cf).1 = Except.error err)
        ↔ ¬ pot.m_ndim ∣ coords.size ∨ coords.size / pot.m_ndim ≠ inc.size
          ∨ pot.m_radii.size = 0) ∧
      ((∃ err, (pot.get_neighbors_picky coords inds dists inc cf).1 = Except.error err) →
        (pot.get_neighbors_picky coords inds dists inc cf).2 = (inds, dists)) := by
  refine ⟨fun hr => ⟨?_, ?_, ?_⟩, get_neighbors_picky_error_iff pot coords inds dists inc cf,
    get_neighbors_picky_error_outputs pot coords inds dists inc cf⟩
  · exact (get_neighbors_picky_error_iff pot coords inds dists _ cf).mpr (Or.inr (Or.inr hr))
  · exact (get_neighbors_picky_error_iff pot coords inds dists inc cf).mpr
      (Or.inr (Or.inr hr))
  · exact (get_overlaps_error_iff pot coords).mpr (Or.inr hr)

/-- C25 witness: an engine without radii: `get_overlaps` throws, and
`get_neighbors_picky` leaves the caller's arrays as they were. -/
theorem C25_radius_queries_errors_witness :
    (∃ err, (linear_potential 1).get_overlaps (Array.ofList [0, 1, 3])
        = Except.error err) ∧
      ((linear_potential 1).get_neighbors_picky (Array.ofList [0, 1, 3])
          ⟨1, fun _ => [5]⟩ ⟨1, fun _ => [[7]]⟩ ⟨3, fun _ => 1⟩ 1).2
        = (⟨1, fun _ => [5]⟩, ⟨1, fun _ => [[7]]⟩) :=
  ⟨((C25_radius_queries_errors (linear_potential 1) (Array.ofList [0, 1, 3])
      ⟨1, fun _ => [5]⟩ ⟨1, fun _ => [[7]]⟩ ⟨3, fun _ => 1⟩ 1).1 rfl).2.2,
   (C25_radius_queries_errors (linear_potential 1) (Array.ofList [0, 1, 3])
      ⟨1, fun _ => [5]⟩ ⟨1, fun _ => [[7]]⟩ ⟨3, fun _ => 1⟩ 1).2.2
      ((C25_radius_queries_errors (linear_potential 1) (Array.ofList [0, 1, 3])
        ⟨1, fun _ => [5]⟩ ⟨1, fun _ => [[7]]⟩ ⟨3, fun _ => 1⟩ 1).1 rfl).2.1⟩

/-! ## The pair loop over a list -/

theorem foldl_append_flatMap {α : Type} (c : Nat → List α) (m : Nat) (l0 : List α) :
    (List.range m).foldl (fun l j => l ++ c j) l0 = l0 ++ (List.range m).flatMap c := by
  induction m with
  | zero => simp
  | succ m ih =>
    rw [List.range_succ, List.foldl_append, List.flatMap_append]
    simp only [List.foldl_cons, List.foldl_nil, List.flatMap_singleton, ih,
      List.append_assoc]

theorem pair_loop_list {α : Type} (c : Nat → Nat → List α) (n : Nat) (init : List α) :
    pair_loop n (fun l i j => l ++ c i j) init
      = init ++ (List.range n).flatMap (fun i => (List.range i).flatMap (c i)) := by
  induction n with
  | zero => simp [pair_loop_zero]
  | succ n ih =>
    rw [pair_loop_succ, ih, foldl_append_flatMap, List.range_succ, List.flatMap_append]
    simp only [List.flatMap_singleton, List.append_assoc]

theorem mem_ordered_pairs (n i j : Nat) : (i, j) ∈ ordered_pairs n ↔ j < i ∧ i < n := by
  simp only [ordered_pairs, List.mem_flatMap, List.mem_map, List.mem_range, Prod.mk.injEq]
  constructor
  · rintro ⟨a, ha, b, hb, rfl, rfl⟩
    exact ⟨hb, ha⟩
  · rintro ⟨h1, h2⟩
    exact ⟨i, h2, j, h1, rfl, rfl⟩

theorem ordered_pairs_sorted (n : Nat) : (ordered_pairs n).Pairwise pair_before := by
  unfold ordered_pairs
  rw [List.pairwise_flatMap]
  constructor
  · intro i _
    rw [List.pairwise_map]
    exact List.Pairwise.imp (fun h => Or.inr ⟨rfl, h⟩) (List.pairwise_lt_range i)
  · refine List.Pairwise.imp ?_ (List.pairwise_lt_range n)
    intro a b hab x hx y hy
    simp only [List.mem_map, List.mem_range] at hx hy
    obtain ⟨_, _, rfl⟩ := hx
    obtain ⟨_, _, rfl⟩ := hy
    exact Or.inl hab

theorem pair_before_irrefl (p q : Nat × Nat) (h : pair_before p q) : p ≠ q := by
  rintro rfl
  rcases h with h | ⟨_, h⟩ <;> exact absurd h (Nat.lt_irrefl _)

/-- The flat list written by a loop over the pairs is the list of the selected pairs,
flattened. -/
theorem flatMap_pairs_filter (ov : Nat × Nat → Bool) (n : Nat) :
    (List.range n).flatMap
        (fun i => (List.range i).flatMap (fun j => if ov (i, j) then [i, j] else []))
      = ((ordered_pairs n).filter ov).flatMap (fun p => [p.1, p.2]) := by
  have inner : ∀ (i : Nat) (l : List Nat),
      l.flatMap (fun j => if ov (i, j) then [i, j] else [])
        = ((l.map (fun j => (i, j))).filter ov).flatMap (fun p => [p.1, p.2]) := by
    intro i l
    induction l with
    | nil => rfl
    | cons a l ih =>
      rw [List.flatMap_cons, List.map_cons, ih]
      by_cases h : ov (i, a) = true
      · rw [List.filter_cons_of_pos h, List.flatMap_cons]
        simp only [h, if_true]
      · rw [List.filter_cons_of_neg h]
        simp only [h]
        rfl
  unfold ordered_pairs
  rw [List.filter_flatMap, List.flatMap_assoc]
  congr 1
  funext i
  exact inner i (List.range i)

theorem length_flatMap_pairs (l : List (Nat × Nat)) :
    (l.flatMap (fun p => [p.1, p.2])).length = 2 * l.length := by
  induction l with
  | nil => rfl
  | cons a l ih =>
    rw [List.flatMap_cons, List.length_append, ih, List.length_cons]
    simp only [List.length_cons, List.length_nil]
    omega

theorem get_overlaps_eq (pot : SimplePairwisePotential) (coords : Array)
    (hdiv : pot.m_ndim ∣ coords.size) (hr : pot.m_radii.size ≠ 0) :
    pot.get_overlaps coords = Except.ok
      (((ordered_pairs (coords.size / pot.m_ndim)).filter
          (fun p => decide (pot.pair_r2 (pot.query_dr coords p.1 p.2)
            ≤ pot.sum_radii p.1 p.2 * pot.sum_radii p.1 p.2))).flatMap
        (fun p => [p.1, p.2])) := by
  have h1 : ¬ (pot.m_ndim * (coords.size / pot.m_ndim) ≠ coords.size) := by
    rw [mul_div_ne_iff]
    exact not_not.mpr hdiv
  unfold SimplePairwisePotential.get_overlaps
  simp only [h1, hr, if_false]
  congr 1
  have e := pair_loop_list
    (fun i j => if pot.pair_r2 (pot.query_dr coords i j)
        ≤ pot.sum_radii i j * pot.sum_radii i j then [i, j] else [])
    (coords.size / pot.m_ndim) []
  rw [List.nil_append] at e
  rw [← flatMap_pairs_filter]
  simp only [decide_eq_true_eq]
  rw [← e]
  unfold pair_loop
  congr 1
  funext l i
  congr 1
  funext l j
  by_cases h : pot.pair_r2 (pot.query_dr coords i j) ≤ pot.sum_radii i j * pot.sum_radii i j
  · simp only [h, if_true, List.append_assoc, List.singleton_append]
  · simp only [h, if_false, List.append_nil]

/-! ## C24 -/

/-- C24: with radii configured, `|coords|` divisible by `D` and every combined radius
`R_ij = sum_radii(i, j) >= 0`, `get_overlaps(coords)` returns the flat list
`i0, j0, i1, j1, ...` of the pairs of a list `pairs`, hence of even length, where `pairs`
holds exactly the pairs `j < i < natoms` with `r2 <= R_ij^2` (for `R_ij >= 0` this says
that the separation `s`, the non-negative number with `s^2 = r2`, is at most `R_ij`),
each once, ordered by increasing `i` and then increasing `j`; `r2` is the squared norm
of the policy's `get_rij` on the particle-major slices of `coords`. -/
theorem C24_get_overlaps_lists_overlapping_pairs (pot : SimplePairwisePotential)
    (coords : Array) (hdiv : pot.m_ndim ∣ coords.size) (hr : pot.m_radii.size ≠ 0)
    (hR : ∀ i j, 0 ≤ pot.sum_radii i j) :
    ∃ pairs : List (Nat × Nat),
      pot.get_overlaps coords = Except.ok (pairs.flatMap (fun p => [p.1, p.2])) ∧
      (pairs.flatMap (fun p => [p.1, p.2])).length = 2 * pairs.length ∧
      (∀ i j, (i, j) ∈ pairs ↔
        j < i ∧ i < coords.size / pot.m_ndim ∧
          pot.pair_r2 (pot.query_dr coords i j) ≤ pot.sum_radii i j * pot.sum_radii i j) ∧
      pairs.Nodup ∧ pairs.Pairwise pair_before ∧
      (∀ i j (s : ℚ), 0 ≤ s → s * s = pot.pair_r2 (pot.query_dr coords i j) →
        (s ≤ pot.sum_radii i j ↔
          pot.pair_r2 (pot.query_dr coords i j)
            ≤ pot.sum_radii i j * pot.sum_radii i j)) := by
  have hsorted : ((ordered_pairs (coords.size / pot.m_ndim)).filter
      (fun p => decide (pot.pair_r2 (pot.query_dr coords p.1 p.2)
        ≤ pot.sum_radii p.1 p.2 * pot.sum_radii p.1 p.2))).Pairwise pair_before :=
    List.Pairwise.filter _ (ordered_pairs_sorted _)
  refine ⟨_, get_overlaps_eq pot coords hdiv hr, length_flatMap_pairs _, ?_, ?_, hsorted, ?_⟩
  · intro i j
    rw [List.mem_filter, mem_ordered_pairs, decide_eq_true_eq, and_assoc]
  · exact List.Pairwise.imp (fun h => pair_before_irrefl _ _ h) hsorted
  · intro i j s hs hsq
    rw [← hsq]
    have hRij := hR i j
    constructor
    · intro h
      exact mul_self_le_mul_self hs h
    · intro h
      by_contra hc
      push_neg at hc
      have := mul_self_lt_mul_self hRij hc
      linarith

/-- C24 witness: three particles at `0`, `1`, `3` on a line, all radii `1/2` (combined
radius `1`): only the pair `(1, 0)`, at separation `1`, overlaps. -/
theorem C24_get_overlaps_lists_overlapping_pairs_witness :
    (∃ pairs : List (Nat × Nat),
      (radii_potential 1 3 (1 / 2)).get_overlaps (Array.ofList [0, 1, 3])
        = Except.ok (pairs.flatMap (fun p => [p.1, p.2])) ∧
      (pairs.flatMap (fun p => [p.1, p.2])).length = 2 * pairs.length ∧
      (∀ i j, (i, j) ∈ pairs ↔
        j < i ∧ i < (Array.ofList [0, 1, 3]).size / (radii_potential 1 3 (1 / 2)).m_ndim ∧
          (radii_potential 1 3 (1 / 2)).pair_r2
              ((radii_potential 1 3 (1 / 2)).query_dr (Array.ofList [0, 1, 3]) i j)
            ≤ (radii_potential 1 3 (1 / 2)).sum_radii i j
              * (radii_potential 1 3 (1 / 2)).sum_radii i j) ∧
      pairs.Nodup ∧ pairs.Pairwise pair_before) ∧
    (radii_potential 1 3 (1 / 2)).get_overlaps (Array.ofList [0, 1, 3])
      = Except.ok [1, 0] := by
  obtain ⟨pairs, h1, h2, h3, h4, h5, _⟩ := C24_get_overlaps_lists_overlapping_pairs
    (radii_potential 1 3 (1 / 2)) (Array.ofList [0, 1, 3]) ⟨3, rfl⟩ (by decide)
    (by intro i j; norm_num [radii_potential])
  refine ⟨⟨pairs, h1, h2, h3, h4, h5⟩, ?_⟩
  rw [get_overlaps_eq _ _ ⟨3, rfl⟩ (by decide)]
  have hn : (Array.ofList [0, 1, 3]).size / (radii_potential 1 3 (1 / 2)).m_ndim = 3 := rfl
  have hp : ordered_pairs 3 = [(1, 0), (2, 0), (2, 1)] := by decide
  rw [hn, hp]
  simp only [List.filter, SimplePairwisePotential.pair_r2, SimplePairwisePotential.query_dr,
    SimplePairwisePotential.m_ndim, distance_policy._ndim, distance_policy.get_rij,
    cartesian_distance.get_rij, meta_dist_apply, radii_potential, Array.ofList, Buf.ofList,
    Buf.ptr, List.range_succ, List.range_zero, List.foldl_cons, List.foldl_nil,
    List.nil_append, List.foldl_append]
  norm_num

/-! ## The pair loop over an array of vectors -/

theorem push_back_apply {α : Type} (v : Nat → List α) (i : Nat) (a : α) (p : Nat) :
    push_back v i a p = if p = i then v i ++ [a] else v p := by
  unfold push_back
  exact Function.update_apply v i _ p

/-- One pass of the inner loop at outer index `n`: the vector of `n` receives `a n j` for
every selected `j`, the vector of a selected `p` below the bound receives `b n p`. -/
theorem push_inner_loop {α : Type} (cond : Nat → Nat → Prop)
    [∀ i j, Decidable (cond i j)] (a b : Nat → Nat → α) (n m : Nat) (hm : m ≤ n)
    (s : Nat → List α) (p : Nat) :
    (List.range m).foldl
        (fun s j =>
          if cond n j then push_back (push_back s n (a n j)) j (b n j) else s) s p
      = if p = n then
          s n ++ ((List.range m).filter (fun j => decide (cond n j))).map (a n)
        else s p ++ (if p < m ∧ cond n p then [b n p] else []) := by
  induction m generalizing p with
  | zero =>
    by_cases h1 : p = n
    · subst h1; simp
    · simp [h1]
  | succ m ih =>
    have hmn : m ≠ n := by omega
    have hstep : ∀ (S : Nat → List α) (q : Nat),
        push_back (push_back S n (a n m)) m (b n m) q
          = if q = m then S m ++ [b n m] else if q = n then S n ++ [a n m] else S q := by
      intro S q
      rw [push_back_apply, push_back_apply, push_back_apply, if_neg hmn]
    have hmm : ¬ (m < m ∧ cond n m) := fun h => Nat.lt_irrefl _ h.1
    rw [List.range_succ, List.foldl_append]
    simp only [List.foldl_cons, List.foldl_nil, List.filter_append, List.map_append]
    have ih' := ih (by omega)
    by_cases hc : cond n m
    · have hf : List.filter (fun j => decide (cond n j)) [m] = [m] := by
        simp [List.filter, hc]
      rw [if_pos hc, hstep, hf]
      by_cases h1 : p = n
      · have h2 : ¬ p = m := by omega
        have hnm : ¬ n = m := fun e => hmn e.symm
        simp only [h2, if_false, h1, if_true, ih', List.map_cons, List.map_nil,
          List.append_assoc, hnm]
      · by_cases h2 : p = m
        · subst h2
          simp only [if_true, ih', hmn, if_false, hmm, List.append_nil]
          rw [if_pos ⟨Nat.lt_succ_self _, hc⟩]
        · have e : (p < m + 1 ∧ cond n p) ↔ (p < m ∧ cond n p) := by
            constructor
            · rintro ⟨x, y⟩
              exact ⟨by omega, y⟩
            · rintro ⟨x, y⟩
              exact ⟨by omega, y⟩
          simp only [h1, h2, if_false, ih', e]
    · have hf : List.filter (fun j => decide (cond n j)) [m] = [] := by
        simp [List.filter, hc]
      rw [if_neg hc, ih', hf, List.map_nil, List.append_nil]
      by_cases h1 : p = n
      · simp only [h1, if_true]
      · have e : (p < m + 1 ∧ cond n p) ↔ (p < m ∧ cond n p) := by
          constructor
          · rintro ⟨x, y⟩
            have : p ≠ m := by
              rintro rfl
              exact hc y
            exact ⟨by omega, y⟩
          · rintro ⟨x, y⟩
            exact ⟨by omega, y⟩
        simp only [h1, if_false, e]

/-- After the pair loop the vector of particle `p` lists, by increasing index, every
other particle `q` selected with it: the value `a p q` for `q < p` and `b q p` for
`q > p`. -/
theorem pair_loop_push {α : Type} (cond : Nat → Nat → Prop)
    [∀ i j, Decidable (cond i j)] (a b : Nat → Nat → α) (n : Nat) (p : Nat) :
    pair_loop n
        (fun s i j =>
          if cond i j then push_back (push_back s i (a i j)) j (b i j) else s)
        (fun _ => []) p
      = if p < n then
          ((List.range n).filter
            (fun q => decide (q ≠ p ∧ if q < p then cond p q else cond q p))).map
            (fun q => if q < p then a p q else b q p)
        else [] := by
  induction n generalizing p with
  | zero => simp [pair_loop_zero]
  | succ n ih =>
    rw [pair_loop_succ, push_inner_loop cond a b n n (le_refl n)]
    by_cases h1 : p = n
    · subst h1
      rw [if_pos rfl, ih, if_neg (Nat.lt_irrefl _), if_pos (Nat.lt_succ_self _),
        List.nil_append, List.range_succ, List.filter_append, List.map_append]
      have e1 : List.filter (fun q => decide (q ≠ p ∧ if q < p then cond p q else cond q p))
          [p] = [] := by
        simp [List.filter]
      rw [e1, List.map_nil, List.append_nil]
      have e2 : List.filter (fun q => decide (q ≠ p ∧ if q < p then cond p q else cond q p))
          (List.range p) = List.filter (fun j => decide (cond p j)) (List.range p) := by
        apply List.filter_congr
        intro q hq
        rw [List.mem_range] at hq
        have : q ≠ p := by omega
        simp [hq, this]
      rw [e2]
      apply List.map_congr_left
      intro q hq
      have hq' := (List.mem_filter.mp hq).1
      rw [List.mem_range] at hq'
      simp [hq']
    · rw [if_neg h1, ih]
      by_cases h2 : p < n
      · have h3 : p < n + 1 := by omega
        have h4 : ¬ n < p := by omega
        have h5 : n ≠ p := by omega
        rw [if_pos h2, if_pos h3, List.range_succ, List.filter_append, List.map_append]
        congr 1
        by_cases hc : cond n p
        · simp [List.filter, h2, h4, h5, hc]
        · simp [List.filter, h4, hc]
      · have h3 : ¬ p < n + 1 := by omega
        rw [if_neg h2, if_neg h3]
        simp [h2]

theorem pair_loop_pair {σ τ : Type} (f : σ → Nat → Nat → σ) (g : τ → Nat → Nat → τ)
    (n : Nat) (init : σ × τ) :
    pair_loop n (fun st i j => (f st.1 i j, g st.2 i j)) init
      = (pair_loop n f init.1, pair_loop n g init.2) := by
  have inner : ∀ (i m : Nat) (st : σ × τ),
      (List.range m).foldl (fun st j => ((f st.1 i j, g st.2 i j) : σ × τ)) st
        = ((List.range m).foldl (fun x j => f x i j) st.1,
            (List.range m).foldl (fun y j => g y i j) st.2) := by
    intro i m st
    induction m with
    | zero => rfl
    | succ m ih =>
      simp only [List.range_succ, List.foldl_append, ih, List.foldl_cons, List.foldl_nil]
  induction n with
  | zero => rfl
  | succ n ih => rw [pair_loop_succ, pair_loop_succ, pair_loop_succ, ih, inner]

theorem foldl_const_state {σ : Type} (m : Nat) (st : σ) :
    (List.range m).foldl (fun st _ => st) st = st := by
  induction m with
  | zero => rfl
  | succ m ih => rw [List.range_succ, List.foldl_append, ih]; rfl

/-! ## Closed form of `get_neighbors_picky` -/

theorem get_neighbors_picky_eq (pot : SimplePairwisePotential) (coords : Array)
    (inds0 : ArrayT (List Nat)) (dists0 : ArrayT (List (List ℚ))) (inc : ArrayT ℤ)
    (cf : ℚ) (hdiv : pot.m_ndim ∣ coords.size)
    (hinc : inc.size = coords.size / pot.m_ndim) (hr : pot.m_radii.size ≠ 0) :
    pot.get_neighbors_picky coords inds0 dists0 inc cf =
      (Except.ok (),
        ⟨coords.size / pot.m_ndim,
          pair_loop (coords.size / pot.m_ndim)
            (fun s i j =>
              if pot.neighbors_cond coords inc cf i j then
                push_back (push_back s i j) j i else s)
            (fun _ => [])⟩,
        ⟨coords.size / pot.m_ndim,
          pair_loop (coords.size / pot.m_ndim)
            (fun s i j =>
              if pot.neighbors_cond coords inc cf i j then
                push_back (push_back s i (pot.neighbor_dr coords i j)) j
                  (pot.neighbor_neg_dr coords i j)
              else s)
            (fun _ => [])⟩) := by
  have h1 : ¬ (pot.m_ndim * (coords.size / pot.m_ndim) ≠ coords.size) := by
    rw [mul_div_ne_iff]
    exact not_not.mpr hdiv
  have h2 : ¬ (coords.size / pot.m_ndim ≠ inc.size) := by
    rw [hinc]
    exact fun h => h rfl
  have hloop : (List.range (coords.size / pot.m_ndim)).foldl
      (fun st atom_i =>
        if inc.data atom_i ≠ 0 then
          (List.range atom_i).foldl
            (fun st atom_j =>
              if inc.data atom_j ≠ 0 then
                pot.neighbors_pair coords ((1 + pot.m_radii_sca) * cf) st atom_i atom_j
              else st)
            st
        else st)
      (((fun _ => []), (fun _ => [])) : (Nat → List Nat) × (Nat → List (List ℚ)))
      = pair_loop (coords.size / pot.m_ndim)
          (fun st i j =>
            ((if pot.neighbors_cond coords inc cf i j then
                push_back (push_back st.1 i j) j i else st.1),
             (if pot.neighbors_cond coords inc cf i j then
                push_back (push_back st.2 i (pot.neighbor_dr coords i j)) j
                  (pot.neighbor_neg_dr coords i j)
              else st.2)))
          ((fun _ => []), (fun _ => [])) := by
    unfold pair_loop
    congr 1
    funext st i
    by_cases hi : inc.data i ≠ 0
    · rw [if_pos hi]
      congr 1
      funext st j
      by_cases hj : inc.data j ≠ 0
      · rw [if_pos hj]
        unfold SimplePairwisePotential.neighbors_pair
          SimplePairwisePotential.neighbors_cond
        simp only
        by_cases hc : pot.pair_r2 (pot.query_dr coords i j)
            ≤ ((1 + pot.m_radii_sca) * cf * pot.sum_radii i j)
              * ((1 + pot.m_radii_sca) * cf * pot.sum_radii i j)
        · simp only [hc, if_true, hi, hj, ne_eq, not_false_eq_true, and_self,
            SimplePairwisePotential.neighbor_dr, SimplePairwisePotential.neighbor_neg_dr]
        · simp only [hc, if_false, and_false]
      · rw [if_neg hj]
        have : ¬ pot.neighbors_cond coords inc cf i j := fun h => hj h.2.1
        simp only [this, if_false]
    · rw [if_neg hi]
      have e : (fun (st : (Nat → List Nat) × (Nat → List (List ℚ))) (j : Nat) =>
          (((if pot.neighbors_cond coords inc cf i j then
                push_back (push_back st.1 i j) j i else st.1),
             (if pot.neighbors_cond coords inc cf i j then
                push_back (push_back st.2 i (pot.neighbor_dr coords i j)) j
                  (pot.neighbor_neg_dr coords i j)
              else st.2)) : (Nat → List Nat) × (Nat → List (List ℚ))))
          = fun st _ => st := by
        funext st j
        have : ¬ pot.neighbors_cond coords inc cf i j := fun h => hi h.1
        simp only [this, if_false]
      rw [e, foldl_const_state]
  have hp := pair_loop_pair
    (fun (s : Nat → List Nat) i j =>
      if pot.neighbors_cond coords inc cf i j then push_back (push_back s i j) j i else s)
    (fun (s : Nat → List (List ℚ)) i j =>
      if pot.neighbors_cond coords inc cf i j then
        push_back (push_back s i (pot.neighbor_dr coords i j)) j
          (pot.neighbor_neg_dr coords i j)
      else s)
    (coords.size / pot.m_ndim) ((fun _ => []), (fun _ => []))
  simp only at hp
  unfold SimplePairwisePotential.get_neighbors_picky
  simp only [h1, h2, hr, if_false]
  rw [hloop, hp]

theorem neighbors_inds_closed (pot : SimplePairwisePotential) (coords : Array)
    (inc : ArrayT ℤ) (cf : ℚ) (n p : Nat) :
    pair_loop n
        (fun s i j =>
          if pot.neighbors_cond coords inc cf i j then push_back (push_back s i j) j i
          else s)
        (fun _ => []) p
      = if p < n then
          (List.range n).filter
            (fun q => decide (q ≠ p ∧
              if q < p then pot.neighbors_cond coords inc cf p q
              else pot.neighbors_cond coords inc cf q p))
        else [] := by
  rw [pair_loop_push (pot.neighbors_cond coords inc cf) (fun _ j => j) (fun i _ => i) n p]
  simp only [ite_self, List.map_id']

theorem neighbors_dists_closed (pot : SimplePairwisePotential) (coords : Array)
    (inc : ArrayT ℤ) (cf : ℚ) (n p : Nat) :
    pair_loop n
        (fun s i j =>
          if pot.neighbors_cond coords inc cf i j then
            push_back (push_back s i (pot.neighbor_dr coords i j)) j
              (pot.neighbor_neg_dr coords i j)
          else s)
        (fun _ => []) p
      = if p < n then
          ((List.range n).filter
            (fun q => decide (q ≠ p ∧
              if q < p then pot.neighbors_cond coords inc cf p q
              else pot.neighbors_cond coords inc cf q p))).map
            (fun q => if q < p then pot.neighbor_dr coords p q
              else pot.neighbor_neg_dr coords q p)
        else [] :=
  pair_loop_push (pot.neighbors_cond coords inc cf) (pot.neighbor_dr coords)
    (pot.neighbor_neg_dr coords) n p

theorem zip_map_self {α β : Type} (l : List α) (g : α → β) :
    l.zip (l.map g) = l.map (fun a => (a, g a)) := by
  induction l with
  | nil => rfl
  | cons a l ih => rw [List.map_cons, List.zip_cons_cons, ih, List.map_cons]

theorem neighbors_cond_iff (pot : SimplePairwisePotential) (coords : Array) (inc : ArrayT ℤ)
    (cf : ℚ) (i j : Nat) :
    pot.neighbors_cond coords inc cf i j ↔
      (inc.data i ≠ 0 ∧ inc.data j ≠ 0 ∧
        pot.pair_r2 (pot.query_dr coords i j)
          ≤ (cf * (1 + pot.m_radii_sca) * pot.sum_radii i j) ^ 2) := by
  have e : (cf * (1 + pot.m_radii_sca) * pot.sum_radii i j) ^ 2
      = ((1 + pot.m_radii_sca) * cf * pot.sum_radii i j)
        * ((1 + pot.m_radii_sca) * cf * pot.sum_radii i j) := by ring
  rw [e]
  rfl

theorem neighbor_neg_dr_eq (pot : SimplePairwisePotential) (coords : Array) (i j : Nat) :
    pot.neighbor_neg_dr coords i j = (pot.neighbor_dr coords i j).map (fun v => -v) := by
  simp only [SimplePairwisePotential.neighbor_neg_dr, SimplePairwisePotential.neighbor_dr,
    Buf.toVector, List.map_map]
  rfl

/-- The neighbor lists depend on the include mask only through the particles below the
particle count. -/
theorem get_neighbors_picky_congr (pot : SimplePairwisePotential) (coords : Array)
    (inds0 : ArrayT (List Nat)) (dists0 : ArrayT (List (List ℚ))) (inc inc' : ArrayT ℤ)
    (cf : ℚ) (hdiv : pot.m_ndim ∣ coords.size)
    (hinc : inc.size = coords.size / pot.m_ndim)
    (hinc' : inc'.size = coords.size / pot.m_ndim) (hr : pot.m_radii.size ≠ 0)
    (hsame : ∀ p, p < coords.size / pot.m_ndim → (inc.data p ≠ 0 ↔ inc'.data p ≠ 0)) :
    pot.get_neighbors_picky coords inds0 dists0 inc cf
      = pot.get_neighbors_picky coords inds0 dists0 inc' cf := by
  have hc : ∀ p q, p < coords.size / pot.m_ndim → q < coords.size / pot.m_ndim →
      (pot.neighbors_cond coords inc cf p q ↔ pot.neighbors_cond coords inc' cf p q) := by
    intro p q hp hq
    unfold SimplePairwisePotential.neighbors_cond
    rw [hsame p hp, hsame q hq]
  have hf : ∀ p, p < coords.size / pot.m_ndim →
      (List.range (coords.size / pot.m_ndim)).filter
          (fun q => decide (q ≠ p ∧
            if q < p then pot.neighbors_cond coords inc cf p q
            else pot.neighbors_cond coords inc cf q p))
        = (List.range (coords.size / pot.m_ndim)).filter
          (fun q => decide (q ≠ p ∧
            if q < p then pot.neighbors_cond coords inc' cf p q
            else pot.neighbors_cond coords inc' cf q p)) := by
    intro p hp
    apply List.filter_congr
    intro q hq
    rw [List.mem_range] at hq
    rw [decide_eq_decide]
    by_cases h : q < p
    · simp only [h, if_true, hc p q hp hq]
    · simp only [h, if_false, hc q p hq hp]
  rw [get_neighbors_picky_eq pot coords inds0 dists0 inc cf hdiv hinc hr,
    get_neighbors_picky_eq pot coords inds0 dists0 inc' cf hdiv hinc' hr]
  congr 2
  · congr 1
    funext p
    rw [neighbors_inds_closed, neighbors_inds_closed]
    by_cases hp : p < coords.size / pot.m_ndim
    · rw [if_pos hp, if_pos hp, hf p hp]
    · rw [if_neg hp, if_neg hp]
  · congr 1
    funext p
    rw [neighbors_dists_closed, neighbors_dists_closed]
    by_cases hp : p < coords.size / pot.m_ndim
    · rw [if_pos hp, if_pos hp, hf p hp]
    · rw [if_neg hp, if_neg hp]

/-! ## C23 -/

/-- C23: with radii configured, `|coords|` divisible by `D` and an include mask of one
entry per particle, `get_neighbors_picky(coords, include, cutoff_factor)` succeeds and
fills `neighbor_indss` and `neighbor_distss` (one vector per particle) so that for every
pair `j < i < natoms`: if both are included and
`r2 <= (cutoff_factor * (1 + radii_sca) * sum_radii(i, j))^2` then `j` is listed exactly
once as a neighbor of `i`, paired with the displacement `get_rij(x_i, x_j)`, and `i` is
listed exactly once as a neighbor of `j`, paired with the negated displacement; otherwise
neither is listed. No particle is its own neighbor, excluded particles have empty lists,
each index list is as long as its displacement list, and `get_neighbors` returns what
`get_neighbors_picky` returns for a mask that includes every particle. Here `x_i` is the
particle-major slice `coords[i * D ..]` and `r2` the squared norm of that displacement. -/
theorem C23_get_neighbors_picky_lists (pot : SimplePairwisePotential) (coords : Array)
    (inds0 : ArrayT (List Nat)) (dists0 : ArrayT (List (List ℚ))) (inc : ArrayT ℤ)
    (cf : ℚ) (hdiv : pot.m_ndim ∣ coords.size)
    (hinc : inc.size = coords.size / pot.m_ndim) (hr : pot.m_radii.size ≠ 0) :
    ∃ (inds : Nat → List Nat) (dists : Nat → List (List ℚ)),
      pot.get_neighbors_picky coords inds0 dists0 inc cf
        = (Except.ok (), ⟨coords.size / pot.m_ndim, inds⟩,
            ⟨coords.size / pot.m_ndim, dists⟩) ∧
      (∀ i j, j < i → i < coords.size / pot.m_ndim →
        ((inc.data i ≠ 0 ∧ inc.data j ≠ 0 ∧
            pot.pair_r2 (pot.query_dr coords i j)
              ≤ (cf * (1 + pot.m_radii_sca) * pot.sum_radii i j) ^ 2) →
          (inds i).count j = 1 ∧ (inds j).count i = 1 ∧
            (j, pot.neighbor_dr coords i j) ∈ (inds i).zip (dists i) ∧
            (i, (pot.neighbor_dr coords i j).map (fun v => -v))
              ∈ (inds j).zip (dists j)) ∧
        (¬ (inc.data i ≠ 0 ∧ inc.data j ≠ 0 ∧
            pot.pair_r2 (pot.query_dr coords i j)
              ≤ (cf * (1 + pot.m_radii_sca) * pot.sum_radii i j) ^ 2) →
          j ∉ inds i ∧ i ∉ inds j)) ∧
      (∀ p, p ∉ inds p) ∧
      (∀ p, inc.data p = 0 → inds p = [] ∧ dists p = []) ∧
      (∀ p, (inds p).length = (dists p).length) ∧
      ((∀ p, p < coords.size / pot.m_ndim → inc.data p ≠ 0) →
        pot.get_neighbors coords inds0 dists0 cf
          = pot.get_neighbors_picky coords inds0 dists0 inc cf) := by
  refine ⟨_, _, get_neighbors_picky_eq pot coords inds0 dists0 inc cf hdiv hinc hr,
    ?_, ?_, ?_, ?_, ?_⟩
  · intro i j hji hi
    have hj : j < coords.size / pot.m_ndim := by omega
    have hij : ¬ i < j := by omega
    have hne : j ≠ i := by omega
    have hne' : i ≠ j := by omega
    rw [← neighbors_cond_iff]
    simp only [neighbors_inds_closed, neighbors_dists_closed, hi, hj, if_true]
    constructor
    · intro hc
      have m1 : j ∈ (List.range (coords.size / pot.m_ndim)).filter
          (fun q => decide (q ≠ i ∧
            if q < i then pot.neighbors_cond coords inc cf i q
            else pot.neighbors_cond coords inc cf q i)) := by
        rw [List.mem_filter, List.mem_range, decide_eq_true_eq]
        exact ⟨hj, hne, by simp only [hji, if_true]; exact hc⟩
      have m2 : i ∈ (List.range (coords.size / pot.m_ndim)).filter
          (fun q => decide (q ≠ j ∧
            if q < j then pot.neighbors_cond coords inc cf j q
            else pot.neighbors_cond coords inc cf q j)) := by
        rw [List.mem_filter, List.mem_range, decide_eq_true_eq]
        exact ⟨hi, hne', by simp only [hij, if_false]; exact hc⟩
      refine ⟨List.count_eq_one_of_mem ((List.nodup_range _).filter _) m1,
        List.count_eq_one_of_mem ((List.nodup_range _).filter _) m2, ?_, ?_⟩
      · rw [zip_map_self, List.mem_map]
        exact ⟨j, m1, by simp only [hji, if_true]⟩
      · rw [zip_map_self, List.mem_map]
        exact ⟨i, m2, by simp only [hij, if_false, neighbor_neg_dr_eq]⟩
    · intro hc
      constructor
      · intro hm
        rw [List.mem_filter, decide_eq_true_eq] at hm
        have := hm.2.2
        simp only [hji, if_true] at this
        exact hc this
      · intro hm
        rw [List.mem_filter, decide_eq_true_eq] at hm
        have := hm.2.2
        simp only [hij, if_false] at this
        exact hc this
  · intro p hm
    simp only [neighbors_inds_closed] at hm
    by_cases hp : p < coords.size / pot.m_ndim
    · rw [if_pos hp, List.mem_filter, decide_eq_true_eq] at hm
      exact hm.2.1 rfl
    · rw [if_neg hp] at hm
      exact absurd hm (List.not_mem_nil p)
  · intro p hp0
    have hnil : (if p < coords.size / pot.m_ndim then
        (List.range (coords.size / pot.m_ndim)).filter
          (fun q => decide (q ≠ p ∧
            if q < p then pot.neighbors_cond coords inc cf p q
            else pot.neighbors_cond coords inc cf q p))
        else []) = [] := by
      split_ifs with hp
      · rw [List.filter_eq_nil_iff]
        intro q _ hq
        rw [decide_eq_true_eq] at hq
        by_cases h : q < p
        · have := hq.2
          simp only [h, if_true] at this
          exact this.1 hp0
        · have := hq.2
          simp only [h, if_false] at this
          exact this.2.1 hp0
      · rfl
    constructor
    · simp only [neighbors_inds_closed]
      exact hnil
    · simp only [neighbors_dists_closed]
      split_ifs with hp
      · rw [if_pos hp] at hnil
        rw [hnil, List.map_nil]
      · rfl
  · intro p
    simp only [neighbors_inds_closed, neighbors_dists_closed]
    split_ifs with hp
    · rw [List.length_map]
    · rfl
  · intro hall
    unfold SimplePairwisePotential.get_neighbors
    simp only
    apply get_neighbors_picky_congr pot coords inds0 dists0 _ inc cf hdiv rfl hinc hr
    intro p hp
    constructor
    · intro _
      exact hall p hp
    · intro _
      exact one_ne_zero

/-- C23 witness: three particles at `0`, `1`, `3` on a line, all radii `1/2`, all
included, cutoff factor `1`: particle 0 is listed once as a neighbor of particle 1 with
displacement `(1)`, particle 1 once as a neighbor of particle 0 with displacement
`(-1)`, and particle 2, at separation `3` from particle 0, is not a neighbor of it. -/
theorem C23_get_neighbors_picky_lists_witness :
    ∃ (inds : Nat → List Nat) (dists : Nat → List (List ℚ)),
      (radii_potential 1 3 (1 / 2)).get_neighbors_picky (Array.ofList [0, 1, 3])
          ⟨0, fun _ => []⟩ ⟨0, fun _ => []⟩ ⟨3, fun _ => 1⟩ 1
        = (Except.ok (), ⟨3, inds⟩, ⟨3, dists⟩) ∧
      (inds 1).count 0 = 1 ∧ (inds 0).count 1 = 1 ∧
      (0, [1]) ∈ (inds 1).zip (dists 1) ∧ (1, [-1]) ∈ (inds 0).zip (dists 0) ∧
      2 ∉ inds 0 := by
  obtain ⟨inds, dists, h1, h2, _, _, _, _⟩ := C23_get_neighbors_picky_lists
    (radii_potential 1 3 (1 / 2)) (Array.ofList [0, 1, 3]) ⟨0, fun _ => []⟩
    ⟨0, fun _ => []⟩ ⟨3, fun _ => 1⟩ 1 ⟨3, rfl⟩ (by decide) (by decide)
  have hn : (Array.ofList [0, 1, 3]).size / (radii_potential 1 3 (1 / 2)).m_ndim = 3 := by
    decide
  rw [hn] at h1 h2
  have r10 : (radii_potential 1 3 (1 / 2)).pair_r2
      ((radii_potential 1 3 (1 / 2)).query_dr (Array.ofList [0, 1, 3]) 1 0) = 1 := by
    simp only [SimplePairwisePotential.pair_r2, SimplePairwisePotential.query_dr,
      SimplePairwisePotential.m_ndim, distance_policy._ndim, distance_policy.get_rij,
      cartesian_distance.get_rij, meta_dist_apply, radii_potential, Array.ofList,
      Buf.ofList, Buf.ptr, List.range_succ, List.range_zero, List.foldl_cons,
      List.foldl_nil, List.nil_append]
    norm_num
  have r20 : (radii_potential 1 3 (1 / 2)).pair_r2
      ((radii_potential 1 3 (1 / 2)).query_dr (Array.ofList [0, 1, 3]) 2 0) = 9 := by
    simp only [SimplePairwisePotential.pair_r2, SimplePairwisePotential.query_dr,
      SimplePairwisePotential.m_ndim, distance_policy._ndim, distance_policy.get_rij,
      cartesian_distance.get_rij, meta_dist_apply, radii_potential, Array.ofList,
      Buf.ofList, Buf.ptr, List.range_succ, List.range_zero, List.foldl_cons,
      List.foldl_nil, List.nil_append]
    norm_num
  have d10 : (radii_potential 1 3 (1 / 2)).neighbor_dr (Array.ofList [0, 1, 3]) 1 0
      = [1] := by
    simp only [SimplePairwisePotential.neighbor_dr, Buf.toVector,
      SimplePairwisePotential.query_dr,
      SimplePairwisePotential.m_ndim, distance_policy._ndim, distance_policy.get_rij,
      cartesian_distance.get_rij, meta_dist_apply, radii_potential, Array.ofList,
      Buf.ofList, Buf.ptr, List.range_succ, List.range_zero, List.map_cons, List.map_nil,
      List.nil_append]
    norm_num
  have hs : ∀ i j, (radii_potential 1 3 (1 / 2)).sum_radii i j = 1 := by
    intro i j
    norm_num [radii_potential]
  have hsca : (radii_potential 1 3 (1 / 2)).m_radii_sca = 0 := rfl
  have a := (h2 1 0 (by decide) (by decide)).1
    ⟨by decide, by decide, by rw [r10, hs, hsca]; norm_num⟩
  have b := (h2 2 0 (by decide) (by decide)).2
    (by
      rintro ⟨_, _, h⟩
      rw [r20, hs, hsca] at h
      norm_num at h)
  rw [d10] at a
  exact ⟨inds, dists, h1, a.1, a.2.1, a.2.2.1, by simpa using a.2.2.2, b.2⟩

/-! ## C31 -/

/-- C31: for the open (cartesian) policy in `ndim` dimensions and all `r1`, `r2`,
`get_rij(r1, r2)` sets `r_ij[d] = r1[d] - r2[d]` for every `d < ndim` and writes nothing
else, so its squared norm is the plain Euclidean squared distance; and the four forms of
`put_atom_in_box` / `put_atom_in_box_soa` leave every buffer as it was. -/
theorem C31_cartesian_policy_no_folding (cd : cartesian_distance) (r_ij r1 r2 xnew x : Buf)
    (natoms : Nat) :
    (∀ d, d < cd._ndim → cd.get_rij r_ij r1 r2 d = r1 d - r2 d) ∧
      (∀ d, cd._ndim ≤ d → cd.get_rij r_ij r1 r2 d = r_ij d) ∧
      (∑ d in Finset.range cd._ndim, cd.get_rij r_ij r1 r2 d * cd.get_rij r_ij r1 r2 d
        = ∑ d in Finset.range cd._ndim, (r1 d - r2 d) * (r1 d - r2 d)) ∧
      cd.put_atom_in_box xnew x = xnew ∧ cd.put_atom_in_box_inplace x = x ∧
      cd.put_atom_in_box_soa xnew x natoms = xnew ∧
      cd.put_atom_in_box_soa_inplace x natoms = x := by
  have h1 : ∀ d, d < cd._ndim → cd.get_rij r_ij r1 r2 d = r1 d - r2 d := by
    intro d hd
    simp only [cartesian_distance.get_rij, meta_dist_apply, hd, if_true]
  refine ⟨h1, ?_, ?_, rfl, rfl, rfl, rfl⟩
  · intro d hd
    have : ¬ d < cd._ndim := by omega
    simp only [cartesian_distance.get_rij, meta_dist_apply, this, if_false]
  · apply Finset.sum_congr rfl
    intro d hd
    rw [h1 d (Finset.mem_range.mp hd)]

/-- C31 witness: in three dimensions the displacement from `(4, 6, 3)` to `(1, 2, 3)`
has second component `4`, and the in-place `put_atom_in_box` keeps `(25, -7, 3)`. -/
theorem C31_cartesian_policy_no_folding_witness :
    (cartesian_distance.mk 3).get_rij (fun _ => 0) (Buf.ofList [4, 6, 3])
        (Buf.ofList [1, 2, 3]) 1 = 4 ∧
      (cartesian_distance.mk 3).put_atom_in_box_inplace (Buf.ofList [25, -7, 3])
        = Buf.ofList [25, -7, 3] := by
  have h := C31_cartesian_policy_no_folding (cartesian_distance.mk 3) (fun _ => 0)
    (Buf.ofList [4, 6, 3]) (Buf.ofList [1, 2, 3]) (fun _ => 0) (Buf.ofList [25, -7, 3]) 1
  refine ⟨?_, h.2.2.2.2.1⟩
  rw [h.1 1 (by decide)]
  norm_num [Buf.ofList]

/-! ## C32 -/

/-- At an exact half-integer `k + 1/2` the rounding picks the even neighbour. -/
theorem roundHalfEven_tie (k : ℤ) :
    roundHalfEven ((k : ℚ) + 1 / 2) = if k % 2 = 0 then k else k + 1 := by
  have hf : ⌊(k : ℚ) + 1 / 2⌋ = k := by
    rw [Int.floor_eq_iff]
    constructor <;> linarith
  unfold roundHalfEven
  rw [hf]
  have e : (k : ℚ) + 1 / 2 - (k : ℚ) = 1 / 2 := by ring
  rw [e]
  simp

/-- The integer chosen at an exact half-integer is even. -/
theorem roundHalfEven_tie_even (r : ℚ) (h : r - (⌊r⌋ : ℤ) = 1 / 2) :
    roundHalfEven r % 2 = 0 := by
  unfold roundHalfEven
  rw [h]
  simp only [lt_self_iff_false, if_false]
  split_ifs with c
  · exact c
  · omega

/-- No integer is nearer to `r` than the rounded one. -/
theorem roundHalfEven_nearest (r : ℚ) (z : ℤ) :
    |(roundHalfEven r : ℚ) - r| ≤ |(z : ℚ) - r| := by
  have hb := roundHalfEven_sub_le r
  have h1 : |(roundHalfEven r : ℚ) - r| ≤ 1 / 2 := by
    rw [abs_le]
    constructor <;> linarith [hb.1, hb.2]
  by_cases hz : z = roundHalfEven r
  · rw [hz]
  · have hne : z - roundHalfEven r ≠ 0 := sub_ne_zero.mpr hz
    have h2 : (1 : ℚ) ≤ |((z - roundHalfEven r : ℤ) : ℚ)| := by
      rw [← Int.cast_abs]
      exact_mod_cast Int.one_le_abs hne
    have h3 : |((z - roundHalfEven r : ℤ) : ℚ)|
        ≤ |(z : ℚ) - r| + |(roundHalfEven r : ℚ) - r| := by
      have e : ((z - roundHalfEven r : ℤ) : ℚ) = ((z : ℚ) - r) - ((roundHalfEven r : ℚ) - r) := by
        push_cast; ring
      rw [e]
      exact abs_sub _ _
    linarith

theorem fits_of_abs_lt (r : ℚ) (h : |r| < 2 ^ 31 - 1) : FitsInt32 (roundHalfEven r) := by
  have hb := roundHalfEven_sub_le r
  have ha := abs_lt.mp h
  unfold FitsInt32
  constructor
  · have : ((-2 ^ 31 : ℤ) : ℚ) < (roundHalfEven r : ℚ) + 1 := by
      push_cast
      linarith [hb.2, ha.1]
    have h' : (-2 ^ 31 : ℤ) < roundHalfEven r + 1 := by exact_mod_cast this
    omega
  · have : (roundHalfEven r : ℚ) < ((2 ^ 31 : ℤ) : ℚ) := by
      push_cast
      linarith [hb.1, ha.2]
    exact_mod_cast this

/-- C32: for every `r` with `|r| < 2^31 - 1`, `round_fast(r)` is `r` rounded to the
nearest integer with exact half-integers going to the even neighbour: it is an integer
`n` with `|n - r| <= 1/2`, no integer is nearer to `r`, and `n` is even when `r` is an
exact half-integer. -/
theorem C32_round_fast_nearest_even (r : ℚ) (h : |r| < 2 ^ 31 - 1) :
    round_fast r = (roundHalfEven r : ℚ) ∧ |round_fast r - r| ≤ 1 / 2 ∧
      (∀ z : ℤ, |round_fast r - r| ≤ |(z : ℚ) - r|) ∧
      (r - (⌊r⌋ : ℤ) = 1 / 2 → roundHalfEven r % 2 = 0) := by
  have e := round_fast_of_fits r (fits_of_abs_lt r h)
  have hb := roundHalfEven_sub_le r
  rw [e]
  refine ⟨rfl, ?_, fun z => roundHalfEven_nearest r z, roundHalfEven_tie_even r⟩
  rw [abs_le]
  constructor <;> linarith [hb.1, hb.2]

/-- C32 witness: `0.5 -> 0`, `1.5 -> 2`, `2.5 -> 2`, `-0.5 -> 0`, `-1.5 -> -2`. -/
theorem C32_round_fast_nearest_even_witness :
    round_fast (1 / 2) = 0 ∧ round_fast (3 / 2) = 2 ∧ round_fast (5 / 2) = 2 ∧
      round_fast (-1 / 2) = 0 ∧ round_fast (-3 / 2) = -2 := by
  have t0 := roundHalfEven_tie 0
  have t1 := roundHalfEven_tie 1
  have t2 := roundHalfEven_tie 2
  have t3 := roundHalfEven_tie (-1)
  have t4 := roundHalfEven_tie (-2)
  norm_num at t0 t1 t2 t3 t4
  have a0 := (C32_round_fast_nearest_even (1 / 2) (by rw [abs_lt]; constructor <;> norm_num)).1
  have a1 := (C32_round_fast_nearest_even (3 / 2) (by rw [abs_lt]; constructor <;> norm_num)).1
  have a2 := (C32_round_fast_nearest_even (5 / 2) (by rw [abs_lt]; constructor <;> norm_num)).1
  have a3 := (C32_round_fast_nearest_even (-1 / 2)
    (by rw [abs_lt]; constructor <;> norm_num)).1
  have a4 := (C32_round_fast_nearest_even (-3 / 2)
    (by rw [abs_lt]; constructor <;> norm_num)).1
  refine ⟨?_, ?_, ?_, ?_, ?_⟩
  · rw [a0, t0]; norm_num
  · rw [a1, t1]; norm_num
  · rw [a2, t2]; norm_num
  · have e : (-1 / 2 : ℚ) = -(1 / 2) := by norm_num
    rw [a3, e, t3]; norm_num
  · have e : (-3 / 2 : ℚ) = -(3 / 2) := by norm_num
    rw [a4, e, t4]; norm_num

/-! ## C34 -/

theorem pair_gradient_h_eq_of_consistent (pot : SimplePairwisePotential)
    (hint : ∀ r2 radius : ℚ,
      (pot._interaction.energy_gradient_hessian r2 radius).2.1
        = (pot._interaction.energy_gradient r2 radius).2)
    (x : Array) (N i j q : Nat) :
    pot.pair_gradient_h x N i j q = pot.pair_gradient x N i j q := by
  unfold SimplePairwisePotential.pair_gradient_h SimplePairwisePotential.pair_gradient
    SimplePairwisePotential.gh_ij SimplePairwisePotential.g_ij
  rw [hint]
  apply Finset.sum_congr rfl
  intro k _
  rw [mul_comm]

/-- C37: for an interaction whose three member functions return the same energy, and
whose `energy_gradient` and `energy_gradient_hessian` return the same gradient magnitude,
at every `(r2, radius)`, and for every `x` of length `N * m_ndim` (either layout) with
`grad` of the size of `x` and `hess` of the size of `x` squared: `get_energy`,
`get_energy_gradient` and `get_energy_gradient_hessian` return the same energy, and the
gradient array after `get_energy_gradient_hessian` is the gradient array after
`get_energy_gradient`. -/
theorem C37_energy_and_gradient_agree (pot : SimplePairwisePotential)
    (hint : ∀ r2 radius : ℚ,
      (pot._interaction.energy_gradient r2 radius).1 = pot._interaction.energy r2 radius ∧
      (pot._interaction.energy_gradient_hessian r2 radius).1
        = pot._interaction.energy r2 radius ∧
      (pot._interaction.energy_gradient_hessian r2 radius).2.1
        = (pot._interaction.energy_gradient r2 radius).2)
    (x grad hess : Array) (N : Nat) (hD : 0 < pot.m_ndim) (hx : x.size = N * pot.m_ndim)
    (hg : grad.size = x.size) (hh : hess.size = x.size * x.size) :
    (∃ e, pot.get_energy x = Except.ok e ∧
        (pot.get_energy_gradient x grad).1 = Except.ok e ∧
        (pot.get_energy_gradient_hessian x grad hess).1 = Except.ok e) ∧
      (pot.get_energy_gradient_hessian x grad hess).2.1
        = (pot.get_energy_gradient x grad).2 := by
  rw [get_energy_eq pot x N hD hx, get_energy_gradient_eq pot x grad N hD hx hg,
    get_energy_gradient_hessian_eq pot x grad hess N hD hx hg hh]
  refine ⟨⟨_, rfl, ?_, ?_⟩, ?_⟩
  · simp only [(hint _ _).1]
  · simp only [SimplePairwisePotential.eh_ij, (hint _ _).2.1]
  · simp only
    congr 1
    funext q
    rw [pair_loop_grad_step]
    simp only [Array.assign, pair_gradient_h_eq_of_consistent pot (fun a b => (hint a b).2.2)]

/-- C37 witness: three particles at `0`, `1`, `3` on a line with the interaction of
energy `r2`, gradient magnitude `1` and Hessian scalar `2`: the two calls leave the same
gradient array. -/
theorem C37_energy_and_gradient_agree_witness :
    ((quadratic_potential 1 false).get_energy_gradient_hessian (Array.ofList [0, 1, 3])
        (Array.ofList [7, 7, 7]) ⟨9, fun _ => 0⟩).2.1
      = ((quadratic_potential 1 false).get_energy_gradient (Array.ofList [0, 1, 3])
        (Array.ofList [7, 7, 7])).2 :=
  (C37_energy_and_gradient_agree (quadratic_potential 1 false)
    (fun _ _ => ⟨rfl, rfl, rfl⟩) (Array.ofList [0, 1, 3]) (Array.ofList [7, 7, 7])
    ⟨9, fun _ => 0⟩ 3 (by decide) rfl rfl rfl).2

/-! ## C38 -/

theorem leesedwards_construct_traced_snd (ndim : Nat) (box : Array) (shear : ℚ) :
    (leesedwards_distance.construct_traced ndim box shear).2
      = leesedwards_distance.construct ndim box shear := by
  unfold leesedwards_distance.construct_traced leesedwards_distance.construct
  by_cases h : box.size ≠ ndim
  · simp only [if_pos h]
  · simp only [if_neg h]

theorem periodic_construct_traced_snd (ndim : Nat) (box : Array) :
    (periodic_distance.construct_traced ndim box).2 = periodic_distance.construct ndim box := by
  unfold periodic_distance.construct_traced periodic_distance.construct
  by_cases h : box.size ≠ ndim
  · simp only [if_pos h]
  · simp only [if_neg h]

/-- The periodic constructor reads `box` only below its size. -/
theorem periodic_construct_reads_in_range (ndim : Nat) (box : Array) (i : Nat)
    (hi : i ∈ (periodic_distance.construct_traced ndim box).1) : i < box.size := by
  unfold periodic_distance.construct_traced at hi
  by_cases h : box.size ≠ ndim
  · simp only [if_pos h] at hi
    cases hi
  · simp only [if_neg h, List.mem_flatMap, List.mem_range] at hi
    obtain ⟨k, hk, hm⟩ := hi
    have hs : box.size = ndim := not_not.mp h
    have : i = k := by
      simp only [List.mem_cons, List.mem_singleton, or_self, List.not_mem_nil, or_false]
        at hm
      exact hm
    omega

/-- The Lees-Edwards constructor reads `box[1]` whatever the size of `box`. -/
theorem leesedwards_construct_reads_one (ndim : Nat) (box : Array) (shear : ℚ) :
    1 ∈ (leesedwards_distance.construct_traced ndim box shear).1 := by
  unfold leesedwards_distance.construct_traced
  by_cases h : box.size ≠ ndim
  · simp only [if_pos h, List.mem_singleton]
  · simp only [if_neg h, List.singleton_append, List.mem_cons, true_or]

/-- C38 (the code at the failing input): constructing the Lees-Edwards policy for
`ndim = 2` from the one-element box `(10)`, or from the empty box, ends in the
invalid-argument error of the size check, but `box[1]` has been read before: the reads
of `box` are `[1]`, and `1` is not below the size (1, or 0) of the box. The periodic
constructor, given the same boxes, reads nothing before it throws. -/
theorem C38_leesedwards_constructor_reads_box_one :
    (leesedwards_distance.construct_traced 2 (Array.ofList [10]) (1 / 2)
        = ([1], Except.error (error.invalid_argument ("box.size() must be equal to ndim"))) ∧
      (Array.ofList [10]).size = 1) ∧
    (leesedwards_distance.construct_traced 2 (Array.ofList []) (1 / 2)
        = ([1], Except.error (error.invalid_argument ("box.size() must be equal to ndim"))) ∧
      (Array.ofList []).size = 0) ∧
    periodic_distance.construct_traced 2 (Array.ofList [10])
      = ([], Except.error (error.invalid_argument ("box.size() must be equal to ndim"))) ∧
    periodic_distance.construct_traced 2 (Array.ofList [])
      = ([], Except.error (error.invalid_argument ("box.size() must be equal to ndim"))) :=
  ⟨⟨rfl, rfl⟩, ⟨rfl, rfl⟩, rfl, rfl⟩

/-! ## C39 -/

theorem store_apply (p : Buf) (off : Nat) (q : Buf) (j : Nat) :
    Buf.store p off q j = if off ≤ j then q (j - off) else p j := rfl

/-- The loop of `put_in_box` for an in-place atom function `F` that changes only the
first `n` elements and reads only them: element `j` below `M * n` holds what `F` leaves
at `j % n` when applied to the particle of `j` in the original array. -/
theorem put_in_box_loop_gen (F : Buf → Buf) (n : Nat) (hn : 0 < n)
    (hloc : ∀ (x : Buf) (d : Nat), n ≤ d → F x d = x d)
    (hdep : ∀ x y : Buf, (∀ d, d < n → x d = y d) → ∀ d, d < n → F x d = F y d)
    (M : Nat) (c : Buf) :
    ∀ j, (List.range' 0 M n).foldl (fun c i => Buf.store c i (F (Buf.ptr c i))) c j =
      if j < M * n then F (Buf.ptr c (j / n * n)) (j % n) else c j := by
  induction M with
  | zero => intro j; simp
  | succ M ih =>
    intro j
    rw [List.range'_concat, List.foldl_append]
    simp only [List.foldl_cons, List.foldl_nil, Nat.zero_add]
    have hmul : n * M = M * n := Nat.mul_comm n M
    have hsucc : (M + 1) * n = M * n + n := by rw [Nat.add_mul, Nat.one_mul]
    rw [hmul, hsucc, store_apply]
    by_cases h1 : j < M * n
    · have a : ¬ M * n ≤ j := by omega
      have b : j < M * n + n := by omega
      rw [if_neg a, if_pos b, ih j, if_pos h1]
    · have a : M * n ≤ j := by omega
      rw [if_pos a]
      by_cases h2 : j < M * n + n
      · rw [if_pos h2]
        have hlt : j - M * n < n := by omega
        have hj : j = (j - M * n) + M * n := by omega
        have hdiv : j / n = M := by
          rw [hj, Nat.add_mul_div_right _ _ hn, Nat.div_eq_of_lt hlt, Nat.zero_add]
        have hmod : j % n = j - M * n := by
          conv_lhs => rw [hj, Nat.add_mul_mod_self_right, Nat.mod_eq_of_lt hlt]
        rw [hdiv, hmod]
        apply hdep _ _ _ _ hlt
        intro d hd
        simp only [Buf.ptr]
        rw [ih (M * n + d), if_neg (by omega)]
      · rw [if_neg h2, hloc _ _ (by omega)]
        simp only [Buf.ptr]
        have e : M * n + (j - M * n) = j := by omega
        rw [e, ih j, if_neg h1]

/-- The values of `put_in_box_loop_gen` by particle and coordinate. -/
theorem put_in_box_loop_particle (F : Buf → Buf) (n : Nat) (hn : 0 < n)
    (hloc : ∀ (x : Buf) (d : Nat), n ≤ d → F x d = x d)
    (hdep : ∀ x y : Buf, (∀ d, d < n → x d = y d) → ∀ d, d < n → F x d = F y d)
    (M : Nat) (c : Buf) (p d : Nat) (hp : p < M) (hd : d < n) :
    (List.range' 0 M n).foldl (fun c i => Buf.store c i (F (Buf.ptr c i))) c (p * n + d)
      = F (Buf.ptr c (p * n)) d := by
  have hlt : p * n + d < M * n := by
    have : (p + 1) * n ≤ M * n := Nat.mul_le_mul_right n hp
    rw [Nat.add_mul, Nat.one_mul] at this
    omega
  have hdiv : (p * n + d) / n = p := by
    rw [Nat.add_comm, Nat.add_mul_div_right _ _ hn, Nat.div_eq_of_lt hd, Nat.zero_add]
  have hmod : (p * n + d) % n = d := by
    rw [Nat.add_comm, Nat.add_mul_mod_self_right, Nat.mod_eq_of_lt hd]
  rw [put_in_box_loop_gen F n hn hloc hdep M c, if_pos hlt, hdiv, hmod]

/-- The windows `[i, i + n)` of the calls of `put_in_box`, for the loop offsets
`0, n, 2 n, ...`, list every index below `M * n` once, in increasing order. -/
theorem put_in_box_windows (n M : Nat) :
    (List.range' 0 M n).flatMap (fun i => List.range' i n) = List.range (M * n) := by
  induction M with
  | zero => simp
  | succ M ih =>
    rw [List.range'_concat, List.flatMap_append, ih]
    simp only [List.flatMap_cons, List.flatMap_nil, List.append_nil, Nat.zero_add]
    rw [Nat.add_mul, Nat.one_mul, Nat.mul_comm n M, List.range_eq_range',
      List.range_eq_range', Nat.add_comm (M * n) n, ← List.range'_append_1, Nat.zero_add]

/-- The loop of `put_in_box_soa` for an in-place atom function `G` that changes only the
elements at the offsets `k * natoms`, `k < n`, and acts on the strided coordinates as
`F` does: after `m` iterations the element at `k * natoms + p` with `p < m`, `k < n` holds
what `F` leaves at `k` when applied to the strided coordinates of particle `p` in the
original array. -/
theorem put_in_box_soa_loop_gen (G F : Buf → Buf) (n natoms : Nat)
    (hlocG : ∀ (x : Buf) (q : Nat), (∀ k, k < n → q ≠ k * natoms) → G x q = x q)
    (hstr : ∀ x : Buf, Buf.strided (G x) natoms = F (Buf.strided x natoms))
    (m : Nat) (hm : m ≤ natoms) (c : Buf) :
    ∀ q, (List.range m).foldl (fun c i => Buf.store c i (G (Buf.ptr c i))) c q =
      if q % natoms < m ∧ q / natoms < n then
        F (Buf.strided (Buf.ptr c (q % natoms)) natoms) (q / natoms)
      else c q := by
  induction m with
  | zero => intro q; simp
  | succ m ih =>
    intro q
    have ih := ih (by omega)
    have hpos : 0 < natoms := by omega
    rw [List.range_succ, List.foldl_append]
    simp only [List.foldl_cons, List.foldl_nil]
    rw [store_apply]
    have hq : q = q % natoms + q / natoms * natoms := by
      rw [Nat.mul_comm]; exact (Nat.mod_add_div q natoms).symm
    by_cases h1 : q % natoms = m ∧ q / natoms < n
    · have hle : m ≤ q := by rw [← h1.1]; exact Nat.mod_le q natoms
      have hsub : q - m = q / natoms * natoms := by omega
      have hs : Buf.strided (Buf.ptr ((List.range m).foldl
          (fun c i => Buf.store c i (G (Buf.ptr c i))) c) m) natoms
          = Buf.strided (Buf.ptr c m) natoms := by
        funext d
        simp only [Buf.strided, Buf.ptr]
        have hmod : (m + d * natoms) % natoms = m := by
          rw [Nat.add_mul_mod_self_right, Nat.mod_eq_of_lt (by omega)]
        rw [ih (m + d * natoms), if_neg (by rw [hmod]; omega)]
      rw [if_pos hle, if_pos ⟨by omega, h1.2⟩, hsub]
      have e := congrFun (hstr (Buf.ptr ((List.range m).foldl
        (fun c i => Buf.store c i (G (Buf.ptr c i))) c) m)) (q / natoms)
      simp only [Buf.strided] at e
      rw [e, hs, h1.1]
    · have hcond : (q % natoms < m + 1 ∧ q / natoms < n) ↔ (q % natoms < m ∧ q / natoms < n) := by
        constructor
        · intro h
          refine ⟨?_, h.2⟩
          by_contra hc
          exact h1 ⟨by omega, h.2⟩
        · intro h
          exact ⟨by omega, h.2⟩
      by_cases hle : m ≤ q
      · rw [if_pos hle, hlocG]
        · simp only [Buf.ptr]
          have e : m + (q - m) = q := by omega
          rw [e, ih q]
          simp only [hcond]
        · intro k hk hqk
          apply h1
          have hqe : q = m + k * natoms := by omega
          constructor
          · rw [hqe, Nat.add_mul_mod_self_right, Nat.mod_eq_of_lt (by omega)]
          · rw [hqe, Nat.add_mul_div_right _ _ hpos, Nat.div_eq_of_lt (by omega), Nat.zero_add]
            exact hk
      · rw [if_neg hle, ih q]
        simp only [hcond]

theorem dimension_major_data (n : Nat) (hn : 0 < n) (a : Array) (N : Nat)
    (ha : a.size = N * n) (q : Nat) :
    (dimension_major n a).data q
      = if q < N * n then a.data (q % N * n + q / N) else a.data q := by
  unfold dimension_major
  simp only [ha, Nat.mul_div_cancel _ hn]

/-- The loop of `put_in_box_soa` on the dimension-major rearrangement yields the
dimension-major rearrangement of what the loop of `put_in_box` yields. -/
theorem put_in_box_soa_rearranged (F G : Buf → Buf) (n : Nat) (hn : 0 < n) (N : Nat)
    (hloc : ∀ (x : Buf) (d : Nat), n ≤ d → F x d = x d)
    (hdep : ∀ x y : Buf, (∀ d, d < n → x d = y d) → ∀ d, d < n → F x d = F y d)
    (hG : 1 ≤ N → (∀ (x : Buf) (q : Nat), (∀ k, k < n → q ≠ k * N) → G x q = x q) ∧
      (∀ x : Buf, Buf.strided (G x) N = F (Buf.strided x N)))
    (a : Array) (ha : a.size = N * n) :
    (⟨a.size, (List.range N).foldl (fun c i => Buf.store c i (G (Buf.ptr c i)))
        (dimension_major n a).data⟩ : Array)
      = dimension_major n ⟨a.size,
          (List.range' 0 N n).foldl (fun c i => Buf.store c i (F (Buf.ptr c i))) a.data⟩ := by
  have key : ∀ (b : Buf) (q : Nat), (dimension_major n ⟨a.size, b⟩).data q
      = if q < N * n then b (q % N * n + q / N) else b q :=
    fun b q => dimension_major_data n hn ⟨a.size, b⟩ N ha q
  have hd2 : ∀ q, (dimension_major n ⟨a.size,
      (List.range' 0 N n).foldl (fun c i => Buf.store c i (F (Buf.ptr c i))) a.data⟩).data q
      = if q < N * n then
          (List.range' 0 N n).foldl (fun c i => Buf.store c i (F (Buf.ptr c i))) a.data
            (q % N * n + q / N)
        else (List.range' 0 N n).foldl (fun c i => Buf.store c i (F (Buf.ptr c i))) a.data q :=
    fun q => key _ q
  have hsz : (dimension_major n ⟨a.size,
      (List.range' 0 N n).foldl (fun c i => Buf.store c i (F (Buf.ptr c i))) a.data⟩).size
      = a.size := rfl
  have hdata : (List.range N).foldl (fun c i => Buf.store c i (G (Buf.ptr c i)))
        (dimension_major n a).data
      = (dimension_major n ⟨a.size,
          (List.range' 0 N n).foldl (fun c i => Buf.store c i (F (Buf.ptr c i)))
            a.data⟩).data := by
    funext q
    rw [hd2 q]
    rcases Nat.eq_zero_or_pos N with h0 | hpos
    · subst h0
      simp only [List.range_zero, List.foldl_nil, Nat.zero_mul, Nat.not_lt_zero, if_false,
        List.range'_zero]
      rw [dimension_major_data n hn a 0 ha q]
      simp only [Nat.zero_mul, Nat.not_lt_zero, if_false]
    · obtain ⟨hlocG, hstr⟩ := hG hpos
      rw [put_in_box_soa_loop_gen G F n N hlocG hstr N (le_refl N)]
      have hmod : q % N < N := Nat.mod_lt q hpos
      have hdiv : q / N < n ↔ q < N * n := by
        rw [Nat.div_lt_iff_lt_mul hpos, Nat.mul_comm]
      by_cases hq : q < N * n
      · have hk : q / N < n := hdiv.mpr hq
        rw [if_pos ⟨hmod, hk⟩, if_pos hq,
          put_in_box_loop_particle F n hn hloc hdep N a.data (q % N) (q / N) hmod hk]
        apply hdep _ _ _ _ hk
        intro d hd
        simp only [Buf.strided, Buf.ptr]
        rw [dimension_major_data n hn a N ha]
        have hlt : q % N + d * N < N * n := by
          have : (d + 1) * N ≤ n * N := Nat.mul_le_mul_right N hd
          rw [Nat.add_mul, Nat.one_mul, Nat.mul_comm n N] at this
          omega
        rw [if_pos hlt, Nat.add_mul_mod_self_right, Nat.mod_mod,
          Nat.add_mul_div_right _ _ hpos, Nat.div_eq_of_lt hmod, Nat.zero_add]
      · have hk : ¬ (q % N < N ∧ q / N < n) := fun h => hq (hdiv.mp h.2)
        rw [if_neg hk, if_neg hq, put_in_box_loop_gen F n hn hloc hdep N a.data q, if_neg hq,
          dimension_major_data n hn a N ha q, if_neg hq]
  rw [hdata]
  rfl

theorem meta_image_inplace_dep (n : Nat) (x y _ibox _box : Buf)
    (h : ∀ d, d < n → x d = y d) (d : Nat) (hd : d < n) :
    meta_image_inplace n x _ibox _box d = meta_image_inplace n y _ibox _box d := by
  rw [meta_image_inplace_apply, meta_image_inplace_apply, if_pos hd, if_pos hd, h d hd]

theorem meta_image_inplace_loc (n : Nat) (x _ibox _box : Buf) (d : Nat) (hd : n ≤ d) :
    meta_image_inplace n x _ibox _box d = x d := by
  rw [meta_image_inplace_apply, if_neg (by omega)]

theorem meta_leesedwards_image_inplace_dep (n : Nat) (h2 : 2 ≤ n) (x y ibox box : Buf)
    (dx : ℚ) (h : ∀ d, d < n → x d = y d) (d : Nat) (hd : d < n) :
    meta_leesedwards_image_inplace n x ibox box dx d
      = meta_leesedwards_image_inplace n y ibox box dx d := by
  obtain ⟨m, rfl⟩ : ∃ m, n = m + 2 := ⟨n - 2, by omega⟩
  rw [meta_leesedwards_image_inplace_apply, meta_leesedwards_image_inplace_apply,
    h 0 (by omega), h 1 (by omega), h d hd]

theorem meta_leesedwards_image_inplace_loc (n : Nat) (h2 : 2 ≤ n) (x ibox box : Buf)
    (dx : ℚ) (d : Nat) (hd : n ≤ d) :
    meta_leesedwards_image_inplace n x ibox box dx d = x d := by
  obtain ⟨m, rfl⟩ : ∃ m, n = m + 2 := ⟨n - 2, by omega⟩
  have d0 : d ≠ 0 := by omega
  have d1 : d ≠ 1 := by omega
  have d2 : ¬ d < m + 2 := by omega
  rw [meta_leesedwards_image_inplace_apply]
  simp only [d0, d1, d2, if_false]

/-- The in-place dimension-major periodic image changes only the elements at the
offsets `k * natoms`, `k < n`. -/
theorem meta_image_soa_inplace_other (n : Nat) (x _ibox _box : Buf) (natoms q : Nat)
    (h : ∀ k, k < n → q ≠ k * natoms) :
    meta_image_soa_inplace n x _ibox _box natoms q = x q := by
  induction n generalizing x with
  | zero => rfl
  | succ n ih =>
    simp only [meta_image_soa_inplace]
    rw [ih _ (fun k hk => h k (by omega)), image_correction_eq,
      Function.update_noteq (h n (by omega)), Function.update_noteq (h n (by omega))]

/-- The in-place dimension-major Lees-Edwards image changes only the elements at the
offsets `k * natoms`, `k < n`. -/
theorem meta_leesedwards_image_soa_inplace_other (n : Nat) (x ibox box : Buf) (dx : ℚ)
    (natoms q : Nat) (hn : 1 ≤ natoms) (h : ∀ k, k < n → q ≠ k * natoms) :
    meta_leesedwards_image_soa_inplace n x ibox box dx natoms q = x q := by
  induction n using Nat.strong_induction_on generalizing x with
  | _ n ih =>
    match n with
    | 0 => rfl
    | 1 => rfl
    | 2 =>
      have q0 : q ≠ 0 := by
        have := h 0 (by omega)
        simpa using this
      have q1 : q ≠ natoms := by
        have := h 1 (by omega)
        simpa using this
      rw [meta_leesedwards_image_soa_inplace_two _ _ _ _ _ hn, Function.update_noteq q1,
        Function.update_noteq q0]
    | m + 3 =>
      simp only [meta_leesedwards_image_soa_inplace]
      rw [ih (m + 2) (by omega) _ (fun k hk => h k (by omega)), image_correction_eq,
        Function.update_noteq (h (m + 2) (by omega)),
        Function.update_noteq (h (m + 2) (by omega))]

theorem size_div (N n : Nat) (hn : 0 < n) (size : Nat) (h : size = N * n) :
    size / n = N ∧ (size + n - 1) / n = N := by
  subst h
  exact ⟨Nat.mul_div_cancel _ hn, put_in_box_count N n hn⟩

/-- C40: for the periodic policy (`ndim > 0`) and the Lees-Edwards policy (`ndim >= 2`)
and every coordinate array of length `N * ndim`: after `put_in_box`, coordinate `d` of
particle `p` holds what the in-place `put_atom_in_box` leaves at `d` when applied to
particle `p` of the given array; elements from the array length on are unchanged and the
size is kept; the in-place `put_atom_in_box` changes nothing from `ndim` on, and the
windows `[i, i + ndim)` of the calls, for the loop offsets `i = 0, ndim, 2 ndim, ...`,
list every index below the array length once; and `put_in_box_soa` applied to the
dimension-major rearrangement of the array yields the dimension-major rearrangement of
the result of `put_in_box`. -/
theorem C40_put_in_box_folds_each_particle (pd : periodic_distance)
    (ld : leesedwards_distance) (coords : Array) (N : Nat) :
    (0 < pd._ndim → coords.size = N * pd._ndim →
      (∀ p d, p < N → d < pd._ndim →
        (pd.put_in_box coords).data (p * pd._ndim + d)
          = pd.put_atom_in_box_inplace (Buf.ptr coords.data (p * pd._ndim)) d) ∧
      (∀ j, coords.size ≤ j → (pd.put_in_box coords).data j = coords.data j) ∧
      (pd.put_in_box coords).size = coords.size ∧
      (∀ (x : Buf) (d : Nat), pd._ndim ≤ d → pd.put_atom_in_box_inplace x d = x d) ∧
      (List.range' 0 ((coords.size + pd._ndim - 1) / pd._ndim) pd._ndim).flatMap
          (fun i => List.range' i pd._ndim) = List.range coords.size ∧
      pd.put_in_box_soa (dimension_major pd._ndim coords)
        = dimension_major pd._ndim (pd.put_in_box coords)) ∧
    (2 ≤ ld._ndim → coords.size = N * ld._ndim →
      (∀ p d, p < N → d < ld._ndim →
        (ld.put_in_box coords).data (p * ld._ndim + d)
          = ld.put_atom_in_box_inplace (Buf.ptr coords.data (p * ld._ndim)) d) ∧
      (∀ j, coords.size ≤ j → (ld.put_in_box coords).data j = coords.data j) ∧
      (ld.put_in_box coords).size = coords.size ∧
      (∀ (x : Buf) (d : Nat), ld._ndim ≤ d → ld.put_atom_in_box_inplace x d = x d) ∧
      (List.range' 0 ((coords.size + ld._ndim - 1) / ld._ndim) ld._ndim).flatMap
          (fun i => List.range' i ld._ndim) = List.range coords.size ∧
      ld.put_in_box_soa (dimension_major ld._ndim coords)
        = dimension_major ld._ndim (ld.put_in_box coords)) := by
  constructor
  · intro hn hsize
    obtain ⟨hdiv, hcnt⟩ := size_div N pd._ndim hn coords.size hsize
    have hloc := fun (x : Buf) (d : Nat) (hd : pd._ndim ≤ d) =>
      meta_image_inplace_loc pd._ndim x pd._ibox pd._box d hd
    have hdep := fun (x y : Buf) (h : ∀ d, d < pd._ndim → x d = y d) (d : Nat)
      (hd : d < pd._ndim) => meta_image_inplace_dep pd._ndim x y pd._ibox pd._box h d hd
    refine ⟨?_, ?_, rfl, hloc, ?_, ?_⟩
    · intro p d hp hd
      simp only [periodic_distance.put_in_box, periodic_distance.put_atom_in_box_inplace,
        hcnt]
      exact put_in_box_loop_particle _ pd._ndim hn hloc hdep N coords.data p d hp hd
    · intro j hj
      simp only [periodic_distance.put_in_box, periodic_distance.put_atom_in_box_inplace,
        hcnt]
      rw [put_in_box_loop_gen _ pd._ndim hn hloc hdep N coords.data j,
        if_neg (by rw [← hsize]; omega)]
    · rw [hcnt, put_in_box_windows, hsize]
    · have hds : (dimension_major pd._ndim coords).size = coords.size := rfl
      simp only [periodic_distance.put_in_box_soa, periodic_distance.put_in_box,
        periodic_distance.put_atom_in_box_inplace,
        periodic_distance.put_atom_in_box_soa_inplace, hds, hdiv, hcnt]
      exact put_in_box_soa_rearranged _ _ pd._ndim hn N hloc hdep
        (fun h1 => ⟨fun x q h => meta_image_soa_inplace_other pd._ndim x _ _ N q h,
          fun x => meta_image_soa_inplace_strided pd._ndim x _ _ N h1⟩) coords hsize
  · intro h2 hsize
    have hn : 0 < ld._ndim := by omega
    obtain ⟨hdiv, hcnt⟩ := size_div N ld._ndim hn coords.size hsize
    have hloc := fun (x : Buf) (d : Nat) (hd : ld._ndim ≤ d) =>
      meta_leesedwards_image_inplace_loc ld._ndim h2 x ld.m_ibox ld.m_box ld.m_dx d hd
    have hdep := fun (x y : Buf) (h : ∀ d, d < ld._ndim → x d = y d) (d : Nat)
      (hd : d < ld._ndim) =>
      meta_leesedwards_image_inplace_dep ld._ndim h2 x y ld.m_ibox ld.m_box ld.m_dx h d hd
    refine ⟨?_, ?_, rfl, hloc, ?_, ?_⟩
    · intro p d hp hd
      simp only [leesedwards_distance.put_in_box,
        leesedwards_distance.put_atom_in_box_inplace, hcnt]
      exact put_in_box_loop_particle _ ld._ndim hn hloc hdep N coords.data p d hp hd
    · intro j hj
      simp only [leesedwards_distance.put_in_box,
        leesedwards_distance.put_atom_in_box_inplace, hcnt]
      rw [put_in_box_loop_gen _ ld._ndim hn hloc hdep N coords.data j,
        if_neg (by rw [← hsize]; omega)]
    · rw [hcnt, put_in_box_windows, hsize]
    · have hds : (dimension_major ld._ndim coords).size = coords.size := rfl
      simp only [leesedwards_distance.put_in_box_soa, leesedwards_distance.put_in_box,
        leesedwards_distance.put_atom_in_box_inplace,
        leesedwards_distance.put_atom_in_box_soa_inplace, hds, hdiv, hcnt]
      exact put_in_box_soa_rearranged _ _ ld._ndim hn N hloc hdep
        (fun h1 => ⟨fun x q h =>
            meta_leesedwards_image_soa_inplace_other ld._ndim x _ _ _ N q h1 h,
          fun x => meta_leesedwards_image_soa_inplace_strided ld._ndim x _ _ _ N h1⟩)
        coords hsize

/-- C40 witness: the periodic policy for the box `(10, 10)` and the two particles
`(1, 12)`, `(13, 4)`: `put_in_box_soa` on the dimension-major rearrangement yields the
dimension-major rearrangement of the result of `put_in_box`. -/
theorem C40_put_in_box_folds_each_particle_witness :
    (periodic_distance.members 2 (Array.ofList [10, 10])).put_in_box_soa
        (dimension_major 2 (Array.ofList [1, 12, 13, 4]))
      = dimension_major 2
        ((periodic_distance.members 2 (Array.ofList [10, 10])).put_in_box
          (Array.ofList [1, 12, 13, 4])) :=
  ((C40_put_in_box_folds_each_particle (periodic_distance.members 2 (Array.ofList [10, 10]))
    (leesedwards_distance.members 2 (Array.ofList [10, 10]) 1)
    (Array.ofList [1, 12, 13, 4]) 2).1 (by decide) rfl).2.2.2.2.2

end pele
